import Mathlib

/-!
# Verification of the qr-code-styling region-outlining / contour-tracing core

Shallow embedding of the TypeScript sources:
* `src/tools/path.utils.ts`  — path fragment builders (modelled as an inductive
  `Seg` of drawing primitives; each source function returns a string that is
  determined injectively by the primitive's parameters, so we model the output
  as the primitive itself);
* `src/core/PathDrawer.ts`   — the five edge-style drawer classes and
  `getDrawDirections`;
* `src/core/QRSVGBuilder.ts` — `buildConnectedComponents`,
  `renderComponentToPath`, `determineNextDirection`, `drawComponents`,
  `expandDotsMaskWithCircle`.

Numbers that are JavaScript floats in the source (`size`, `size / 2`, offsets)
are modelled as rationals `ℚ`; grid indices, which the source manipulates as
integers (possibly negative, with out-of-range indexing yielding `undefined`),
are modelled as `Int` with an explicit option-valued lookup.
-/

set_option maxHeartbeats 1000000

namespace QRStyling

/-- The `Directions` union type from `src/types`: `"top" | "right" | "bottom" | "left"`. -/
inductive Directions where
  | top
  | right
  | bottom
  | left
deriving DecidableEq, Repr, Fintype

/-- One drawing primitive, mirroring the path fragment builders of
`src/tools/path.utils.ts` plus the absolute/relative move-to commands that
`renderComponentToPath` and the `singleDot` glyphs write inline.
Each constructor corresponds to one string-producing source function
(e.g. `down size` ↦ `` `v ${size}` ``, `leftDownArc size` ↦
`` `a ${size} ${size} 0 0 0 -${size} ${size}` ``); distinct constructors and
distinct parameters produce distinct strings in the source. -/
inductive Seg where
  | moveAbs (x y : ℚ)
  | moveRel (dx dy : ℚ)
  | down (s : ℚ)
  | right (s : ℚ)
  | up (s : ℚ)
  | left (s : ℚ)
  | leftDownArc (s : ℚ)
  | upLeftArc (s : ℚ)
  | downRightArc (s : ℚ)
  | rightUpArc (s : ℚ)
  | bottomUArc (s : ℚ)
  | rightUArc (s : ℚ)
  | topUArc (s : ℚ)
  | leftUArc (s : ℚ)
deriving DecidableEq, Repr

/-- The record of drawing methods a `PathDrawer` instance exposes
(one field per method of the `PathDrawer` class of `src/core/PathDrawer.ts`).
The five style variants are built below as five records, with dynamic dispatch
of the TypeScript class hierarchy resolved per class. -/
structure PathDrawer where
  right : List Seg
  rightUp : List Seg
  rightU : List Seg
  left : List Seg
  leftDown : List Seg
  leftU : List Seg
  down : List Seg
  downRight : List Seg
  downU : List Seg
  up : List Seg
  upLeft : List Seg
  upU : List Seg
  singleDot : List Seg
deriving DecidableEq, Repr

/-! ## The five drawer classes

Base class `PathDrawer(size)` (all straight segments); the derived classes
override a handful of methods, and the base-class bodies that call
`this.rightUp()` / `this.leftDown()` dispatch to the override.

Class hierarchy of the source:
`PathDrawer` ← `ClassyPathDrawer` ← `RoundedPathDrawer` ← `ExtraRoundedPathDrawer`,
and `PathDrawer` ← `ClassyRoundedPathDrawer`. -/

/-- `ClassyPathDrawer.rightUp`: `right(size/2) + rightUpArc(size/2) + up(size/2)`. -/
def classyRightUp (size : ℚ) : List Seg :=
  [.right (size / 2), .rightUpArc (size / 2), .up (size / 2)]

/-- `ClassyPathDrawer.leftDown`: `left(size/2) + leftDownArc(size/2) + down(size/2)`. -/
def classyLeftDown (size : ℚ) : List Seg :=
  [.left (size / 2), .leftDownArc (size / 2), .down (size / 2)]

/-- The base `PathDrawer` class, with the two virtual methods `rightUp` and
`leftDown` passed in so that the base-class bodies
(`rightU = this.rightUp() + left`, `leftU = this.leftDown() + right`,
`downU = down + this.rightUp()`, `upU = up + this.leftDown()`,
`singleDot = m size 0 + this.leftDown() + this.rightUp()`) dispatch correctly
in subclasses. -/
def basePathDrawer (size : ℚ) (rightUp leftDown : List Seg) : PathDrawer where
  right := [.right size]
  rightUp := rightUp
  rightU := rightUp ++ [.left size]
  left := [.left size]
  leftDown := leftDown
  leftU := leftDown ++ [.right size]
  down := [.down size]
  downRight := [.down size, .right size]
  downU := [.down size] ++ rightUp
  up := [.up size]
  upLeft := [.up size, .left size]
  upU := [.up size] ++ leftDown
  singleDot := [.moveRel size 0] ++ leftDown ++ rightUp

/-- `new PathDrawer(size)` (the `square` style): no overrides. -/
def squarePathDrawer (size : ℚ) : PathDrawer :=
  basePathDrawer size [.right size, .up size] [.left size, .down size]

/-- `new ClassyPathDrawer(size)`: overrides `rightUp` and `leftDown` with
half-size arc versions; everything else (including `singleDot`, which
dispatches to the overridden pair) is inherited. -/
def classyPathDrawer (size : ℚ) : PathDrawer :=
  basePathDrawer size (classyRightUp size) (classyLeftDown size)

/-- `new ClassyRoundedPathDrawer(size)`: overrides `rightUp`/`leftDown` with
full-size arcs and overrides `singleDot` explicitly. -/
def classyRoundedPathDrawer (size : ℚ) : PathDrawer :=
  { basePathDrawer size [.rightUpArc size] [.leftDownArc size] with
    singleDot :=
      [.moveRel size 0,
       .left (size / 2), .leftDownArc (size / 2), .down (size / 2),
       .right (size / 2), .rightUpArc (size / 2), .up (size / 2)] }

/-- `new RoundedPathDrawer(size)` (extends `ClassyPathDrawer`): inherits the
classy half-arc `rightUp`/`leftDown`, and overrides `downRight`, `upLeft`, the
four U-turns, and `singleDot` with arc versions. -/
def roundedPathDrawer (size : ℚ) : PathDrawer :=
  { basePathDrawer size (classyRightUp size) (classyLeftDown size) with
    downRight := [.down (size / 2), .downRightArc (size / 2), .right (size / 2)]
    upLeft := [.up (size / 2), .upLeftArc (size / 2), .left (size / 2)]
    downU := [.down (size / 2), .bottomUArc size, .up (size / 2)]
    leftU := [.left (size / 2), .leftUArc size, .right (size / 2)]
    rightU := [.right (size / 2), .rightUArc size, .left (size / 2)]
    upU := [.up (size / 2), .topUArc size, .down (size / 2)]
    singleDot := [.moveRel (size / 2) 0, .leftUArc size, .rightUArc size] }

/-- `new ExtraRoundedPathDrawer(size)` (extends `RoundedPathDrawer`):
overrides the four 90°-turn methods with full-size arcs; everything else —
the four U-turns (`RoundedPathDrawer`'s direct `rightU`/`leftU`/`downU`/`upU`
bodies, which do not dispatch through the turn methods) and `singleDot` — is
inherited from `RoundedPathDrawer` unchanged. -/
def extraRoundedPathDrawer (size : ℚ) : PathDrawer :=
  { roundedPathDrawer size with
    rightUp := [.rightUpArc size]
    leftDown := [.leftDownArc size]
    downRight := [.downRightArc size]
    upLeft := [.upLeftArc size] }

/-- The drawer style union of `drawerFactory`. -/
inductive DrawerStyle where
  | classy
  | classyRounded
  | rounded
  | extraRounded
  | square
deriving DecidableEq, Repr

/-- `drawerFactory(style, size)` from `src/core/PathDrawer.ts`. -/
def drawerFactory : DrawerStyle → ℚ → PathDrawer
  | .classy, size => classyPathDrawer size
  | .classyRounded, size => classyRoundedPathDrawer size
  | .rounded, size => roundedPathDrawer size
  | .extraRounded, size => extraRoundedPathDrawer size
  | .square, size => squarePathDrawer size

/-- `getDrawDirections(drawer)` from `src/core/PathDrawer.ts`: the table from
(arrived-from origin, leaves-toward next) to the drawer method used, with
`null` entries modelled as `none`. -/
def getDrawDirections (drawer : PathDrawer) : Directions → Directions → Option (List Seg)
  | .left, .right => some drawer.right
  | .left, .bottom => none
  | .left, .left => some drawer.rightU
  | .left, .top => some drawer.rightUp
  | .right, .right => some drawer.leftU
  | .right, .bottom => some drawer.leftDown
  | .right, .left => some drawer.left
  | .right, .top => none
  | .top, .right => some drawer.downRight
  | .top, .bottom => some drawer.down
  | .top, .left => none
  | .top, .top => some drawer.downU
  | .bottom, .right => none
  | .bottom, .bottom => some drawer.upU
  | .bottom, .left => some drawer.upLeft
  | .bottom, .top => some drawer.up

/-! ## `determineNextDirection` (QRSVGBuilder.ts lines 448–459) -/

/-- The fixed rotation order `["left", "bottom", "right", "top"]` repeated twice. -/
def rotationOrder : List Directions :=
  [.left, .bottom, .right, .top, .left, .bottom, .right, .top]

/-- Index of a direction in `rotationOrder` (`rotationOrder.indexOf(origin)`,
which always hits the first copy). -/
def rotationIndex : Directions → Nat
  | .left => 0
  | .bottom => 1
  | .right => 2
  | .top => 3

/-- `Array.prototype.find` with the element index available to the predicate,
as used by `rotationOrder.slice(startIndex).find((_, index) => …)`. -/
def findWithIndex : List Directions → Nat → (Nat → Bool) → Option Directions
  | [], _, _ => none
  | d :: rest, i, p => if p i then some d else findWithIndex rest (i + 1) p

/-- `determineNextDirection(origin, hasLeft, hasRight, hasTop, hasBottom)`
from `src/core/QRSVGBuilder.ts`. -/
def determineNextDirection (origin : Directions)
    (hasLeft hasRight hasTop hasBottom : Bool) : Option Directions :=
  let startIndex := rotationIndex origin + 1
  let options : List Bool := [hasLeft, hasBottom, hasRight, hasTop]
  findWithIndex (rotationOrder.drop startIndex) 0
    (fun index => options.getD ((startIndex + index) % 4) false)

/-! ## Grids and the contour tracer (`renderComponentToPath`, QRSVGBuilder.ts 387–459) -/

/-- A label map: `components` in the source, `(number | null)[][]`. -/
abbrev LabelGrid := List (List (Option Nat))

/-- A grid coordinate, as the mutable `current` / `start` objects of
`renderComponentToPath`. The tracer's arithmetic can leave the grid, so the
fields are integers. -/
structure Pos where
  row : Int
  col : Int
deriving DecidableEq, Repr

/-- `components[r]?.[c]` with JavaScript semantics: out-of-range (including
negative) indices give `undefined`; both `undefined` and a `null` cell are
modelled as `none` (the tracer only compares the value with `=== componentId`,
and `drawComponents` only tests it for truthiness, so the two collapse). -/
def cellAt (g : LabelGrid) (r c : Int) : Option Nat :=
  if r < 0 ∨ c < 0 then none
  else (g.getD r.toNat []).getD c.toNat none

/-- The map `{ top: "bottom", right: "left", bottom: "top", left: "right" }`
applied to `nextDirection` to obtain the new arrival origin. -/
def opposite : Directions → Directions
  | .top => .bottom
  | .right => .left
  | .bottom => .top
  | .left => .right

/-- The `switch (nextDirection)` block updating `current`. -/
def moveDir (p : Pos) : Directions → Pos
  | .left => { p with col := p.col - 1 }
  | .bottom => { p with row := p.row + 1 }
  | .right => { p with col := p.col + 1 }
  | .top => { p with row := p.row - 1 }

/-- One full execution of the `do … while` loop of `renderComponentToPath`,
with explicit fuel (the source loop is unbounded; `none` = fuel exhausted
before the loop condition `current = start ∧ origin = originalOrigin` turned
false). Returns the emitted drawing primitives together with the sequence of
`nextDirection` values taken (the latter is determined by the former in the
source's string output; we record it explicitly for specification purposes). -/
def traceLoop (components : LabelGrid) (componentId : Nat) (drawer : PathDrawer)
    (start : Pos) (originalOrigin : Directions) :
    Nat → Directions → Pos → Option (List Seg × List Directions)
  | 0, _, _ => none
  | fuel + 1, origin, current =>
    let hasLeft : Bool := cellAt components current.row (current.col - 1) = some componentId
    let hasRight : Bool := cellAt components current.row (current.col + 1) = some componentId
    let hasTop : Bool := cellAt components (current.row - 1) current.col = some componentId
    let hasBottom : Bool := cellAt components (current.row + 1) current.col = some componentId
    match determineNextDirection origin hasLeft hasRight hasTop hasBottom with
    | none =>
      -- A single dot
      some (drawer.singleDot, [])
    | some nextDirection =>
      let seg := (getDrawDirections drawer origin nextDirection).getD []
      let current' := moveDir current nextDirection
      let origin' := opposite nextDirection
      if current' = start ∧ origin' = originalOrigin then
        some (seg, [nextDirection])
      else
        match traceLoop components componentId drawer start originalOrigin fuel origin' current' with
        | none => none
        | some (segs, dirs) => some (seg ++ segs, nextDirection :: dirs)

/-- The starting-orientation choice of `renderComponentToPath` (lines 396–408):
origin `right` when the right neighbor is in the component and `moveRight` is
not set, else `bottom` when the bottom neighbor is, else `top`; together with
the relative move the chosen branch appends to the initial `M` command. -/
def startOrigin (components : LabelGrid) (componentId : Nat) (start : Pos)
    (moveRight : Bool) (dotSize : ℚ) : Directions × List Seg :=
  if cellAt components start.row (start.col + 1) = some componentId ∧ moveRight = false then
    -- Start from the right
    (.right, [.moveRel dotSize 0])
  else if cellAt components (start.row + 1) start.col = some componentId then
    -- Start from the bottom (will always happen for backgroundComponents)
    (.bottom, [.moveRel dotSize dotSize])
  else
    (.top, [])

/-- `renderComponentToPath(componentId, components, offset, start, drawer, moveRight)`,
with `dotSize` the builder's `this._dotSize` and fuel for the unbounded loop. -/
def renderComponentToPath (componentId : Nat) (components : LabelGrid)
    (offset : ℚ × ℚ) (start : Pos) (drawer : PathDrawer) (moveRight : Bool)
    (dotSize : ℚ) (fuel : Nat) : Option (List Seg × List Directions) :=
  let pre : List Seg := [.moveAbs (start.col * dotSize + offset.1) (start.row * dotSize + offset.2)]
  let so := startOrigin components componentId start moveRight dotSize
  let origin := so.1
  match traceLoop components componentId drawer start origin fuel origin start with
  | none => none
  | some (segs, dirs) => some (pre ++ so.2 ++ segs, dirs)

/-! ## Region labeler, numeric-only semantics (`buildConnectedComponents`,
QRSVGBuilder.ts 307–385)

This section models the labeler over numeric labels only: every out-of-range
neighbor lookup is treated as absent. The source's `.filter((n) => n !== null)`
keeps JavaScript `undefined` (an out-of-range array access), which
`Math.min` turns into `NaN`; the full value semantics (`undefined`, `NaN`,
numbers) is modelled separately below (`buildConnectedComponentsJS`), and
`bccJS_embed` proves the two agree whenever no lookup can leave the grid —
for rectangular masks with at least as many columns as rows (always, when the
pass is 4-connected, since only an 8-connected pass reads the top-right
neighbor whose guard compares against the row count instead of the row
length). On other masks the two semantics genuinely diverge, which is what
the corrected claims about the labeler record. -/

/-- Mutable state of the raster scan: the fresh-id counter and the
`equivalences: Map<number, Set<number>>`.

The source's `Set` objects are shared by reference between all keys of the same
equivalence class (the union block takes the class of the minimum id and adds
every member of each other id's class to it, repointing those keys at the same
object). We model the map purely: each key holds the class as a `List Nat`,
and a union writes the merged class to every one of its members, which is
extensionally what the reference sharing produces. -/
structure LabelState where
  currentComponent : Nat
  eqv : List (Nat × List Nat)
deriving Repr

/-- `equivalences.get(k)` (association-list lookup, insertion order kept as
`Map` does). -/
def findClass (eqv : List (Nat × List Nat)) (k : Nat) : Option (List Nat) :=
  match eqv with
  | [] => none
  | (a, c) :: rest => if a = k then some c else findClass rest k

/-- `equivalences.set(k, c)`: replace in place, or append when the key is new. -/
def setClass (eqv : List (Nat × List Nat)) (k : Nat) (c : List Nat) : List (Nat × List Nat) :=
  match eqv with
  | [] => [(k, c)]
  | (a, c') :: rest => if a = k then (k, c) :: rest else (a, c') :: setClass rest k c

/-- `Set.prototype.add` over each element of `s` in order (no-op on elements
already present), starting from `cls`. -/
def addAll (cls : List Nat) (s : List Nat) : List Nat :=
  s.foldl (fun c e => if e ∈ c then c else c ++ [e]) cls

/-- `Math.min(...l)` for the nonempty lists the scan produces. -/
def listMin : List Nat → Nat
  | [] => 0
  | a :: rest => rest.foldl min a

/-- `equivalences.get(id) ?? [id]`. -/
def classOrDefault (eqv : List (Nat × List Nat)) (id : Nat) : List Nat :=
  (findClass eqv id).getD [id]

/-- The class built by the inner loops of the union block (lines 350–362):
start from `minComponent`'s class (`new Set([minComponent])` when absent),
then for each valid id not already in the class, add the id's whole class
(`equivalences.get(id) ?? [id]`) element by element. -/
def mergedClass (eqv : List (Nat × List Nat)) (minComponent : Nat)
    (validIds : List Nat) : List Nat :=
  validIds.foldl
    (fun c id => if id ∈ c then c else addAll c (classOrDefault eqv id))
    (classOrDefault eqv minComponent)

/-- The union block of the scan: after the inner loops, every member of the
merged class points at the merged class (the source achieves this by mutating
one `Set` object shared by reference among all those keys). -/
def unionInto (eqv : List (Nat × List Nat)) (minComponent : Nat)
    (validIds : List Nat) : List (Nat × List Nat) :=
  (mergedClass eqv minComponent validIds).foldl
    (fun m k => setClass m k (mergedClass eqv minComponent validIds)) eqv

/-- Static per-pass data for the scan. -/
structure ScanConfig where
  invert : Bool
  connectedness : Nat
  nRows : Nat
deriving Repr

/-- The `validIds` list gathered for one cell (lines 325–337): already-visited
neighbor labels — left and top for 4-connectivity, plus top-left and top-right
for 8-connectivity — plus the synthetic edge id `1` for border cells in an
8-connected pass. `prevRow` is `components[row-1]` (unused when `r = 0`),
`curRow` is the part of `components[row]` already built (length `c`). -/
def validIdsAt (cfg : ScanConfig) (r c rowLen : Nat)
    (prevRow curRow : List (Option Nat)) : List Nat :=
  let isEdge : Bool := c = 0 ∨ r = 0 ∨ c = rowLen - 1 ∨ r = cfg.nRows - 1
  let leftComponent : Option Nat := if c > 0 then curRow.getD (c - 1) none else none
  let topComponent : Option Nat := if r > 0 then prevRow.getD c none else none
  let topLeftComponent : Option Nat :=
    if c > 0 ∧ r > 0 ∧ cfg.connectedness = 8 then prevRow.getD (c - 1) none else none
  let topRightComponent : Option Nat :=
    if c < cfg.nRows - 1 ∧ r > 0 ∧ cfg.connectedness = 8 then prevRow.getD (c + 1) none else none
  [leftComponent, topComponent, topLeftComponent, topRightComponent,
    if isEdge ∧ cfg.connectedness = 8 then some 1 else none].filterMap id

/-- Labeling of one cell (the body of the inner `for` loop, lines 320–362):
zero valid ids allocate a fresh id, one valid id is copied, several get their
minimum with the union recorded. -/
def scanCell (cfg : ScanConfig) (r c rowLen : Nat) (maskVal : Bool)
    (prevRow curRow : List (Option Nat)) (st : LabelState) :
    Option Nat × LabelState :=
  if maskVal = cfg.invert then (none, st)
  else
    match validIdsAt cfg r c rowLen prevRow curRow with
    | [] =>
      let cc := st.currentComponent + 1
      (some cc, { st with currentComponent := cc })
    | [v] => (some v, st)
    | x :: y :: rest =>
      let m := listMin (x :: y :: rest)
      (some m, { st with eqv := unionInto st.eqv m (x :: y :: rest) })

/-- The inner column loop over one mask row. -/
def scanRow (cfg : ScanConfig) (r rowLen : Nat) (prevRow : List (Option Nat)) :
    Nat → List Bool → List (Option Nat) → LabelState →
    List (Option Nat) × LabelState
  | _, [], curRow, st => (curRow, st)
  | c, b :: rest, curRow, st =>
    let p := scanCell cfg r c rowLen b prevRow curRow st
    scanRow cfg r rowLen prevRow (c + 1) rest (curRow ++ [p.1]) p.2

/-- The outer row loop of the raster scan. -/
def scanRows (cfg : ScanConfig) :
    Nat → List (List Bool) → List (Option Nat) → List (List (Option Nat)) →
    LabelState → List (List (Option Nat)) × LabelState
  | _, [], _, acc, st => (acc, st)
  | r, row :: rest, prevRow, acc, st =>
    let p := scanRow cfg r row.length prevRow 0 row [] st
    scanRows cfg (r + 1) rest p.1 (acc ++ [p.1]) p.2

/-- `Math.min(...Array.from(equivalences.get(value) ?? [value]))`. -/
def resolveValue (eqv : List (Nat × List Nat)) (v : Nat) : Nat :=
  listMin ((findClass eqv v).getD [v])

/-- `ids.has(id)` for the registry association list. -/
def hasId (ids : List (Nat × Pos)) (id : Nat) : Bool :=
  ids.any (fun p => p.1 = id)

/-- The alias-resolution pass over one row (lines 369–380): each truthy cell is
rewritten to the minimum of its equivalence class, and the registry records the
first coordinate seen for each canonical id. -/
def resolveRow (eqv : List (Nat × List Nat)) (r : Nat) :
    Nat → List (Option Nat) → List (Option Nat) → List (Nat × Pos) →
    List (Option Nat) × List (Nat × Pos)
  | _, [], acc, ids => (acc, ids)
  | c, none :: rest, acc, ids => resolveRow eqv r (c + 1) rest (acc ++ [none]) ids
  | c, some value :: rest, acc, ids =>
    if value ≠ 0 then
      -- id := Math.min over the equivalence class; register first occurrence
      resolveRow eqv r (c + 1) rest (acc ++ [some (resolveValue eqv value)])
        (if hasId ids (resolveValue eqv value) then ids
         else ids ++ [(resolveValue eqv value, ⟨(r : Int), (c : Int)⟩)])
    else
      resolveRow eqv r (c + 1) rest (acc ++ [some value]) ids

/-- The alias-resolution pass over all rows. -/
def resolveRows (eqv : List (Nat × List Nat)) :
    Nat → List (List (Option Nat)) → List (List (Option Nat)) → List (Nat × Pos) →
    List (List (Option Nat)) × List (Nat × Pos)
  | _, [], acc, ids => (acc, ids)
  | r, row :: rest, acc, ids =>
    let p := resolveRow eqv r 0 row [] ids
    resolveRows eqv (r + 1) rest (acc ++ [p.1]) p.2

/-- Result of `buildConnectedComponents`: the resolved label map and the
registry from canonical id to its first raster coordinate. -/
structure CCResult where
  components : LabelGrid
  ids : List (Nat × Pos)
deriving Repr

/-- `buildConnectedComponents(dotsMask, invert, connectedness)` from
`src/core/QRSVGBuilder.ts`. -/
def buildConnectedComponents (dotsMask : List (List Bool)) (invert : Bool := false)
    (connectedness : Nat := 4) : CCResult :=
  let cfg : ScanConfig := ⟨invert, connectedness, dotsMask.length⟩
  let p := scanRows cfg 0 dotsMask [] [] ⟨1, []⟩
  let q := resolveRows p.2.eqv 0 p.1 [] []
  ⟨q.1, q.2⟩

/-! ## Hole compositor (`drawComponents`, QRSVGBuilder.ts 157–206)

Only the pure path-assembly part is modelled (the DOM `path` elements, fill
attributes and `fill-rule` are presentation-layer side effects). -/

/-- `if (!map.has(k)) map.set(k, []); map.get(k)!.push(v)` on the
`backgroundPathsForComponent` map. -/
def pushGroup (m : List (Nat × List Nat)) (k v : Nat) : List (Nat × List Nat) :=
  match m with
  | [] => [(k, [v])]
  | (a, l) :: rest => if a = k then (a, l ++ [v]) :: rest else (a, l) :: pushGroup rest k v

/-- `backgroundIds.get(id)` on the registry. -/
def findStart (ids : List (Nat × Pos)) (id : Nat) : Option Pos :=
  match ids with
  | [] => none
  | (a, p) :: rest => if a = id then some p else findStart rest id

/-- One iteration of the registration loop of lines 172–182: look up the
foreground component immediately left of the background component's start;
skip when that is falsy (`null`, `0`, or out of range) or when `id <= 1`. -/
def bgGroupStep (fgComponents : LabelGrid) (acc : List (Nat × List Nat))
    (p : Nat × Pos) : List (Nat × List Nat) :=
  match cellAt fgComponents p.2.row (p.2.col - 1) with
  | none => acc
  | some s => if s = 0 ∨ p.1 ≤ 1 then acc else pushGroup acc s p.1

/-- The `backgroundPathsForComponent` map built by lines 172–182, folding
`bgGroupStep` over the background registry in order. -/
def backgroundPathsForComponent (fgComponents : LabelGrid)
    (backgroundIds : List (Nat × Pos)) : List (Nat × List Nat) :=
  backgroundIds.foldl (bgGroupStep fgComponents) []

/-- The per-foreground-component compound path of `drawComponents`
(lines 184–201): the component's own contour followed by the contour of each
registered hole, the latter traced from the hole's start shifted one cell up
and one cell left with `moveRight = true`. `none` propagates fuel exhaustion
of any contained walk. One appended hole (lines 188–199): look up the hole's
registered start and trace from it shifted one cell up and one cell left with
`moveRight = true`. -/
def holeAppendStep (fgComponents : LabelGrid) (backgroundIds : List (Nat × Pos))
    (offset : ℚ × ℚ) (drawer : PathDrawer) (dotSize : ℚ) (fuel : Nat) (id : Nat)
    (fullPath : Option (List Seg)) (backgroundPathId : Nat) : Option (List Seg) :=
  match fullPath, findStart backgroundIds backgroundPathId with
  | some fp, some start =>
    match renderComponentToPath id fgComponents offset
        ⟨start.row - 1, start.col - 1⟩ drawer true dotSize fuel with
    | some sp => some (fp ++ sp.1)
    | none => none
  | _, _ => none

/-- The per-foreground-component compound path of `drawComponents`
(lines 184–201): the component's own contour followed by the contour of each
registered hole, via `holeAppendStep`. -/
def componentFullPath (fgComponents : LabelGrid) (backgroundIds : List (Nat × Pos))
    (bgFor : List (Nat × List Nat)) (offset : ℚ × ℚ) (drawer : PathDrawer)
    (dotSize : ℚ) (fuel : Nat) (id : Nat) (path : Option (List Seg)) :
    Option (List Seg) :=
  let backgroundPaths := ((bgFor.find? (fun q => q.1 = id)).map Prod.snd).getD []
  backgroundPaths.foldl (holeAppendStep fgComponents backgroundIds offset drawer dotSize fuel id) path

/-- `drawComponents(dotsMask, offset, fillColor, drawer)`: the list, in
foreground-registry order, of `(componentId, compound path)`. -/
def drawComponents (dotsMask : List (List Bool)) (offset : ℚ × ℚ)
    (drawer : PathDrawer) (dotSize : ℚ) (fuel : Nat) :
    List (Nat × Option (List Seg)) :=
  let fg := buildConnectedComponents dotsMask false 4
  let bg := buildConnectedComponents dotsMask true 8
  let paths : List (Nat × Option (List Seg)) := fg.ids.map (fun p =>
    (p.1, (renderComponentToPath p.1 fg.components offset p.2 drawer false dotSize fuel).map Prod.fst))
  let bgFor := backgroundPathsForComponent fg.components bg.ids
  paths.map (fun q =>
    (q.1, componentFullPath fg.components bg.ids bgFor offset drawer dotSize fuel q.1 q.2))

/-! ## Shape expander (`expandDotsMaskWithCircle`, QRSVGBuilder.ts 461–499) -/

/-- `dotsMask[r]?.[c]` for a boolean mask (out-of-range, including negative,
gives `none`; the call site applies `?? false`). -/
def maskCell (m : List (List Bool)) (r c : Int) : Option Bool :=
  if r < 0 ∨ c < 0 then none
  else (m.get? r.toNat).bind (fun row => row.get? c.toNat)

/-- `expandDotsMaskWithCircle(dotsMask)`. `count` is `moduleCount()`,
`additionalDots` the padding computed by the builder from the viewbox (taken
here as a parameter since its value comes from float geometry), `center` is
`_roundSize(fakeCount / 2)`, and `isDark` the symbol oracle `this._qr.isDark`
(called with possibly out-of-range arguments by the ring-sampling formula, and
with the column-derived expression as its first argument). The source's
`Math.sqrt(d2) > center` test is modelled as `d2 > center^2`, equivalent for
the nonnegative `center` the builder computes. -/
def expandDotsMaskWithCircle (count additionalDots : Nat) (center : ℚ)
    (isDark : Int → Int → Bool) (dotsMask : List (List Bool)) : List (List Bool) :=
  -- fakeCount = count + additionalDots * 2, inlined below
  (List.range (count + additionalDots * 2)).map (fun row =>
    (List.range (count + additionalDots * 2)).map (fun col =>
      if additionalDots - 1 ≤ row ∧ row ≤ count + additionalDots * 2 - additionalDots ∧
          additionalDots - 1 ≤ col ∧ col ≤ count + additionalDots * 2 - additionalDots then
        (maskCell dotsMask ((row : Int) - additionalDots) ((col : Int) - additionalDots)).getD false
      else if ((row : ℚ) - center) ^ 2 + ((col : ℚ) - center) ^ 2 > center ^ 2 then
        false
      else
        -- Get random dots from QR code to show it outside of QR code
        isDark
          (if (col : Int) - 2 * additionalDots < 0 then (col : Int)
           else if (count : Int) ≤ (col : Int) then (col : Int) - 2 * additionalDots
           else (col : Int) - additionalDots)
          (if (row : Int) - 2 * additionalDots < 0 then (row : Int)
           else if (count : Int) ≤ (row : Int) then (row : Int) - 2 * additionalDots
           else (row : Int) - additionalDots)))

/-! ## Specification-side definitions (from the spec's words, for comparison) -/

/-- The cyclic order `[left, bottom, right, top]` read starting just after the
given direction's position, wrapping around — the spec's description of the
next-direction rule (spec §4.4). -/
def cyclicAfter : Directions → List Directions
  | .left => [.bottom, .right, .top, .left]
  | .bottom => [.right, .top, .left, .bottom]
  | .right => [.top, .left, .bottom, .right]
  | .top => [.left, .bottom, .right, .top]

/-- Whether the neighbor in the given direction is flagged as in the component. -/
def hasDir (hasLeft hasRight hasTop hasBottom : Bool) : Directions → Bool
  | .left => hasLeft
  | .right => hasRight
  | .top => hasTop
  | .bottom => hasBottom

/-- Modelled from the spec: "starting just after the current arrival
direction's position in that order, pick the first neighbor flagged as
belonging to the component". -/
def specNextDirection (origin : Directions)
    (hasLeft hasRight hasTop hasBottom : Bool) : Option Directions :=
  (cyclicAfter origin).find? (hasDir hasLeft hasRight hasTop hasBottom)

/-- A segment is one of the arc-producing primitives of `path.utils`. -/
def Seg.isArc : Seg → Bool
  | .leftDownArc _ | .upLeftArc _ | .downRightArc _ | .rightUpArc _
  | .bottomUArc _ | .rightUArc _ | .topUArc _ | .leftUArc _ => true
  | _ => false

/-! ## Claim theorems: drawers and the next-direction rule -/

/-- **C2**: the next travel direction is the first same-component neighbor in
the fixed circular order `[left, bottom, right, top]` starting just after the
arrival direction's position (wrapping); and when none of the start cell's
four neighbors belongs to the component, `renderComponentToPath` emits exactly
the move-to prefix followed by the drawer's single-dot glyph and takes no
transition step at all (empty direction sequence). -/
theorem nextDirection_rule_and_single_dot :
    (∀ (origin : Directions) (hasLeft hasRight hasTop hasBottom : Bool),
      determineNextDirection origin hasLeft hasRight hasTop hasBottom =
        specNextDirection origin hasLeft hasRight hasTop hasBottom) ∧
    (∀ (components : LabelGrid) (componentId : Nat) (offset : ℚ × ℚ) (start : Pos)
      (drawer : PathDrawer) (moveRight : Bool) (dotSize : ℚ) (fuel : Nat),
      cellAt components start.row (start.col - 1) ≠ some componentId →
      cellAt components start.row (start.col + 1) ≠ some componentId →
      cellAt components (start.row - 1) start.col ≠ some componentId →
      cellAt components (start.row + 1) start.col ≠ some componentId →
      renderComponentToPath componentId components offset start drawer moveRight
          dotSize (fuel + 1) =
        some ([.moveAbs (start.col * dotSize + offset.1) (start.row * dotSize + offset.2)]
          ++ drawer.singleDot, [])) := by
  constructor
  · intro origin hasLeft hasRight hasTop hasBottom
    cases origin <;> cases hasLeft <;> cases hasRight <;> cases hasTop <;> cases hasBottom <;> rfl
  · intro components componentId offset start drawer moveRight dotSize fuel hL hR hT hB
    unfold renderComponentToPath startOrigin
    rw [if_neg (by simp [hR]), if_neg (by simp [hB])]
    unfold traceLoop
    rw [decide_eq_false hL, decide_eq_false hR, decide_eq_false hT, decide_eq_false hB]
    rfl

/-- Witness for the single-dot half of the previous theorem, on the one-cell
grid `[[some 2]]`. -/
theorem nextDirection_rule_and_single_dot_witness :
    renderComponentToPath 2 [[some 2]] (0, 0) ⟨0, 0⟩ (squarePathDrawer 4) false 4 1 =
      some ([.moveAbs 0 0] ++ (squarePathDrawer 4).singleDot, []) := by
  have h := nextDirection_rule_and_single_dot.2 [[some 2]] 2 (0, 0) ⟨0, 0⟩
    (squarePathDrawer 4) false 4 0 (by decide) (by decide) (by decide) (by decide)
  simpa using h

/-- **C7** counterexample: the transition "arrived from left, leaves toward
bottom" is one of the eight 90° turns, yet the drawer table maps it to `null` —
not every one of the sixteen transition combinations produces drawing output. -/
theorem drawDirections_left_bottom_none :
    getDrawDirections (drawerFactory .square 4) .left .bottom = none ∧
    getDrawDirections (drawerFactory .rounded 4) .left .bottom = none := by
  decide

/-- **C7** (amended): for each of the five styles, the drawer table provides
drawing output for exactly twelve of the sixteen arrived-from/leaves-toward
combinations — the four straight continuations, the four U-turns, and four of
the eight 90° turns — while the other four 90° turns (left→bottom, right→top,
top→left, bottom→right, the inner corners) map to `null`, for which the tracer
emits nothing; the single-dot glyph exists for every style. -/
theorem drawDirections_coverage :
    ∀ (style : DrawerStyle) (size : ℚ) (origin next : Directions),
      (getDrawDirections (drawerFactory style size) origin next).isSome =
        !((origin = .left ∧ next = .bottom) ∨ (origin = .right ∧ next = .top) ∨
          (origin = .top ∧ next = .left) ∨ (origin = .bottom ∧ next = .right) : Bool) := by
  intro style size origin next
  cases style <;> cases origin <;> cases next <;> rfl

/-- **C8**: the classy drawer rounds exactly the diagonal pair of turns —
`rightUp` and `leftDown` become half-module-radius quarter arcs flanked by
half-module straight legs — while `downRight` and `upLeft` remain the sharp
right angles of the square drawer (no arc at all), and its single-dot glyph is
the small rounded diamond (two half-size straight legs and a half-size quarter
arc on each of the two rounded corners). -/
theorem classy_drawer_turns :
    ∀ size : ℚ,
      (classyPathDrawer size).rightUp =
        [.right (size / 2), .rightUpArc (size / 2), .up (size / 2)] ∧
      (classyPathDrawer size).leftDown =
        [.left (size / 2), .leftDownArc (size / 2), .down (size / 2)] ∧
      (classyPathDrawer size).downRight = (squarePathDrawer size).downRight ∧
      (classyPathDrawer size).upLeft = (squarePathDrawer size).upLeft ∧
      ((classyPathDrawer size).downRight.all (fun s => !s.isArc)) = true ∧
      ((classyPathDrawer size).upLeft.all (fun s => !s.isArc)) = true ∧
      (classyPathDrawer size).singleDot =
        [.moveRel size 0,
         .left (size / 2), .leftDownArc (size / 2), .down (size / 2),
         .right (size / 2), .rightUpArc (size / 2), .up (size / 2)] ∧
      (classyPathDrawer size).singleDot = (classyRoundedPathDrawer size).singleDot := by
  intro size
  refine ⟨rfl, rfl, rfl, rfl, rfl, rfl, rfl, rfl⟩

/-! ## Claim theorem: shape expander interior preservation -/

/-- Indexing a mapped range list. -/
theorem getD_map_range {α : Type} (f : Nat → α) (n i : Nat) (d : α) (h : i < n) :
    ((List.range n).map f).getD i d = f i := by
  simp [List.getD_eq_getElem?_getD, List.getElem?_range h]

/-- **C9**: `expandDotsMaskWithCircle` never alters the interior `N×N` block:
the expanded mask is `(N+2p)×(N+2p)`, and for all `r, c < N` its cell at the
translated position `(r+p, c+p)` equals the input mask's cell at `(r, c)`. -/
theorem expand_preserves_interior :
    ∀ (count additionalDots : Nat) (center : ℚ) (isDark : Int → Int → Bool)
      (dotsMask : List (List Bool)) (r c : Nat),
      r < count → c < count →
      (expandDotsMaskWithCircle count additionalDots center isDark dotsMask).length =
        count + 2 * additionalDots ∧
      (∀ row ∈ expandDotsMaskWithCircle count additionalDots center isDark dotsMask,
        row.length = count + 2 * additionalDots) ∧
      ((expandDotsMaskWithCircle count additionalDots center isDark dotsMask).getD
          (r + additionalDots) []).getD (c + additionalDots) false =
        (dotsMask.getD r []).getD c false := by
  intro count p center isDark dotsMask r c hr hc
  unfold expandDotsMaskWithCircle
  refine ⟨by simp; omega, ?_, ?_⟩
  · intro row hrow
    simp only [List.mem_map] at hrow
    obtain ⟨i, _, rfl⟩ := hrow
    simp
    omega
  · rw [getD_map_range _ _ _ _ (by omega : r + p < count + p * 2),
        getD_map_range _ _ _ _ (by omega : c + p < count + p * 2)]
    rw [if_pos (by omega)]
    have hr' : ((r + p : Nat) : Int) - (p : Int) = (r : Int) := by push_cast; ring
    have hc' : ((c + p : Nat) : Int) - (p : Int) = (c : Int) := by push_cast; ring
    rw [hr', hc']
    unfold maskCell
    rw [if_neg (by omega)]
    simp only [Int.toNat_natCast]
    rw [List.getD_eq_getElem?_getD, List.getD_eq_getElem?_getD]
    cases hrow : dotsMask[r]? with
    | none => simp [hrow]
    | some row =>
      cases hcol : row[c]? with
      | none => simp [hrow, hcol]
      | some b => simp [hrow, hcol]

/-! ## Invariants of the equivalence map -/

/-- Well-formedness: every recorded class contains its key, and every member of
a class is itself mapped to that same class — the reference-sharing discipline
of the source's `Set` objects (all keys of one class alias one object). -/
def EqvWf (eqv : List (Nat × List Nat)) : Prop :=
  ∀ a C, findClass eqv a = some C → a ∈ C ∧ ∀ b ∈ C, findClass eqv b = some C

/-- All class members lie in `[1, cc]`. -/
def EqvBnd (eqv : List (Nat × List Nat)) (cc : Nat) : Prop :=
  ∀ a C, findClass eqv a = some C → ∀ b ∈ C, 1 ≤ b ∧ b ≤ cc

/-- Two ids are recorded as equivalent (reflexive closure of membership in the
recorded class). -/
def equivR (eqv : List (Nat × List Nat)) (u v : Nat) : Prop :=
  u = v ∨ ∃ C, findClass eqv u = some C ∧ v ∈ C

/-- A set of ids closed under the recorded classes. -/
def ClassClosed (eqv : List (Nat × List Nat)) (c : List Nat) : Prop :=
  ∀ u ∈ c, ∀ C, findClass eqv u = some C → ∀ x ∈ C, x ∈ c

theorem equivR_refl (eqv : List (Nat × List Nat)) (u : Nat) : equivR eqv u u :=
  Or.inl rfl

theorem equivR_symm {eqv : List (Nat × List Nat)} (hwf : EqvWf eqv) {u v : Nat}
    (h : equivR eqv u v) : equivR eqv v u := by
  rcases h with rfl | ⟨C, hC, hv⟩
  · exact Or.inl rfl
  · obtain ⟨hu, hall⟩ := hwf u C hC
    exact Or.inr ⟨C, hall v hv, hu⟩

theorem findClass_setClass_self (m : List (Nat × List Nat)) (k : Nat) (c : List Nat) :
    findClass (setClass m k c) k = some c := by
  induction m with
  | nil => simp [setClass, findClass]
  | cons p rest ih =>
    obtain ⟨a, c'⟩ := p
    by_cases h : a = k
    · subst h; simp [setClass, findClass]
    · simp [setClass, findClass, h, ih]

theorem findClass_setClass_ne (m : List (Nat × List Nat)) (k : Nat) (c : List Nat)
    (k' : Nat) (h : k' ≠ k) :
    findClass (setClass m k c) k' = findClass m k' := by
  induction m with
  | nil => simp [setClass, findClass, Ne.symm h]
  | cons p rest ih =>
    obtain ⟨a, c'⟩ := p
    by_cases ha : a = k
    · subst ha
      simp [setClass, findClass, Ne.symm h]
    · by_cases ha' : a = k'
      · subst ha'; simp [setClass, findClass, ha]
      · simp [setClass, findClass, ha, ha', ih]

theorem findClass_setMany (C : List Nat) :
    ∀ (L : List Nat) (m : List (Nat × List Nat)) (k : Nat),
      findClass (L.foldl (fun mp x => setClass mp x C) m) k =
        if k ∈ L then some C else findClass m k := by
  intro L
  induction L with
  | nil => intro m k; simp
  | cons a L ih =>
    intro m k
    rw [List.foldl_cons, ih]
    by_cases hL : k ∈ L
    · simp [hL, List.mem_cons]
    · by_cases hk : k = a
      · subst hk; simp [hL, findClass_setClass_self]
      · simp [hL, hk, findClass_setClass_ne m a C k hk]

theorem findClass_unionInto (eqv : List (Nat × List Nat)) (m : Nat)
    (ids : List Nat) (k : Nat) :
    findClass (unionInto eqv m ids) k =
      if k ∈ mergedClass eqv m ids then some (mergedClass eqv m ids)
      else findClass eqv k :=
  findClass_setMany _ _ _ _

theorem addAll_subset_left (s c : List Nat) : ∀ x ∈ c, x ∈ addAll c s := by
  induction s generalizing c with
  | nil => intro x hx; exact hx
  | cons e s ih =>
    intro x hx
    unfold addAll
    rw [List.foldl_cons]
    by_cases he : e ∈ c
    · rw [if_pos he]; exact ih c x hx
    · rw [if_neg he]
      exact ih (c ++ [e]) x (List.mem_append_left _ hx)

theorem addAll_subset_right (s c : List Nat) : ∀ x ∈ s, x ∈ addAll c s := by
  induction s generalizing c with
  | nil => intro x hx; simp at hx
  | cons e s ih =>
    intro x hx
    unfold addAll
    rw [List.foldl_cons]
    rcases List.mem_cons.1 hx with rfl | hx'
    · by_cases he : x ∈ c
      · rw [if_pos he]; exact addAll_subset_left s c x he
      · rw [if_neg he]
        exact addAll_subset_left s (c ++ [x]) x (List.mem_append_right _ (List.mem_singleton.2 rfl))
    · by_cases he : e ∈ c
      · rw [if_pos he]; exact ih c x hx'
      · rw [if_neg he]; exact ih (c ++ [e]) x hx'

theorem addAll_cases (s c : List Nat) : ∀ x ∈ addAll c s, x ∈ c ∨ x ∈ s := by
  induction s generalizing c with
  | nil => intro x hx; exact Or.inl hx
  | cons e s ih =>
    intro x hx
    unfold addAll at hx
    rw [List.foldl_cons] at hx
    by_cases he : e ∈ c
    · rw [if_pos he] at hx
      rcases ih c x hx with h | h
      · exact Or.inl h
      · exact Or.inr (List.mem_cons_of_mem _ h)
    · rw [if_neg he] at hx
      rcases ih (c ++ [e]) x hx with h | h
      · rcases List.mem_append.1 h with h' | h'
        · exact Or.inl h'
        · exact Or.inr (List.mem_cons.2 (Or.inl (List.mem_singleton.1 h')))
      · exact Or.inr (List.mem_cons_of_mem _ h)

theorem mem_classOrDefault_self {eqv : List (Nat × List Nat)} (hwf : EqvWf eqv)
    (k : Nat) : k ∈ classOrDefault eqv k := by
  unfold classOrDefault
  cases h : findClass eqv k with
  | none => simp
  | some C => simpa using (hwf k C h).1

theorem classOrDefault_closed {eqv : List (Nat × List Nat)} (hwf : EqvWf eqv)
    (k : Nat) : ClassClosed eqv (classOrDefault eqv k) := by
  intro u hu C hC x hx
  unfold classOrDefault at hu ⊢
  cases h : findClass eqv k with
  | none =>
    rw [h] at hu
    simp at hu
    rw [hu] at hC
    rw [h] at hC
    exact Option.noConfusion hC
  | some D =>
    rw [h] at hu
    simp at hu
    have := (hwf k D h).2 u hu
    rw [this] at hC
    cases hC
    simpa using hx

/-- `mergedClass` written with an explicit accumulator, for induction. -/
theorem mergedClass_eq_foldl (eqv : List (Nat × List Nat)) (m : Nat) (ids : List Nat) :
    mergedClass eqv m ids =
      ids.foldl (fun c id => if id ∈ c then c else addAll c (classOrDefault eqv id))
        (classOrDefault eqv m) := rfl

theorem mergeFold_subset (eqv : List (Nat × List Nat)) (ids : List Nat) :
    ∀ (c0 : List Nat), ∀ x ∈ c0,
      x ∈ ids.foldl (fun c id => if id ∈ c then c else addAll c (classOrDefault eqv id)) c0 := by
  induction ids with
  | nil => intro c0 x hx; exact hx
  | cons a ids ih =>
    intro c0 x hx
    rw [List.foldl_cons]
    by_cases ha : a ∈ c0
    · rw [if_pos ha]; exact ih c0 x hx
    · rw [if_neg ha]
      exact ih _ x (addAll_subset_left _ c0 x hx)

theorem mergeFold_mem (eqv : List (Nat × List Nat)) (hwf : EqvWf eqv) (ids : List Nat) :
    ∀ (c0 : List Nat), ∀ id ∈ ids,
      id ∈ ids.foldl (fun c i => if i ∈ c then c else addAll c (classOrDefault eqv i)) c0 := by
  induction ids with
  | nil => intro c0 id h; simp at h
  | cons a ids ih =>
    intro c0 id hid
    rw [List.foldl_cons]
    rcases List.mem_cons.1 hid with rfl | h
    · by_cases ha : id ∈ c0
      · rw [if_pos ha]; exact mergeFold_subset eqv ids c0 id ha
      · rw [if_neg ha]
        exact mergeFold_subset eqv ids _ id
          (addAll_subset_right _ c0 id (mem_classOrDefault_self hwf id))
    · by_cases ha : a ∈ c0
      · rw [if_pos ha]; exact ih c0 id h
      · rw [if_neg ha]; exact ih _ id h

theorem mergeFold_cases (eqv : List (Nat × List Nat)) (ids : List Nat) :
    ∀ (c0 : List Nat) (x : Nat),
      x ∈ ids.foldl (fun c i => if i ∈ c then c else addAll c (classOrDefault eqv i)) c0 →
      x ∈ c0 ∨ ∃ id ∈ ids, x ∈ classOrDefault eqv id := by
  induction ids with
  | nil => intro c0 x hx; exact Or.inl hx
  | cons a ids ih =>
    intro c0 x hx
    rw [List.foldl_cons] at hx
    by_cases ha : a ∈ c0
    · rw [if_pos ha] at hx
      rcases ih c0 x hx with h | ⟨id, hid, hm⟩
      · exact Or.inl h
      · exact Or.inr ⟨id, List.mem_cons_of_mem _ hid, hm⟩
    · rw [if_neg ha] at hx
      rcases ih _ x hx with h | ⟨id, hid, hm⟩
      · rcases addAll_cases _ c0 x h with h' | h'
        · exact Or.inl h'
        · exact Or.inr ⟨a, List.mem_cons_self _ _, h'⟩
      · exact Or.inr ⟨id, List.mem_cons_of_mem _ hid, hm⟩

theorem mergeFold_closed (eqv : List (Nat × List Nat)) (hwf : EqvWf eqv) (ids : List Nat) :
    ∀ (c0 : List Nat), ClassClosed eqv c0 →
      ClassClosed eqv
        (ids.foldl (fun c i => if i ∈ c then c else addAll c (classOrDefault eqv i)) c0) := by
  induction ids with
  | nil => intro c0 h; exact h
  | cons a ids ih =>
    intro c0 hc0
    rw [List.foldl_cons]
    by_cases ha : a ∈ c0
    · rw [if_pos ha]; exact ih c0 hc0
    · rw [if_neg ha]
      refine ih _ ?_
      intro u hu C hC x hx
      rcases addAll_cases _ c0 u hu with h | h
      · exact addAll_subset_left _ c0 x (hc0 u h C hC x hx)
      · exact addAll_subset_right _ c0 x (classOrDefault_closed hwf a u h C hC x hx)

theorem mem_mergedClass_min {eqv : List (Nat × List Nat)} (hwf : EqvWf eqv)
    (m : Nat) (ids : List Nat) : m ∈ mergedClass eqv m ids := by
  rw [mergedClass_eq_foldl]
  exact mergeFold_subset eqv ids _ m (mem_classOrDefault_self hwf m)

theorem mem_mergedClass_ids {eqv : List (Nat × List Nat)} (hwf : EqvWf eqv)
    (m : Nat) {ids : List Nat} {id : Nat} (hid : id ∈ ids) :
    id ∈ mergedClass eqv m ids := by
  rw [mergedClass_eq_foldl]
  exact mergeFold_mem eqv hwf ids _ id hid

theorem mergedClass_closed {eqv : List (Nat × List Nat)} (hwf : EqvWf eqv)
    (m : Nat) (ids : List Nat) : ClassClosed eqv (mergedClass eqv m ids) := by
  rw [mergedClass_eq_foldl]
  exact mergeFold_closed eqv hwf ids _ (classOrDefault_closed hwf m)

theorem mergedClass_cases {eqv : List (Nat × List Nat)} (m : Nat) (ids : List Nat)
    (x : Nat) (hx : x ∈ mergedClass eqv m ids) :
    x ∈ classOrDefault eqv m ∨ ∃ id ∈ ids, x ∈ classOrDefault eqv id := by
  rw [mergedClass_eq_foldl] at hx
  exact mergeFold_cases eqv ids _ x hx

theorem EqvWf_unionInto {eqv : List (Nat × List Nat)} (hwf : EqvWf eqv)
    (m : Nat) (ids : List Nat) : EqvWf (unionInto eqv m ids) := by
  intro a C hC
  rw [findClass_unionInto] at hC
  by_cases ha : a ∈ mergedClass eqv m ids
  · rw [if_pos ha] at hC
    cases hC
    refine ⟨ha, ?_⟩
    intro b hb
    rw [findClass_unionInto, if_pos hb]
  · rw [if_neg ha] at hC
    obtain ⟨haC, hall⟩ := hwf a C hC
    refine ⟨haC, ?_⟩
    intro b hb
    have hbn : b ∉ mergedClass eqv m ids := by
      intro hbm
      exact ha (mergedClass_closed hwf m ids b hbm C (hall b hb) a haC)
    rw [findClass_unionInto, if_neg hbn]
    exact hall b hb

theorem equivR_mono_unionInto {eqv : List (Nat × List Nat)} (hwf : EqvWf eqv)
    (m : Nat) (ids : List Nat) {u v : Nat} (h : equivR eqv u v) :
    equivR (unionInto eqv m ids) u v := by
  rcases h with rfl | ⟨C, hC, hv⟩
  · exact Or.inl rfl
  · by_cases hu : u ∈ mergedClass eqv m ids
    · refine Or.inr ⟨mergedClass eqv m ids, ?_, ?_⟩
      · rw [findClass_unionInto, if_pos hu]
      · exact mergedClass_closed hwf m ids u hu C hC v hv
    · refine Or.inr ⟨C, ?_, hv⟩
      rw [findClass_unionInto, if_neg hu]
      exact hC

theorem equivR_unionInto_new {eqv : List (Nat × List Nat)} (hwf : EqvWf eqv)
    (m : Nat) {ids : List Nat} {id : Nat} (hid : id ∈ ids) :
    equivR (unionInto eqv m ids) m id := by
  refine Or.inr ⟨mergedClass eqv m ids, ?_, mem_mergedClass_ids hwf m hid⟩
  rw [findClass_unionInto, if_pos (mem_mergedClass_min hwf m ids)]

theorem classOrDefault_bnd {eqv : List (Nat × List Nat)} {cc : Nat}
    (hbnd : EqvBnd eqv cc) {k : Nat} (hk : 1 ≤ k ∧ k ≤ cc) :
    ∀ x ∈ classOrDefault eqv k, 1 ≤ x ∧ x ≤ cc := by
  intro x hx
  unfold classOrDefault at hx
  cases h : findClass eqv k with
  | none => rw [h] at hx; simp at hx; subst hx; exact hk
  | some C => rw [h] at hx; simp at hx; exact hbnd k C h x hx

theorem EqvBnd_unionInto {eqv : List (Nat × List Nat)} {cc : Nat}
    (hbnd : EqvBnd eqv cc) {m : Nat} {ids : List Nat}
    (hm : 1 ≤ m ∧ m ≤ cc) (hids : ∀ id ∈ ids, 1 ≤ id ∧ id ≤ cc) :
    EqvBnd (unionInto eqv m ids) cc := by
  intro a C hC b hb
  rw [findClass_unionInto] at hC
  by_cases ha : a ∈ mergedClass eqv m ids
  · rw [if_pos ha] at hC
    cases hC
    rcases mergedClass_cases m ids b hb with h | ⟨id, hid, h⟩
    · exact classOrDefault_bnd hbnd hm b h
    · exact classOrDefault_bnd hbnd (hids id hid) b h
  · rw [if_neg ha] at hC
    exact hbnd a C hC b hb

theorem EqvBnd_mono {eqv : List (Nat × List Nat)} {cc cc' : Nat}
    (h : EqvBnd eqv cc) (hle : cc ≤ cc') : EqvBnd eqv cc' := by
  intro a C hC b hb
  obtain ⟨h1, h2⟩ := h a C hC b hb
  exact ⟨h1, le_trans h2 hle⟩

/-! ## `listMin` and `filterMap` helper lemmas -/

theorem foldl_min_le_init (l : List Nat) : ∀ a : Nat, l.foldl min a ≤ a := by
  induction l with
  | nil => intro a; exact le_refl a
  | cons x l ih =>
    intro a
    rw [List.foldl_cons]
    exact le_trans (ih (min a x)) (min_le_left a x)

theorem foldl_min_le_mem (l : List Nat) : ∀ (a : Nat), ∀ x ∈ l, l.foldl min a ≤ x := by
  induction l with
  | nil => intro a x hx; simp at hx
  | cons y l ih =>
    intro a x hx
    rw [List.foldl_cons]
    rcases List.mem_cons.1 hx with rfl | h
    · exact le_trans (foldl_min_le_init l (min a x)) (min_le_right a x)
    · exact ih (min a y) x h

theorem foldl_min_mem (l : List Nat) : ∀ a : Nat, l.foldl min a = a ∨ l.foldl min a ∈ l := by
  induction l with
  | nil => intro a; exact Or.inl rfl
  | cons x l ih =>
    intro a
    rw [List.foldl_cons]
    rcases Nat.le_total a x with hax | hax
    · rw [min_eq_left hax]
      rcases ih a with h | h
      · exact Or.inl h
      · exact Or.inr (List.mem_cons_of_mem _ h)
    · rw [min_eq_right hax]
      rcases ih x with h | h
      · exact Or.inr (by rw [h]; exact List.mem_cons_self _ _)
      · exact Or.inr (List.mem_cons_of_mem _ h)

theorem listMin_cons (a : Nat) (rest : List Nat) :
    listMin (a :: rest) = rest.foldl min a := rfl

theorem listMin_mem {l : List Nat} (h : l ≠ []) : listMin l ∈ l := by
  cases l with
  | nil => exact absurd rfl h
  | cons a rest =>
    rw [listMin_cons]
    rcases foldl_min_mem rest a with h' | h'
    · rw [h']; exact List.mem_cons_self _ _
    · exact List.mem_cons_of_mem _ h'

theorem listMin_le {l : List Nat} {x : Nat} (hx : x ∈ l) : listMin l ≤ x := by
  cases l with
  | nil => simp at hx
  | cons a rest =>
    rw [listMin_cons]
    rcases List.mem_cons.1 hx with rfl | h
    · exact foldl_min_le_init rest x
    · exact foldl_min_le_mem rest a x h

theorem filterMap_id_nil {l : List (Option Nat)} (h : l.filterMap id = []) :
    ∀ x ∈ l, x = none := by
  intro x hx
  cases x with
  | none => rfl
  | some v =>
    exfalso
    have : v ∈ l.filterMap id := List.mem_filterMap.2 ⟨some v, hx, rfl⟩
    rw [h] at this
    simp at this

theorem filterMap_id_mem {l : List (Option Nat)} {v : Nat} (hx : some v ∈ l) :
    v ∈ l.filterMap id :=
  List.mem_filterMap.2 ⟨some v, hx, rfl⟩

theorem filterMap_id_singleton {l : List (Option Nat)} {v : Nat}
    (h : l.filterMap id = [v]) : ∀ x ∈ l, x = none ∨ x = some v := by
  intro x hx
  cases x with
  | none => exact Or.inl rfl
  | some u =>
    have : u ∈ l.filterMap id := filterMap_id_mem hx
    rw [h] at this
    simp at this
    exact Or.inr (by rw [this])

/-! ## Grid-level scan invariants -/

/-- The label stored at `(r, c)` of a (possibly partial) label grid. -/
def labelOf (P : LabelGrid) (r c : Nat) : Option Nat :=
  (P.getD r []).getD c none

/-- `1` occurs in some recorded equivalence class. -/
def OneInEqv (eqv : List (Nat × List Nat)) : Prop :=
  ∃ k C, findClass eqv k = some C ∧ 1 ∈ C

/-- Whether `(r, c)` satisfies the scan's `isEdge` test (grid border). -/
def isBorderM (cfg : ScanConfig) (mask : List (List Bool)) (r c : Nat) : Prop :=
  c = 0 ∨ r = 0 ∨ c = (mask.getD r []).length - 1 ∨ r = cfg.nRows - 1

theorem getD_append_left {α : Type} (l₁ l₂ : List α) (d : α) (i : Nat)
    (h : i < l₁.length) : (l₁ ++ l₂).getD i d = l₁.getD i d := by
  simp [List.getD_eq_getElem?_getD, List.getElem?_append_left h]

theorem getD_append_right {α : Type} (l₁ l₂ : List α) (d : α) (i : Nat)
    (h : l₁.length ≤ i) : (l₁ ++ l₂).getD i d = l₂.getD (i - l₁.length) d := by
  simp [List.getD_eq_getElem?_getD, List.getElem?_append_right h]

theorem getD_length_self {α : Type} (l : List α) (x d : α) :
    (l ++ [x]).getD l.length d = x := by
  rw [getD_append_right _ _ _ _ (le_refl _)]
  simp [List.getD]

theorem getD_none_of_length_le {α : Type} (l : List α) (d : α) (i : Nat)
    (h : l.length ≤ i) : l.getD i d = d := by
  simp [List.getD_eq_getElem?_getD, List.getElem?_eq_none h]

/-- `labelOf` after appending the freshly labeled cell at `(r, c)`. -/
theorem labelOf_snoc (acc : LabelGrid) (curRow : List (Option Nat))
    (lbl : Option Nat) (r c : Nat) (hr : acc.length = r) (hc : curRow.length = c)
    (r' c' : Nat) :
    labelOf (acc ++ [curRow ++ [lbl]]) r' c' =
      if r' = r ∧ c' = c then lbl else labelOf (acc ++ [curRow]) r' c' := by
  by_cases hcase : r' = r ∧ c' = c
  · rw [if_pos hcase]
    unfold labelOf
    rw [getD_append_right acc _ _ _ (by omega)]
    have h0 : r' - acc.length = 0 := by omega
    rw [h0]
    simp only [List.getD_cons_zero]
    have hcl : c' = curRow.length := by omega
    rw [hcl, getD_length_self]
  · rw [if_neg hcase]
    unfold labelOf
    rcases Nat.lt_trichotomy r' r with hlt | heq | hgt
    · rw [getD_append_left acc _ _ _ (by omega), getD_append_left acc _ _ _ (by omega)]
    · have hcc : c' ≠ c := fun h => hcase ⟨heq, h⟩
      rw [getD_append_right acc _ _ _ (by omega), getD_append_right acc _ _ _ (by omega)]
      have h0 : r' - acc.length = 0 := by omega
      rw [h0]
      simp only [List.getD_cons_zero]
      rcases Nat.lt_or_ge c' c with hclt | hge
      · rw [getD_append_left curRow _ _ _ (by omega)]
      · rw [getD_none_of_length_le (curRow ++ [lbl]) _ _ (by simp; omega),
          getD_none_of_length_le curRow _ _ (by omega)]
    · rw [getD_none_of_length_le (acc ++ [curRow ++ [lbl]]) _ _ (by simp; omega),
        getD_none_of_length_le (acc ++ [curRow]) _ _ (by simp; omega)]

/-- Appending a fresh empty row does not change any stored label. -/
theorem labelOf_append_nil (P : LabelGrid) (r c : Nat) :
    labelOf (P ++ [[]]) r c = labelOf P r c := by
  unfold labelOf
  rcases Nat.lt_or_ge r P.length with h | h
  · rw [getD_append_left _ _ _ _ h]
  · rw [getD_none_of_length_le P _ _ h]
    rcases Nat.lt_or_ge r (P ++ [[]]).length with h2 | h2
    · have : r = P.length := by simp at h2; omega
      rw [this, getD_length_self]
    · rw [getD_none_of_length_le _ _ _ h2]

theorem OneInEqv_unionInto {eqv : List (Nat × List Nat)} {m : Nat} {ids : List Nat}
    (h : OneInEqv (unionInto eqv m ids)) :
    OneInEqv eqv ∨ m = 1 ∨ 1 ∈ ids := by
  obtain ⟨k, C, hC, h1⟩ := h
  rw [findClass_unionInto] at hC
  by_cases hk : k ∈ mergedClass eqv m ids
  · rw [if_pos hk] at hC
    cases hC
    rcases mergedClass_cases m ids 1 h1 with hm | ⟨id, hid, hm⟩
    · unfold classOrDefault at hm
      cases hf : findClass eqv m with
      | none => rw [hf] at hm; simp at hm; exact Or.inr (Or.inl hm.symm)
      | some D => rw [hf] at hm; simp at hm; exact Or.inl ⟨m, D, hf, hm⟩
    · unfold classOrDefault at hm
      cases hf : findClass eqv id with
      | none =>
        rw [hf] at hm; simp at hm
        exact Or.inr (Or.inr (hm ▸ hid))
      | some D => rw [hf] at hm; simp at hm; exact Or.inl ⟨id, D, hf, hm⟩
  · rw [if_neg hk] at hC
    exact Or.inl ⟨k, C, hC, h1⟩

/-- The inductive invariant of the raster labeling scan, stated about the
partial label grid `P` (completed rows plus the row under construction) and
the scan state. -/
structure ScanInv (cfg : ScanConfig) (mask : List (List Bool)) (P : LabelGrid)
    (st : LabelState) : Prop where
  wf : EqvWf st.eqv
  bnd : EqvBnd st.eqv st.currentComponent
  ccpos : 1 ≤ st.currentComponent
  labBnd : ∀ r c v, labelOf P r c = some v → 1 ≤ v ∧ v ≤ st.currentComponent
  adjH : ∀ r c u v, labelOf P r c = some u → labelOf P r (c + 1) = some v →
    equivR st.eqv u v
  adjV : ∀ r c u v, labelOf P r c = some u → labelOf P (r + 1) c = some v →
    equivR st.eqv u v
  borderOne : cfg.connectedness = 8 → ∀ r c v, labelOf P r c = some v →
    isBorderM cfg mask r c → v = 1
  borderInv : cfg.connectedness = 8 →
    (OneInEqv st.eqv ∨ ∃ r c, labelOf P r c = some 1) →
    ∃ r c, labelOf P r c = some 1 ∧ isBorderM cfg mask r c

/-- `ScanInv` only depends on the grid through `labelOf`. -/
theorem ScanInv_congr {cfg : ScanConfig} {mask : List (List Bool)}
    {P Q : LabelGrid} {st : LabelState}
    (h : ∀ r c, labelOf Q r c = labelOf P r c)
    (inv : ScanInv cfg mask P st) : ScanInv cfg mask Q st where
  wf := inv.wf
  bnd := inv.bnd
  ccpos := inv.ccpos
  labBnd := fun r c v hv => inv.labBnd r c v (h r c ▸ hv)
  adjH := fun r c u v hu hv => inv.adjH r c u v (h r c ▸ hu) (h r (c + 1) ▸ hv)
  adjV := fun r c u v hu hv => inv.adjV r c u v (h r c ▸ hu) (h (r + 1) c ▸ hv)
  borderOne := fun h8 r c v hv hb => inv.borderOne h8 r c v (h r c ▸ hv) hb
  borderInv := fun h8 hyp => by
    rcases inv.borderInv h8 (by
      rcases hyp with hone | ⟨r, c, hc⟩
      · exact Or.inl hone
      · exact Or.inr ⟨r, c, h r c ▸ hc⟩) with ⟨r, c, hc, hb⟩
    exact ⟨r, c, (h r c).symm ▸ hc, hb⟩

/-! ## Per-cell specification of the scan -/

theorem labelOf_cur (acc : LabelGrid) (curRow : List (Option Nat)) {r : Nat}
    (hr : acc.length = r) (j : Nat) :
    labelOf (acc ++ [curRow]) r j = curRow.getD j none := by
  unfold labelOf
  rw [getD_append_right _ _ _ _ (by omega)]
  have h0 : r - acc.length = 0 := by omega
  rw [h0]
  simp only [List.getD_cons_zero]

theorem labelOf_acc (acc : LabelGrid) (curRow : List (Option Nat)) {i : Nat}
    (hi : i < acc.length) (j : Nat) :
    labelOf (acc ++ [curRow]) i j = (acc.getD i []).getD j none := by
  unfold labelOf
  rw [getD_append_left _ _ _ _ hi]

/-- Membership characterization of the `validIds` list. -/
theorem mem_validIdsAt (cfg : ScanConfig) (r c rowLen : Nat)
    (prevRow curRow : List (Option Nat)) (x : Nat) :
    x ∈ validIdsAt cfg r c rowLen prevRow curRow ↔
      (0 < c ∧ curRow.getD (c - 1) none = some x) ∨
      (0 < r ∧ prevRow.getD c none = some x) ∨
      (0 < c ∧ 0 < r ∧ cfg.connectedness = 8 ∧ prevRow.getD (c - 1) none = some x) ∨
      (c < cfg.nRows - 1 ∧ 0 < r ∧ cfg.connectedness = 8 ∧ prevRow.getD (c + 1) none = some x) ∨
      ((c = 0 ∨ r = 0 ∨ c = rowLen - 1 ∨ r = cfg.nRows - 1) ∧ cfg.connectedness = 8 ∧ x = 1) := by
  unfold validIdsAt
  simp only [List.mem_filterMap, List.mem_cons, List.not_mem_nil, or_false, id_eq]
  constructor
  · rintro ⟨a, ha, rfl⟩
    rcases ha with heq | heq | heq | heq | heq
    all_goals rw [eq_comm] at heq
    · split_ifs at heq with h
      exact Or.inl ⟨h, heq⟩
    · split_ifs at heq with h
      exact Or.inr (Or.inl ⟨h, heq⟩)
    · split_ifs at heq with h
      exact Or.inr (Or.inr (Or.inl ⟨h.1, h.2.1, h.2.2, heq⟩))
    · split_ifs at heq with h
      exact Or.inr (Or.inr (Or.inr (Or.inl ⟨h.1, h.2.1, h.2.2, heq⟩)))
    · split_ifs at heq with h
      have hx1 : x = 1 := (Option.some.inj heq).symm
      refine Or.inr (Or.inr (Or.inr (Or.inr ⟨?_, h.2, hx1⟩)))
      simpa using h.1
  · intro h
    rcases h with ⟨hcp, heq⟩ | ⟨hrp, heq⟩ | ⟨h1, h2, h3, heq⟩ | ⟨h1, h2, h3, heq⟩ | ⟨hb, h8, rfl⟩
    · exact ⟨_, Or.inl rfl, by rw [if_pos hcp]; exact heq⟩
    · exact ⟨_, Or.inr (Or.inl rfl), by rw [if_pos hrp]; exact heq⟩
    · exact ⟨_, Or.inr (Or.inr (Or.inl rfl)), by rw [if_pos ⟨h1, h2, h3⟩]; exact heq⟩
    · exact ⟨_, Or.inr (Or.inr (Or.inr (Or.inl rfl))),
        by rw [if_pos ⟨h1, h2, h3⟩]; exact heq⟩
    · refine ⟨_, Or.inr (Or.inr (Or.inr (Or.inr rfl))), ?_⟩
      rw [if_pos ⟨by simpa using hb, h8⟩]

/-- Valid ids are bounded by the current counter (each is an already-assigned
label, or the synthetic `1`). -/
theorem validIdsAt_bound {cfg : ScanConfig} {mask : List (List Bool)}
    {r c rowLen : Nat} {prevRow curRow : List (Option Nat)} {st : LabelState}
    {acc : LabelGrid} (hr : acc.length = r) (hprev : prevRow = acc.getD (r - 1) [])
    (inv : ScanInv cfg mask (acc ++ [curRow]) st) :
    ∀ x ∈ validIdsAt cfg r c rowLen prevRow curRow,
      1 ≤ x ∧ x ≤ st.currentComponent := by
  intro x hx
  rw [mem_validIdsAt] at hx
  rcases hx with ⟨hcp, heq⟩ | ⟨hrp, heq⟩ | ⟨h1, h2, _, heq⟩ | ⟨h1, h2, _, heq⟩ | ⟨_, _, rfl⟩
  · exact inv.labBnd r (c - 1) x (by rw [labelOf_cur acc curRow hr]; exact heq)
  · refine inv.labBnd (r - 1) c x ?_
    rw [labelOf_acc acc curRow (show r - 1 < acc.length by omega), ← hprev]
    exact heq
  · refine inv.labBnd (r - 1) (c - 1) x ?_
    rw [labelOf_acc acc curRow (show r - 1 < acc.length by omega), ← hprev]
    exact heq
  · refine inv.labBnd (r - 1) (c + 1) x ?_
    rw [labelOf_acc acc curRow (show r - 1 < acc.length by omega), ← hprev]
    exact heq
  · exact ⟨le_refl 1, inv.ccpos⟩

theorem validIdsAt_left {cfg : ScanConfig} {r c rowLen : Nat}
    {prevRow curRow : List (Option Nat)} {u : Nat}
    (hcp : 0 < c) (heq : curRow.getD (c - 1) none = some u) :
    u ∈ validIdsAt cfg r c rowLen prevRow curRow := by
  rw [mem_validIdsAt]; exact Or.inl ⟨hcp, heq⟩

theorem validIdsAt_top {cfg : ScanConfig} {r c rowLen : Nat}
    {prevRow curRow : List (Option Nat)} {u : Nat}
    (hrp : 0 < r) (heq : prevRow.getD c none = some u) :
    u ∈ validIdsAt cfg r c rowLen prevRow curRow := by
  rw [mem_validIdsAt]; exact Or.inr (Or.inl ⟨hrp, heq⟩)

theorem validIdsAt_border {cfg : ScanConfig} {mask : List (List Bool)}
    {r c rowLen : Nat} {prevRow curRow : List (Option Nat)}
    (h8 : cfg.connectedness = 8) (hrowLen : rowLen = (mask.getD r []).length)
    (hb : isBorderM cfg mask r c) :
    1 ∈ validIdsAt cfg r c rowLen prevRow curRow := by
  rw [mem_validIdsAt]
  refine Or.inr (Or.inr (Or.inr (Or.inr ⟨?_, h8, rfl⟩)))
  unfold isBorderM at hb
  rw [hrowLen]
  exact hb

/-- Provenance of the synthetic/propagated id `1` among the valid ids. -/
theorem validIdsAt_one {cfg : ScanConfig} {mask : List (List Bool)}
    {r c rowLen : Nat} {prevRow curRow : List (Option Nat)} {acc : LabelGrid}
    (hr : acc.length = r) (hprev : prevRow = acc.getD (r - 1) [])
    (hrowLen : rowLen = (mask.getD r []).length)
    (h1 : 1 ∈ validIdsAt cfg r c rowLen prevRow curRow) :
    (∃ r0 c0, labelOf (acc ++ [curRow]) r0 c0 = some 1) ∨
      (cfg.connectedness = 8 ∧ isBorderM cfg mask r c) := by
  rw [mem_validIdsAt] at h1
  rcases h1 with ⟨hcp, heq⟩ | ⟨hrp, heq⟩ | ⟨hh1, hh2, _, heq⟩ | ⟨hh1, hh2, _, heq⟩ | ⟨hb, h8, _⟩
  · exact Or.inl ⟨r, c - 1, by rw [labelOf_cur acc curRow hr]; exact heq⟩
  · refine Or.inl ⟨r - 1, c, ?_⟩
    rw [labelOf_acc acc curRow (show r - 1 < acc.length by omega), ← hprev]
    exact heq
  · refine Or.inl ⟨r - 1, c - 1, ?_⟩
    rw [labelOf_acc acc curRow (show r - 1 < acc.length by omega), ← hprev]
    exact heq
  · refine Or.inl ⟨r - 1, c + 1, ?_⟩
    rw [labelOf_acc acc curRow (show r - 1 < acc.length by omega), ← hprev]
    exact heq
  · refine Or.inr ⟨h8, ?_⟩
    unfold isBorderM
    rw [← hrowLen]
    exact hb

/-- Appending an unlabeled (skipped) cell preserves the scan invariant. -/
theorem ScanInv_snoc_none {cfg : ScanConfig} {mask : List (List Bool)}
    {acc : LabelGrid} {curRow : List (Option Nat)} {r c : Nat} {st : LabelState}
    (hr : acc.length = r) (hc : curRow.length = c)
    (inv : ScanInv cfg mask (acc ++ [curRow]) st) :
    ScanInv cfg mask (acc ++ [curRow ++ [none]]) st := by
  have hsn := labelOf_snoc acc curRow none r c hr hc
  have hnone : labelOf (acc ++ [curRow]) r c = none := by
    rw [labelOf_cur acc curRow hr]
    exact getD_none_of_length_le curRow none c (by omega)
  constructor
  case wf => exact inv.wf
  case bnd => exact inv.bnd
  case ccpos => exact inv.ccpos
  case labBnd =>
    intro r' c' v hv
    rw [hsn] at hv
    split_ifs at hv
    exact inv.labBnd r' c' v hv
  case adjH =>
    intro r' c' u v hu hv
    rw [hsn] at hu
    rw [hsn] at hv
    split_ifs at hu
    split_ifs at hv
    exact inv.adjH r' c' u v hu hv
  case adjV =>
    intro r' c' u v hu hv
    rw [hsn] at hu
    rw [hsn] at hv
    split_ifs at hu
    split_ifs at hv
    exact inv.adjV r' c' u v hu hv
  case borderOne =>
    intro h8 r' c' v hv hb
    rw [hsn] at hv
    split_ifs at hv
    exact inv.borderOne h8 r' c' v hv hb
  case borderInv =>
    intro h8 hyp
    have hyp' : OneInEqv st.eqv ∨ ∃ r0 c0, labelOf (acc ++ [curRow]) r0 c0 = some 1 := by
      rcases hyp with h | ⟨r0, c0, h⟩
      · exact Or.inl h
      · rw [hsn] at h
        split_ifs at h
        exact Or.inr ⟨r0, c0, h⟩
    obtain ⟨r0, c0, h, hb⟩ := inv.borderInv h8 hyp'
    have hne : ¬(r0 = r ∧ c0 = c) := by
      rintro ⟨rfl, rfl⟩
      rw [hnone] at h
      exact Option.noConfusion h
    exact ⟨r0, c0, by rw [hsn, if_neg hne]; exact h, hb⟩

/-- Appending a freshly labeled cell preserves the scan invariant, given the
facts the labeling rule establishes about the new label and the new state. -/
theorem ScanInv_snoc_some {cfg : ScanConfig} {mask : List (List Bool)}
    {acc : LabelGrid} {curRow : List (Option Nat)} {r c : Nat}
    {st st' : LabelState} {v : Nat}
    (hr : acc.length = r) (hc : curRow.length = c)
    (inv : ScanInv cfg mask (acc ++ [curRow]) st)
    (hwf' : EqvWf st'.eqv)
    (hbnd' : EqvBnd st'.eqv st'.currentComponent)
    (hccpos' : 1 ≤ st'.currentComponent)
    (hcc : st.currentComponent ≤ st'.currentComponent)
    (hmono : ∀ u w, equivR st.eqv u w → equivR st'.eqv u w)
    (hvbnd : 1 ≤ v ∧ v ≤ st'.currentComponent)
    (hleft : ∀ u, 0 < c → labelOf (acc ++ [curRow]) r (c - 1) = some u →
      equivR st'.eqv u v)
    (htop : ∀ u, 0 < r → labelOf (acc ++ [curRow]) (r - 1) c = some u →
      equivR st'.eqv u v)
    (hborder : cfg.connectedness = 8 → isBorderM cfg mask r c → v = 1)
    (hone : cfg.connectedness = 8 → (OneInEqv st'.eqv ∨ v = 1) →
      (OneInEqv st.eqv ∨ ∃ r0 c0, labelOf (acc ++ [curRow]) r0 c0 = some 1) ∨
        (isBorderM cfg mask r c ∧ v = 1)) :
    ScanInv cfg mask (acc ++ [curRow ++ [some v]]) st' := by
  have hsn := labelOf_snoc acc curRow (some v) r c hr hc
  have hnone : labelOf (acc ++ [curRow]) r c = none := by
    rw [labelOf_cur acc curRow hr]
    exact getD_none_of_length_le curRow none c (by omega)
  constructor
  case wf => exact hwf'
  case bnd => exact hbnd'
  case ccpos => exact hccpos'
  case labBnd =>
    intro r' c' w hw
    rw [hsn] at hw
    by_cases hcase : r' = r ∧ c' = c
    · rw [if_pos hcase] at hw
      cases Option.some.inj hw
      exact hvbnd
    · rw [if_neg hcase] at hw
      obtain ⟨hb1, hb2⟩ := inv.labBnd r' c' w hw
      exact ⟨hb1, le_trans hb2 hcc⟩
  case adjH =>
    intro r' c' u w hu hw
    rw [hsn] at hu
    rw [hsn] at hw
    by_cases hu_new : r' = r ∧ c' = c
    · exfalso
      rw [if_pos hu_new] at hu
      rw [if_neg (by omega)] at hw
      rw [hu_new.1, hu_new.2] at hw
      rw [labelOf_cur acc curRow hr,
        getD_none_of_length_le curRow none (c + 1) (by omega)] at hw
      exact Option.noConfusion hw
    · rw [if_neg hu_new] at hu
      by_cases hw_new : r' = r ∧ c' + 1 = c
      · rw [if_pos hw_new] at hw
        cases Option.some.inj hw
        refine hleft u (by omega) ?_
        rw [← hw_new.1, (show c - 1 = c' by omega)]
        exact hu
      · rw [if_neg hw_new] at hw
        exact hmono u w (inv.adjH r' c' u w hu hw)
  case adjV =>
    intro r' c' u w hu hw
    rw [hsn] at hu
    rw [hsn] at hw
    by_cases hu_new : r' = r ∧ c' = c
    · exfalso
      rw [if_pos hu_new] at hu
      rw [if_neg (by omega)] at hw
      rw [hu_new.1, hu_new.2] at hw
      unfold labelOf at hw
      rw [getD_none_of_length_le (acc ++ [curRow]) [] (r + 1) (by simp; omega)] at hw
      simp at hw
    · rw [if_neg hu_new] at hu
      by_cases hw_new : r' + 1 = r ∧ c' = c
      · rw [if_pos hw_new] at hw
        cases Option.some.inj hw
        refine htop u (by omega) ?_
        rw [← hw_new.2, (show r - 1 = r' by omega)]
        exact hu
      · rw [if_neg hw_new] at hw
        exact hmono u w (inv.adjV r' c' u w hu hw)
  case borderOne =>
    intro h8 r' c' w hw hb
    rw [hsn] at hw
    by_cases hcase : r' = r ∧ c' = c
    · rw [if_pos hcase] at hw
      cases Option.some.inj hw
      refine hborder h8 ?_
      rw [← hcase.1, ← hcase.2]
      exact hb
    · rw [if_neg hcase] at hw
      exact inv.borderOne h8 r' c' w hw hb
  case borderInv =>
    intro h8 hyp
    have step :
        (OneInEqv st.eqv ∨ ∃ r0 c0, labelOf (acc ++ [curRow]) r0 c0 = some 1) ∨
          (isBorderM cfg mask r c ∧ v = 1) := by
      rcases hyp with hone' | ⟨r0, c0, h⟩
      · exact hone h8 (Or.inl hone')
      · rw [hsn] at h
        by_cases hcase : r0 = r ∧ c0 = c
        · rw [if_pos hcase] at h
          exact hone h8 (Or.inr (Option.some.inj h))
        · rw [if_neg hcase] at h
          exact Or.inl (Or.inr ⟨r0, c0, h⟩)
    rcases step with hold | ⟨hb, hv1⟩
    · obtain ⟨r0, c0, h, hb⟩ := inv.borderInv h8 hold
      have hne : ¬(r0 = r ∧ c0 = c) := by
        rintro ⟨rfl, rfl⟩
        rw [hnone] at h
        exact Option.noConfusion h
      exact ⟨r0, c0, by rw [hsn, if_neg hne]; exact h, hb⟩
    · exact ⟨r, c, by rw [hsn, if_pos ⟨rfl, rfl⟩, hv1], hb⟩

/-- Full specification of one scan step: the invariant is preserved, the
fresh-id counter never decreases, and the cell is labeled iff its mask value
differs from the pass polarity. -/
theorem scanCell_spec (cfg : ScanConfig) (mask : List (List Bool))
    (r c rowLen : Nat) (b : Bool) (prevRow curRow : List (Option Nat))
    (st : LabelState) (acc : LabelGrid)
    (hr : acc.length = r) (hc : curRow.length = c)
    (hprev : prevRow = acc.getD (r - 1) [])
    (hrowLen : rowLen = (mask.getD r []).length)
    (inv : ScanInv cfg mask (acc ++ [curRow]) st) :
    ScanInv cfg mask
        (acc ++ [curRow ++ [(scanCell cfg r c rowLen b prevRow curRow st).1]])
        (scanCell cfg r c rowLen b prevRow curRow st).2 ∧
      st.currentComponent ≤
        (scanCell cfg r c rowLen b prevRow curRow st).2.currentComponent ∧
      ((scanCell cfg r c rowLen b prevRow curRow st).1.isSome ↔ ¬b = cfg.invert) := by
  unfold scanCell
  by_cases hbi : b = cfg.invert
  · rw [if_pos hbi]
    exact ⟨ScanInv_snoc_none hr hc inv, le_refl _, by simp [hbi]⟩
  · rw [if_neg hbi]
    cases hv : validIdsAt cfg r c rowLen prevRow curRow with
    | nil =>
      dsimp only
      refine ⟨?_, by omega, by simp [hbi]⟩
      refine ScanInv_snoc_some hr hc inv inv.wf
        (EqvBnd_mono inv.bnd (by simp)) (by simp)
        (by simp)
        (fun u w h => h) ⟨by simp, le_refl _⟩ ?_ ?_ ?_ ?_
      · intro u hcpos hlab
        exfalso
        have hm : u ∈ validIdsAt cfg r c rowLen prevRow curRow :=
          validIdsAt_left hcpos (by rw [← labelOf_cur acc curRow hr (c - 1)]; exact hlab)
        rw [hv] at hm
        simp at hm
      · intro u hrpos hlab
        exfalso
        rw [labelOf_acc acc curRow (show r - 1 < acc.length by omega), ← hprev] at hlab
        have hm : u ∈ validIdsAt cfg r c rowLen prevRow curRow := validIdsAt_top hrpos hlab
        rw [hv] at hm
        simp at hm
      · intro h8 hb
        exfalso
        have hm : 1 ∈ validIdsAt cfg r c rowLen prevRow curRow :=
          validIdsAt_border h8 hrowLen hb
        rw [hv] at hm
        simp at hm
      · intro h8 hyp
        rcases hyp with hone' | habs
        · exact Or.inl (Or.inl hone')
        · exact absurd habs (by have := inv.ccpos; omega)
    | cons x rest =>
      cases rest with
      | nil =>
        dsimp only
        have hx_mem : x ∈ validIdsAt cfg r c rowLen prevRow curRow := by
          rw [hv]; exact List.mem_cons_self _ _
        have hxb := validIdsAt_bound hr hprev inv x hx_mem
        refine ⟨?_, le_refl _, by simp [hbi]⟩
        refine ScanInv_snoc_some hr hc inv inv.wf inv.bnd inv.ccpos (le_refl _)
          (fun u w h => h) hxb ?_ ?_ ?_ ?_
        · intro u hcpos hlab
          have hm : u ∈ validIdsAt cfg r c rowLen prevRow curRow :=
            validIdsAt_left hcpos (by rw [← labelOf_cur acc curRow hr (c - 1)]; exact hlab)
          rw [hv] at hm
          simp at hm
          exact hm ▸ equivR_refl st.eqv x
        · intro u hrpos hlab
          rw [labelOf_acc acc curRow (show r - 1 < acc.length by omega), ← hprev] at hlab
          have hm : u ∈ validIdsAt cfg r c rowLen prevRow curRow := validIdsAt_top hrpos hlab
          rw [hv] at hm
          simp at hm
          exact hm ▸ equivR_refl st.eqv x
        · intro h8 hb
          have hm : 1 ∈ validIdsAt cfg r c rowLen prevRow curRow :=
            validIdsAt_border h8 hrowLen hb
          rw [hv] at hm
          simp at hm
          exact hm.symm
        · intro h8 hyp
          rcases hyp with hone' | hx1
          · exact Or.inl (Or.inl hone')
          · have h1m : 1 ∈ validIdsAt cfg r c rowLen prevRow curRow := by
              rw [hv, hx1]; exact List.mem_cons_self _ _
            rcases validIdsAt_one hr hprev hrowLen h1m with h | ⟨_, hb⟩
            · exact Or.inl (Or.inr h)
            · exact Or.inr ⟨hb, hx1⟩
      | cons y rest2 =>
        dsimp only
        have hbnd_vs : ∀ z ∈ (x :: y :: rest2), 1 ≤ z ∧ z ≤ st.currentComponent :=
          fun z hz => validIdsAt_bound hr hprev inv z (hv ▸ hz)
        have hm_mem : listMin (x :: y :: rest2) ∈ (x :: y :: rest2) :=
          listMin_mem (by simp)
        have hwf' := EqvWf_unionInto inv.wf (listMin (x :: y :: rest2)) (x :: y :: rest2)
        have hmin_one : (1 : Nat) ∈ (x :: y :: rest2) → listMin (x :: y :: rest2) = 1 := by
          intro h1
          have := listMin_le h1
          have := (hbnd_vs _ hm_mem).1
          omega
        refine ⟨?_, le_refl _, by simp [hbi]⟩
        refine ScanInv_snoc_some hr hc inv hwf'
          (EqvBnd_unionInto inv.bnd (hbnd_vs _ hm_mem) hbnd_vs)
          inv.ccpos (le_refl _)
          (fun u w h => equivR_mono_unionInto inv.wf _ _ h)
          (hbnd_vs _ hm_mem) ?_ ?_ ?_ ?_
        · intro u hcpos hlab
          have hm : u ∈ validIdsAt cfg r c rowLen prevRow curRow :=
            validIdsAt_left hcpos (by rw [← labelOf_cur acc curRow hr (c - 1)]; exact hlab)
          rw [hv] at hm
          exact equivR_symm hwf' (equivR_unionInto_new inv.wf _ hm)
        · intro u hrpos hlab
          rw [labelOf_acc acc curRow (show r - 1 < acc.length by omega), ← hprev] at hlab
          have hm : u ∈ validIdsAt cfg r c rowLen prevRow curRow := validIdsAt_top hrpos hlab
          rw [hv] at hm
          exact equivR_symm hwf' (equivR_unionInto_new inv.wf _ hm)
        · intro h8 hb
          have hm : 1 ∈ validIdsAt cfg r c rowLen prevRow curRow :=
            validIdsAt_border h8 hrowLen hb
          rw [hv] at hm
          exact hmin_one hm
        · intro h8 hyp
          have key : OneInEqv st.eqv ∨ (1 : Nat) ∈ (x :: y :: rest2) := by
            rcases hyp with hone' | hm1
            · rcases OneInEqv_unionInto hone' with h | h | h
              · exact Or.inl h
              · exact Or.inr (h ▸ hm_mem)
              · exact Or.inr h
            · exact Or.inr (hm1 ▸ hm_mem)
          rcases key with h | h1vs
          · exact Or.inl (Or.inl h)
          · rcases validIdsAt_one hr hprev hrowLen (hv ▸ h1vs) with h | ⟨_, hb⟩
            · exact Or.inl (Or.inr h)
            · exact Or.inr ⟨hb, hmin_one h1vs⟩

/-- Row-level induction: scanning the remaining cells of a row preserves the
invariant, extends the row, keeps the already-built prefix, and labels exactly
the cells whose mask value differs from the pass polarity. -/
theorem scanRow_spec (cfg : ScanConfig) (mask : List (List Bool)) (r rowLen : Nat)
    (prevRow : List (Option Nat)) (acc : LabelGrid) (hr : acc.length = r)
    (hprev : prevRow = acc.getD (r - 1) [])
    (hrowLen : rowLen = (mask.getD r []).length) :
    ∀ (rest : List Bool) (c : Nat) (curRow : List (Option Nat)) (st : LabelState),
      curRow.length = c →
      ScanInv cfg mask (acc ++ [curRow]) st →
      ScanInv cfg mask (acc ++ [(scanRow cfg r rowLen prevRow c rest curRow st).1])
          (scanRow cfg r rowLen prevRow c rest curRow st).2 ∧
        st.currentComponent ≤ (scanRow cfg r rowLen prevRow c rest curRow st).2.currentComponent ∧
        (scanRow cfg r rowLen prevRow c rest curRow st).1.length = c + rest.length ∧
        (∀ j < c, (scanRow cfg r rowLen prevRow c rest curRow st).1.getD j none =
          curRow.getD j none) ∧
        (∀ i < rest.length,
          ((scanRow cfg r rowLen prevRow c rest curRow st).1.getD (c + i) none).isSome ↔
            ¬ rest.getD i false = cfg.invert) := by
  intro rest
  induction rest with
  | nil =>
    intro c curRow st hc inv
    rw [scanRow]
    refine ⟨inv, le_refl _, by simpa using hc, fun j _ => rfl, fun i hi => by simp at hi⟩
  | cons b rest ih =>
    intro c curRow st hc inv
    rw [scanRow]
    obtain ⟨inv', hcc1, hpol⟩ :=
      scanCell_spec cfg mask r c rowLen b prevRow curRow st acc hr hc hprev hrowLen inv
    obtain ⟨invF, hcc2, hlen, hpre, hpolrest⟩ :=
      ih (c + 1) (curRow ++ [(scanCell cfg r c rowLen b prevRow curRow st).1])
        (scanCell cfg r c rowLen b prevRow curRow st).2 (by simp [hc]) inv'
    refine ⟨invF, le_trans hcc1 hcc2, by rw [hlen]; simp; omega, ?_, ?_⟩
    · intro j hj
      rw [hpre j (by omega)]
      rw [getD_append_left curRow _ _ _ (by omega)]
    · intro i hi
      cases i with
      | zero =>
        simp only [Nat.add_zero]
        rw [hpre c (by omega)]
        have hcell : (curRow ++ [(scanCell cfg r c rowLen b prevRow curRow st).1]).getD c none =
            (scanCell cfg r c rowLen b prevRow curRow st).1 := by
          rw [← hc, getD_length_self]
        rw [hcell]
        simpa using hpol
      | succ i' =>
        have := hpolrest i' (by simpa using hi)
        rw [(show c + (i' + 1) = (c + 1) + i' by omega)]
        simpa using this

/-- The scan invariant holds for the empty grid and initial state. -/
theorem ScanInv_base (cfg : ScanConfig) (mask : List (List Bool)) :
    ScanInv cfg mask [] ⟨1, []⟩ := by
  constructor
  case wf => intro a C hC; exact Option.noConfusion hC
  case bnd => intro a C hC; exact Option.noConfusion hC
  case ccpos => exact le_refl 1
  case labBnd =>
    intro r c v hv
    unfold labelOf at hv
    simp [List.getD] at hv
  case adjH =>
    intro r c u v hu _
    unfold labelOf at hu
    simp [List.getD] at hu
  case adjV =>
    intro r c u v hu _
    unfold labelOf at hu
    simp [List.getD] at hu
  case borderOne =>
    intro _ r c v hv _
    unfold labelOf at hv
    simp [List.getD] at hv
  case borderInv =>
    intro _ hyp
    exfalso
    rcases hyp with ⟨k, C, hC, _⟩ | ⟨r, c, h⟩
    · exact Option.noConfusion hC
    · unfold labelOf at h
      simp [List.getD] at h

/-- Grid-level induction for `scanRows`. -/
theorem scanRows_spec (cfg : ScanConfig) (mask : List (List Bool)) :
    ∀ (rest : List (List Bool)) (r : Nat) (prevRow : List (Option Nat))
      (acc : LabelGrid) (st : LabelState),
      acc.length = r →
      prevRow = acc.getD (r - 1) [] →
      mask.drop r = rest →
      ScanInv cfg mask acc st →
      ScanInv cfg mask (scanRows cfg r rest prevRow acc st).1
          (scanRows cfg r rest prevRow acc st).2 ∧
        st.currentComponent ≤ (scanRows cfg r rest prevRow acc st).2.currentComponent ∧
        (scanRows cfg r rest prevRow acc st).1.length = r + rest.length ∧
        (∀ i < r, (scanRows cfg r rest prevRow acc st).1.getD i [] = acc.getD i []) ∧
        (∀ i < rest.length,
          ((scanRows cfg r rest prevRow acc st).1.getD (r + i) []).length =
              (rest.getD i []).length ∧
            ∀ j < (rest.getD i []).length,
              (((scanRows cfg r rest prevRow acc st).1.getD (r + i) []).getD j none).isSome ↔
                ¬ (rest.getD i []).getD j false = cfg.invert) := by
  intro rest
  induction rest with
  | nil =>
    intro r prevRow acc st hr hprev hdrop inv
    rw [scanRows]
    exact ⟨inv, le_refl _, by simpa using hr, fun i _ => rfl, fun i hi => by simp at hi⟩
  | cons row rest ih =>
    intro r prevRow acc st hr hprev hdrop inv
    rw [scanRows]
    have hmaskr : mask.getD r [] = row := by
      have : mask[r]? = some row := by
        have h0 : (mask.drop r)[0]? = some row := by rw [hdrop]; simp
        rw [List.getElem?_drop] at h0
        simpa using h0
      simp [List.getD_eq_getElem?_getD, this]
    have inv0 : ScanInv cfg mask (acc ++ [[]]) st :=
      ScanInv_congr (fun r' c' => labelOf_append_nil acc r' c') inv
    obtain ⟨invRow, hcc1, hlen1, _, hpolRow⟩ :=
      scanRow_spec cfg mask r row.length prevRow acc hr hprev (by rw [hmaskr]) row 0 [] st rfl inv0
    set p := scanRow cfg r row.length prevRow 0 row [] st with hp
    have hlenAcc : (acc ++ [p.1]).length = r + 1 := by simp [hr]
    have hprev' : p.1 = (acc ++ [p.1]).getD (r + 1 - 1) [] := by
      rw [Nat.add_sub_cancel, ← hr, getD_length_self]
    have hdrop' : mask.drop (r + 1) = rest := by
      have : mask.drop (r + 1) = (mask.drop r).drop 1 := by
        rw [List.drop_drop]
      rw [this, hdrop]
      rfl
    obtain ⟨invF, hcc2, hlenF, hpreF, hrowsF⟩ :=
      ih (r + 1) p.1 (acc ++ [p.1]) p.2 hlenAcc hprev' hdrop' invRow
    refine ⟨invF, le_trans hcc1 hcc2, by rw [hlenF]; simp; omega, ?_, ?_⟩
    · intro i hi
      rw [hpreF i (by omega)]
      rw [getD_append_left acc _ _ _ (by omega)]
    · intro i hi
      cases i with
      | zero =>
        simp only [Nat.add_zero]
        constructor
        · rw [hpreF r (by omega), ← hr, getD_length_self]
          simpa using hlen1
        · intro j hj
          rw [hpreF r (by omega), ← hr, getD_length_self]
          have := hpolRow j (by simpa using hj)
          simpa using this
      | succ i' =>
        have := hrowsF i' (by simpa using hi)
        rw [(show r + (i' + 1) = (r + 1) + i' by omega)]
        exact this

/-! ## The resolution pass: grid characterization and registry invariant -/

/-- What the resolution pass does to one stored cell. -/
def resolveCellValue (eqv : List (Nat × List Nat)) : Option Nat → Option Nat
  | none => none
  | some v => if v ≠ 0 then some (resolveValue eqv v) else some v

theorem resolveRow_grid (eqv : List (Nat × List Nat)) (r : Nat) :
    ∀ (rest : List (Option Nat)) (c : Nat) (accR : List (Option Nat))
      (ids : List (Nat × Pos)),
      (resolveRow eqv r c rest accR ids).1 = accR ++ rest.map (resolveCellValue eqv) := by
  intro rest
  induction rest with
  | nil => intro c accR ids; rw [resolveRow]; simp
  | cons v rest ih =>
    intro c accR ids
    cases v with
    | none => rw [resolveRow, ih]; simp [resolveCellValue]
    | some value =>
      by_cases h0 : value ≠ 0
      · rw [resolveRow, if_pos h0, ih]
        simp [resolveCellValue, h0]
      · rw [resolveRow, if_neg h0, ih]
        simp at h0
        simp [resolveCellValue, h0]

theorem resolveRows_grid (eqv : List (Nat × List Nat)) :
    ∀ (rows : List (List (Option Nat))) (r : Nat) (accG : LabelGrid)
      (ids : List (Nat × Pos)),
      (resolveRows eqv r rows accG ids).1 =
        accG ++ rows.map (List.map (resolveCellValue eqv)) := by
  intro rows
  induction rows with
  | nil => intro r accG ids; rw [resolveRows]; simp
  | cons row rows ih =>
    intro r accG ids
    rw [resolveRows]
    rw [ih]
    rw [resolveRow_grid]
    simp

theorem labelOf_map_resolve (eqv : List (Nat × List Nat)) (G : LabelGrid) (r c : Nat) :
    labelOf (G.map (List.map (resolveCellValue eqv))) r c =
      resolveCellValue eqv (labelOf G r c) := by
  unfold labelOf
  simp only [List.getD_eq_getElem?_getD, List.getElem?_map]
  cases hrow : G[r]? with
  | none => simp [resolveCellValue]
  | some row =>
    simp only [Option.map_some, Option.getD_some, List.getElem?_map]
    cases hcell : row[c]? with
    | none => simp [hcell, resolveCellValue]
    | some v => simp [hcell]

/-- Raster (row-major) order on coordinates. -/
def rasterBefore (r' c' r c : Nat) : Prop :=
  r' < r ∨ (r' = r ∧ c' < c)

/-- Invariant of the registry built by the resolution pass, after all cells
raster-before `(r, c)` of the raw grid `G` have been visited: every entry maps
a canonical id to the raster-first visited cell resolving to it, and every
visited truthy cell's canonical id is present. -/
def RegInv (eqv : List (Nat × List Nat)) (G : LabelGrid) (ids : List (Nat × Pos))
    (r c : Nat) : Prop :=
  (∀ id pos, (id, pos) ∈ ids → ∃ pr pc : Nat,
      pos = ⟨(pr : Int), (pc : Int)⟩ ∧ rasterBefore pr pc r c ∧
      (∃ v, labelOf G pr pc = some v ∧ v ≠ 0 ∧ resolveValue eqv v = id) ∧
      (∀ r' c' w, rasterBefore r' c' pr pc → labelOf G r' c' = some w → w ≠ 0 →
        resolveValue eqv w ≠ id)) ∧
  (∀ r' c' w, rasterBefore r' c' r c → labelOf G r' c' = some w → w ≠ 0 →
    hasId ids (resolveValue eqv w) = true)

theorem hasId_iff (ids : List (Nat × Pos)) (x : Nat) :
    hasId ids x = true ↔ ∃ pos, (x, pos) ∈ ids := by
  unfold hasId
  rw [List.any_eq_true]
  constructor
  · rintro ⟨p, hp, he⟩
    obtain ⟨p1, p2⟩ := p
    simp at he
    exact ⟨p2, he ▸ hp⟩
  · rintro ⟨pos, hp⟩
    exact ⟨(x, pos), hp, by simp⟩

theorem rasterBefore_col_mono {r' c' r c : Nat} (h : rasterBefore r' c' r c) :
    rasterBefore r' c' r (c + 1) := by
  unfold rasterBefore at *
  omega

/-- The registry update the resolution pass performs at one cell. -/
def registryStep (eqv : List (Nat × List Nat)) (ids : List (Nat × Pos))
    (r c : Nat) : Option Nat → List (Nat × Pos)
  | some value =>
    if value ≠ 0 then
      if hasId ids (resolveValue eqv value) then ids
      else ids ++ [(resolveValue eqv value, ⟨(r : Int), (c : Int)⟩)]
    else ids
  | none => ids

/-- One step of the registry invariant, for the cell at `(r, c)`. -/
theorem RegInv_step (eqv : List (Nat × List Nat)) (G : LabelGrid)
    (ids : List (Nat × Pos)) (r c : Nat) (x : Option Nat)
    (hx : labelOf G r c = x)
    (inv : RegInv eqv G ids r c) :
    RegInv eqv G (registryStep eqv ids r c x) r (c + 1) := by
  have hnewcell : ∀ ids' : List (Nat × Pos),
      (∀ id pos, (id, pos) ∈ ids' → ∃ pr pc : Nat,
        pos = ⟨(pr : Int), (pc : Int)⟩ ∧ rasterBefore pr pc r (c + 1) ∧
        (∃ v, labelOf G pr pc = some v ∧ v ≠ 0 ∧ resolveValue eqv v = id) ∧
        (∀ r' c' w, rasterBefore r' c' pr pc → labelOf G r' c' = some w → w ≠ 0 →
          resolveValue eqv w ≠ id)) →
      (∀ r' c' w, rasterBefore r' c' r (c + 1) → labelOf G r' c' = some w → w ≠ 0 →
        hasId ids' (resolveValue eqv w) = true) →
      RegInv eqv G ids' r (c + 1) := fun _ h1 h2 => ⟨h1, h2⟩
  have hold_entries : ∀ id pos, (id, pos) ∈ ids → ∃ pr pc : Nat,
      pos = ⟨(pr : Int), (pc : Int)⟩ ∧ rasterBefore pr pc r (c + 1) ∧
      (∃ v, labelOf G pr pc = some v ∧ v ≠ 0 ∧ resolveValue eqv v = id) ∧
      (∀ r' c' w, rasterBefore r' c' pr pc → labelOf G r' c' = some w → w ≠ 0 →
        resolveValue eqv w ≠ id) := by
    intro id pos hmem
    obtain ⟨pr, pc, h1, h2, h3, h4⟩ := inv.1 id pos hmem
    exact ⟨pr, pc, h1, rasterBefore_col_mono h2, h3, h4⟩
  have hsplit : ∀ r' c', rasterBefore r' c' r (c + 1) →
      rasterBefore r' c' r c ∨ (r' = r ∧ c' = c) := by
    intro r' c' h
    unfold rasterBefore at *
    omega
  cases x with
  | none =>
    rw [registryStep]
    refine hnewcell ids hold_entries ?_
    intro r' c' w hb hw hw0
    rcases hsplit r' c' hb with h | ⟨rfl, rfl⟩
    · exact inv.2 r' c' w h hw hw0
    · rw [hx] at hw
      exact Option.noConfusion hw
  | some value =>
    rw [registryStep]
    by_cases h0 : value ≠ 0
    · rw [if_pos h0]
      by_cases hhas : hasId ids (resolveValue eqv value) = true
      · rw [if_pos hhas]
        refine hnewcell ids hold_entries ?_
        intro r' c' w hb hw hw0
        rcases hsplit r' c' hb with h | ⟨rfl, rfl⟩
        · exact inv.2 r' c' w h hw hw0
        · rw [hx] at hw
          cases Option.some.inj hw
          exact hhas
      · rw [if_neg hhas]
        refine hnewcell _ ?_ ?_
        · intro id pos hmem
          rw [List.mem_append] at hmem
          rcases hmem with hmem | hmem
          · exact hold_entries id pos hmem
          · simp at hmem
            obtain ⟨hid, hpos⟩ := hmem
            refine ⟨r, c, hpos, by unfold rasterBefore; omega,
              ⟨value, hx, h0, hid.symm⟩, ?_⟩
            intro r' c' w hb hw hw0 heqid
            apply hhas
            rw [← hid, ← heqid]
            exact inv.2 r' c' w hb hw hw0
        · intro r' c' w hb hw hw0
          rcases hsplit r' c' hb with h | ⟨rfl, rfl⟩
          · have := inv.2 r' c' w h hw hw0
            unfold hasId at this ⊢
            rw [List.any_append]
            simp [this]
          · rw [hx] at hw
            cases Option.some.inj hw
            unfold hasId
            rw [List.any_append]
            simp
    · rw [if_neg h0]
      simp at h0
      refine hnewcell ids hold_entries ?_
      intro r' c' w hb hw hw0
      rcases hsplit r' c' hb with h | ⟨rfl, rfl⟩
      · exact inv.2 r' c' w h hw hw0
      · rw [hx] at hw
        cases Option.some.inj hw
        exact absurd h0 hw0

theorem resolveRow_reg (eqv : List (Nat × List Nat)) (G : LabelGrid) (r : Nat)
    (rowFull : List (Option Nat)) (hrow : G.getD r [] = rowFull) :
    ∀ (rest : List (Option Nat)) (c : Nat) (accR : List (Option Nat))
      (ids : List (Nat × Pos)),
      rowFull.drop c = rest →
      RegInv eqv G ids r c →
      RegInv eqv G (resolveRow eqv r c rest accR ids).2 r (c + rest.length) := by
  intro rest
  induction rest with
  | nil =>
    intro c accR ids hdrop inv
    rw [resolveRow]
    simpa using inv
  | cons v rest ih =>
    intro c accR ids hdrop inv
    have hcell : labelOf G r c = v := by
      have h0 : rowFull[c]? = some v := by
        have h1 : (rowFull.drop c)[0]? = some v := by rw [hdrop]; simp
        rw [List.getElem?_drop] at h1
        simpa using h1
      unfold labelOf
      rw [hrow]
      simp [List.getD_eq_getElem?_getD, h0]
    have hdrop' : rowFull.drop (c + 1) = rest := by
      have h1 : rowFull.drop (c + 1) = (rowFull.drop c).drop 1 := by
        rw [List.drop_drop]
      rw [h1, hdrop]
      rfl
    have hstep := RegInv_step eqv G ids r c v hcell inv
    have hlen : c + (v :: rest).length = (c + 1) + rest.length := by simp; omega
    rw [hlen]
    cases v with
    | none =>
      rw [resolveRow]
      exact ih (c + 1) (accR ++ [none]) ids hdrop' (by simpa [registryStep] using hstep)
    | some value =>
      by_cases h0 : value ≠ 0
      · rw [resolveRow, if_pos h0]
        refine ih (c + 1) _ _ hdrop' ?_
        rw [registryStep, if_pos h0] at hstep
        exact hstep
      · rw [resolveRow, if_neg h0]
        refine ih (c + 1) _ _ hdrop' ?_
        rw [registryStep, if_neg h0] at hstep
        exact hstep

theorem resolveRows_reg (eqv : List (Nat × List Nat)) (G : LabelGrid) :
    ∀ (rows : List (List (Option Nat))) (r : Nat) (accG : LabelGrid)
      (ids : List (Nat × Pos)),
      G.drop r = rows →
      RegInv eqv G ids r 0 →
      RegInv eqv G (resolveRows eqv r rows accG ids).2 (r + rows.length) 0 := by
  intro rows
  induction rows with
  | nil =>
    intro r accG ids hdrop inv
    rw [resolveRows]
    simpa using inv
  | cons row rows ih =>
    intro r accG ids hdrop inv
    rw [resolveRows]
    have hrow : G.getD r [] = row := by
      have h0 : (G.drop r)[0]? = some row := by rw [hdrop]; simp
      rw [List.getElem?_drop] at h0
      simp at h0
      simp [List.getD_eq_getElem?_getD, h0]
    have hreg1 := resolveRow_reg eqv G r row hrow row 0 [] ids (by simp) inv
    have htrans : RegInv eqv G (resolveRow eqv r 0 row [] ids).2 (r + 1) 0 := by
      refine ⟨?_, ?_⟩
      · intro id pos hmem
        obtain ⟨pr, pc, h1, h2, h3, h4⟩ := hreg1.1 id pos hmem
        refine ⟨pr, pc, h1, ?_, h3, h4⟩
        unfold rasterBefore at *
        omega
      · intro r' c' w hb hw hw0
        have hcases : rasterBefore r' c' r (0 + row.length) ∨ (r' = r ∧ row.length ≤ c') := by
          unfold rasterBefore at *
          omega
        rcases hcases with h | ⟨rfl, hge⟩
        · exact hreg1.2 r' c' w h hw hw0
        · exfalso
          unfold labelOf at hw
          rw [hrow, getD_none_of_length_le row _ _ hge] at hw
          exact Option.noConfusion hw
    have hdrop' : G.drop (r + 1) = rows := by
      have h1 : G.drop (r + 1) = (G.drop r).drop 1 := by rw [List.drop_drop]
      rw [h1, hdrop]
      rfl
    have hfin := ih (r + 1) (accG ++ [(resolveRow eqv r 0 row [] ids).1])
      (resolveRow eqv r 0 row [] ids).2 hdrop' htrans
    have hlen : r + (row :: rows).length = (r + 1) + rows.length := by simp; omega
    rw [hlen]
    exact hfin

/-- The registry invariant for the full resolution pass, starting empty. -/
theorem resolveRows_reg_full (eqv : List (Nat × List Nat)) (G : LabelGrid) :
    RegInv eqv G (resolveRows eqv 0 G [] []).2 G.length 0 := by
  have base : RegInv eqv G [] 0 0 := by
    refine ⟨?_, ?_⟩
    · intro id pos hmem
      simp at hmem
    · intro r' c' w hb _ _
      unfold rasterBefore at hb
      omega
  have := resolveRows_reg eqv G G 0 [] [] (by simp) base
  simpa using this

/-! ## Top-level characterization of `buildConnectedComponents` -/

/-- The raw (pre-resolution) label grid of one labeling pass. -/
def scanGrid (mask : List (List Bool)) (invert : Bool) (conn : Nat) : LabelGrid :=
  (scanRows ⟨invert, conn, mask.length⟩ 0 mask [] [] ⟨1, []⟩).1

/-- The final scan state (fresh-id counter and equivalence map) of one pass. -/
def scanState (mask : List (List Bool)) (invert : Bool) (conn : Nat) : LabelState :=
  (scanRows ⟨invert, conn, mask.length⟩ 0 mask [] [] ⟨1, []⟩).2

theorem labelOf_some_bounds {G : LabelGrid} {r c : Nat} {v : Nat}
    (h : labelOf G r c = some v) : r < G.length ∧ c < (G.getD r []).length := by
  constructor
  · by_contra hge
    push_neg at hge
    unfold labelOf at h
    rw [getD_none_of_length_le G _ _ hge] at h
    simp [List.getD] at h
  · by_contra hge
    push_neg at hge
    unfold labelOf at h
    rw [getD_none_of_length_le _ _ _ hge] at h
    exact Option.noConfusion h

/-- The scan invariant at the end of the raster scan. -/
theorem scanGrid_inv (mask : List (List Bool)) (invert : Bool) (conn : Nat) :
    ScanInv ⟨invert, conn, mask.length⟩ mask (scanGrid mask invert conn)
      (scanState mask invert conn) :=
  (scanRows_spec ⟨invert, conn, mask.length⟩ mask mask 0 [] [] ⟨1, []⟩
    rfl rfl (by simp) (ScanInv_base _ mask)).1

/-- Cells of the raw grid are labeled exactly at in-range mask cells whose
value differs from the pass polarity. -/
theorem scanGrid_polarity (mask : List (List Bool)) (invert : Bool) (conn : Nat)
    (r c : Nat) :
    (labelOf (scanGrid mask invert conn) r c).isSome = true ↔
      r < mask.length ∧ c < (mask.getD r []).length ∧
        ¬(mask.getD r []).getD c false = invert := by
  obtain ⟨_, _, hlen, _, hrows⟩ :=
    scanRows_spec ⟨invert, conn, mask.length⟩ mask mask 0 [] [] ⟨1, []⟩
      rfl rfl (by simp) (ScanInv_base _ mask)
  constructor
  · intro h
    rw [Option.isSome_iff_exists] at h
    obtain ⟨v, hv⟩ := h
    obtain ⟨hr, hcb⟩ := labelOf_some_bounds hv
    rw [(show (scanGrid mask invert conn).length = mask.length by
      unfold scanGrid; rw [hlen]; simp)] at hr
    obtain ⟨hrl, hcl⟩ := hrows r (by simpa using hr)
    simp only [Nat.zero_add] at hrl hcl
    have hcb' : c < (mask.getD r []).length := by
      unfold scanGrid at hcb
      rw [hrl] at hcb
      exact hcb
    refine ⟨hr, hcb', ?_⟩
    rw [← hcl c hcb']
    rw [show ((scanRows ⟨invert, conn, mask.length⟩ 0 mask [] [] ⟨1, []⟩).1.getD r []).getD
        c none = some v from hv]
    rfl
  · rintro ⟨hr, hc, hpol⟩
    obtain ⟨hrl, hcl⟩ := hrows r (by simpa using hr)
    simp only [Nat.zero_add] at hrl hcl
    rw [(show labelOf (scanGrid mask invert conn) r c =
        ((scanRows ⟨invert, conn, mask.length⟩ 0 mask [] [] ⟨1, []⟩).1.getD r []).getD c none
      from rfl)]
    exact (hcl c hc).2 hpol

/-- The resolved component grid of `buildConnectedComponents` is the raw scan
grid with every cell rewritten by the resolution map. -/
theorem bcc_components_eq (mask : List (List Bool)) (invert : Bool) (conn : Nat) :
    (buildConnectedComponents mask invert conn).components =
      (scanGrid mask invert conn).map
        (List.map (resolveCellValue (scanState mask invert conn).eqv)) := by
  unfold buildConnectedComponents scanGrid scanState
  simp only []
  rw [resolveRows_grid]
  simp

/-- The registry of `buildConnectedComponents` is the one built by the
resolution pass over the raw grid. -/
theorem bcc_ids_eq (mask : List (List Bool)) (invert : Bool) (conn : Nat) :
    (buildConnectedComponents mask invert conn).ids =
      (resolveRows (scanState mask invert conn).eqv 0 (scanGrid mask invert conn)
        [] []).2 := rfl

/-- Registry invariant for `buildConnectedComponents`. -/
theorem bcc_reg (mask : List (List Bool)) (invert : Bool) (conn : Nat) :
    RegInv (scanState mask invert conn).eqv (scanGrid mask invert conn)
      (buildConnectedComponents mask invert conn).ids
      (scanGrid mask invert conn).length 0 := by
  rw [bcc_ids_eq]
  exact resolveRows_reg_full _ _

/-- Resolved values of equivalent raw labels agree. -/
theorem resolveValue_congr {eqv : List (Nat × List Nat)} (hwf : EqvWf eqv)
    {u v : Nat} (h : equivR eqv u v) :
    resolveValue eqv u = resolveValue eqv v := by
  rcases h with rfl | ⟨C, hC, hv⟩
  · rfl
  · unfold resolveValue
    rw [hC, (hwf u C hC).2 v hv]
    simp

/-- `resolveValue` maps `1` to `1` (all class members are at least `1`). -/
theorem resolveValue_one {eqv : List (Nat × List Nat)} {cc : Nat}
    (hwf : EqvWf eqv) (hbnd : EqvBnd eqv cc) : resolveValue eqv 1 = 1 := by
  unfold resolveValue
  have h1 : 1 ∈ (findClass eqv 1).getD [1] := by
    have := mem_classOrDefault_self hwf 1
    unfold classOrDefault at this
    exact this
  have hle := listMin_le h1
  have hne : (findClass eqv 1).getD [1] ≠ [] := by
    intro habs
    rw [habs] at h1
    simp at h1
  have hmem := listMin_mem hne
  have hge : 1 ≤ listMin ((findClass eqv 1).getD [1]) := by
    cases hf : findClass eqv 1 with
    | none =>
      rw [hf] at hmem
      simp at hmem ⊢
      omega
    | some C =>
      rw [hf] at hmem
      exact (hbnd 1 C hf _ (by simpa using hmem)).1
  omega

/-- Raw labels are at least `1`, so the resolution pass never hits its `0`
guard: a raw cell `some v` resolves to `some (resolveValue v)`. -/
theorem resolved_of_raw (mask : List (List Bool)) (invert : Bool) (conn : Nat)
    {r c : Nat} {v : Nat}
    (hv : labelOf (scanGrid mask invert conn) r c = some v) :
    labelOf (buildConnectedComponents mask invert conn).components r c =
      some (resolveValue (scanState mask invert conn).eqv v) := by
  have hb := (scanGrid_inv mask invert conn).labBnd r c v hv
  rw [bcc_components_eq, labelOf_map_resolve, hv]
  simp only [resolveCellValue]
  rw [if_pos (show v ≠ 0 by omega)]

/-- Conversely, a resolved cell `some u` comes from a raw cell `some w` with
`u = resolveValue w`. -/
theorem raw_of_resolved (mask : List (List Bool)) (invert : Bool) (conn : Nat)
    {r c : Nat} {u : Nat}
    (hu : labelOf (buildConnectedComponents mask invert conn).components r c = some u) :
    ∃ w, labelOf (scanGrid mask invert conn) r c = some w ∧
      u = resolveValue (scanState mask invert conn).eqv w := by
  rw [bcc_components_eq, labelOf_map_resolve] at hu
  cases hw : labelOf (scanGrid mask invert conn) r c with
  | none => rw [hw] at hu; exact Option.noConfusion hu
  | some w =>
    rw [hw] at hu
    simp only [resolveCellValue] at hu
    have hb := (scanGrid_inv mask invert conn).labBnd r c w hw
    rw [if_pos (show w ≠ 0 by omega)] at hu
    exact ⟨w, rfl, (Option.some.inj hu).symm⟩

/-! ## Claim theorems: the region labeler -/

/-- Correctness of the numeric-only (sanitized) labeler `buildConnectedComponents`
for every mask and pass. After the resolution pass every labeled cell holds the minimum id of its
recorded equivalence class (the resolved value is a member of the class and a
lower bound of it); any two edge-adjacent labeled cells hold the same
canonical id (in particular, in the 4-connected foreground pass, any two
edge-adjacent foreground cells do); and the registry maps each canonical id
occurring in the map to the first cell of that component in raster order. -/
theorem bcc_correct_sanitized :
    ∀ (mask : List (List Bool)) (invert : Bool) (conn : Nat),
      (∀ r c v, labelOf (scanGrid mask invert conn) r c = some v →
        labelOf (buildConnectedComponents mask invert conn).components r c =
          some (listMin ((findClass (scanState mask invert conn).eqv v).getD [v])) ∧
        listMin ((findClass (scanState mask invert conn).eqv v).getD [v]) ∈
          (findClass (scanState mask invert conn).eqv v).getD [v] ∧
        (∀ x ∈ (findClass (scanState mask invert conn).eqv v).getD [v],
          listMin ((findClass (scanState mask invert conn).eqv v).getD [v]) ≤ x)) ∧
      (∀ r c u v,
        labelOf (buildConnectedComponents mask invert conn).components r c = some u →
        labelOf (buildConnectedComponents mask invert conn).components r (c + 1) = some v →
        u = v) ∧
      (∀ r c u v,
        labelOf (buildConnectedComponents mask invert conn).components r c = some u →
        labelOf (buildConnectedComponents mask invert conn).components (r + 1) c = some v →
        u = v) ∧
      (∀ id pos, (id, pos) ∈ (buildConnectedComponents mask invert conn).ids →
        ∃ pr pc : Nat, pos = ⟨(pr : Int), (pc : Int)⟩ ∧
          labelOf (buildConnectedComponents mask invert conn).components pr pc = some id ∧
          ∀ r' c', rasterBefore r' c' pr pc →
            labelOf (buildConnectedComponents mask invert conn).components r' c' ≠ some id) ∧
      (∀ r c u,
        labelOf (buildConnectedComponents mask invert conn).components r c = some u →
        hasId (buildConnectedComponents mask invert conn).ids u = true) := by
  intro mask invert conn
  have hinv := scanGrid_inv mask invert conn
  refine ⟨?_, ?_, ?_, ?_, ?_⟩
  · -- (i) minimum of the recorded class
    intro r c v hv
    have hne : (findClass (scanState mask invert conn).eqv v).getD [v] ≠ [] := by
      cases hf : findClass (scanState mask invert conn).eqv v with
      | none => simp
      | some C =>
        have := (hinv.wf v C hf).1
        intro habs
        simp at habs
        rw [habs] at this
        simp at this
    refine ⟨resolved_of_raw mask invert conn hv, listMin_mem hne, fun x hx => listMin_le hx⟩
  · -- (ii) horizontal adjacency
    intro r c u v hu hv
    obtain ⟨w, hw, rfl⟩ := raw_of_resolved mask invert conn hu
    obtain ⟨w', hw', rfl⟩ := raw_of_resolved mask invert conn hv
    exact resolveValue_congr hinv.wf (hinv.adjH r c w w' hw hw')
  · -- (ii) vertical adjacency
    intro r c u v hu hv
    obtain ⟨w, hw, rfl⟩ := raw_of_resolved mask invert conn hu
    obtain ⟨w', hw', rfl⟩ := raw_of_resolved mask invert conn hv
    exact resolveValue_congr hinv.wf (hinv.adjV r c w w' hw hw')
  · -- (iii) registry: raster-first occurrence
    intro id pos hmem
    obtain ⟨pr, pc, hpos, _, ⟨v, hvr, _, hvid⟩, hfirst⟩ :=
      (bcc_reg mask invert conn).1 id pos hmem
    refine ⟨pr, pc, hpos, ?_, ?_⟩
    · rw [resolved_of_raw mask invert conn hvr, hvid]
    · intro r' c' hb habs
      obtain ⟨w, hw, hwid⟩ := raw_of_resolved mask invert conn habs
      have hwb := hinv.labBnd r' c' w hw
      exact hfirst r' c' w hb hw (by omega) hwid.symm
  · -- (iv) registry completeness
    intro r c u hu
    obtain ⟨w, hw, rfl⟩ := raw_of_resolved mask invert conn hu
    have hwb := hinv.labBnd r c w hw
    have hbound := labelOf_some_bounds hw
    exact (bcc_reg mask invert conn).2 r c w (Or.inl hbound.1) hw (by omega)

/-- Witness for the labeling-correctness theorem: on the mask
`[[true, true]]` (one 1×2 component), the registry entry `(2, (0,0))` is
raster-first. -/
theorem bcc_correct_sanitized_witness :
    labelOf (buildConnectedComponents [[true, true]] false 4).components 0 0 = some 2 ∧
      ∃ pr pc : Nat, (⟨0, 0⟩ : Pos) = ⟨(pr : Int), (pc : Int)⟩ ∧
        labelOf (buildConnectedComponents [[true, true]] false 4).components pr pc = some 2 ∧
        ∀ r' c', rasterBefore r' c' pr pc →
          labelOf (buildConnectedComponents [[true, true]] false 4).components r' c' ≠ some 2 := by
  obtain ⟨pr, pc, h1, h2, h3⟩ :=
    (bcc_correct_sanitized [[true, true]] false 4).2.2.2.1 2 ⟨0, 0⟩ (by decide)
  exact ⟨by decide, pr, pc, h1, h2, h3⟩

/-- Sanitized-model border iff: in the 8-connected inverted (background) pass,
a background cell resolves to canonical id 1 iff its background component (the set of cells with
the same canonical id) contains a cell on the grid border; fresh ids are
allocated starting at 2, so id 1 uniquely denotes the synthetic outside. -/
theorem background_border_iff_sanitized :
    ∀ (mask : List (List Bool)) (r c v : Nat),
      labelOf (buildConnectedComponents mask true 8).components r c = some v →
      (v = 1 ↔ ∃ r0 c0,
        labelOf (buildConnectedComponents mask true 8).components r0 c0 = some v ∧
        (c0 = 0 ∨ r0 = 0 ∨ c0 = (mask.getD r0 []).length - 1 ∨ r0 = mask.length - 1)) := by
  intro mask r c v hv
  have hinv := scanGrid_inv mask true 8
  constructor
  · rintro rfl
    obtain ⟨w, hw, hwid⟩ := raw_of_resolved mask true 8 hv
    -- 1 is the minimum of w's class, hence a member of it
    have hne : (findClass (scanState mask true 8).eqv w).getD [w] ≠ [] := by
      cases hf : findClass (scanState mask true 8).eqv w with
      | none => simp
      | some C =>
        have := (hinv.wf w C hf).1
        intro habs
        simp at habs
        rw [habs] at this
        simp at this
    have h1mem : 1 ∈ (findClass (scanState mask true 8).eqv w).getD [w] := by
      have := listMin_mem hne
      unfold resolveValue at hwid
      rw [← hwid] at this
      exact this
    have hpremise : OneInEqv (scanState mask true 8).eqv ∨
        ∃ r0 c0, labelOf (scanGrid mask true 8) r0 c0 = some 1 := by
      cases hf : findClass (scanState mask true 8).eqv w with
      | none =>
        rw [hf] at h1mem
        simp at h1mem
        exact Or.inr ⟨r, c, h1mem ▸ hw⟩
      | some C =>
        rw [hf] at h1mem
        simp at h1mem
        exact Or.inl ⟨w, C, hf, h1mem⟩
    obtain ⟨r0, c0, hraw1, hborder⟩ := hinv.borderInv rfl hpremise
    refine ⟨r0, c0, ?_, hborder⟩
    rw [resolved_of_raw mask true 8 hraw1, resolveValue_one hinv.wf hinv.bnd]
  · rintro ⟨r0, c0, hres0, hborder⟩
    obtain ⟨w0, hw0, hw0id⟩ := raw_of_resolved mask true 8 hres0
    have hw01 : w0 = 1 := hinv.borderOne rfl r0 c0 w0 hw0 hborder
    rw [hw01] at hw0id
    rw [hw0id, resolveValue_one hinv.wf hinv.bnd]

/-- Witness for the border-iff theorem: on a 3×3 ring mask the enclosed center
background cell gets canonical id 2, and the equivalence shows `2 = 1` would
require a border cell of that component. -/
theorem background_border_iff_sanitized_witness :
    (2 = 1 ↔ ∃ r0 c0,
      labelOf (buildConnectedComponents
        [[true, true, true], [true, false, true], [true, true, true]] true 8).components
          r0 c0 = some 2 ∧
      (c0 = 0 ∨ r0 = 0 ∨
        c0 = (([[true, true, true], [true, false, true], [true, true, true]] :
          List (List Bool)).getD r0 []).length - 1 ∨
        r0 = ([[true, true, true], [true, false, true], [true, true, true]] :
          List (List Bool)).length - 1)) :=
  background_border_iff_sanitized [[true, true, true], [true, false, true], [true, true, true]]
    1 1 2 (by decide)

/-- Sanitized-model start invariant: every background component of the
8-connected inverted pass whose
canonical id exceeds 1 has a registered start coordinate with column at least
1 whose immediate left neighbor is labeled in the 4-connected foreground label
map, so the hole compositor's unguarded left-neighbor lookup lands inside the
grid on a foreground component. -/
theorem background_start_left_foreground_sanitized :
    ∀ (mask : List (List Bool)) (id : Nat) (pos : Pos),
      (id, pos) ∈ (buildConnectedComponents mask true 8).ids →
      1 < id →
      ∃ pr pc : Nat, pos = ⟨(pr : Int), (pc : Int)⟩ ∧ 1 ≤ pc ∧
        ∃ f, labelOf (buildConnectedComponents mask false 4).components pr (pc - 1) =
          some f := by
  intro mask id pos hmem hid
  have hinv := scanGrid_inv mask true 8
  obtain ⟨pr, pc, hpos, _, ⟨v, hvr, _, hvid⟩, hfirst⟩ := (bcc_reg mask true 8).1 id pos hmem
  have hpol := (scanGrid_polarity mask true 8 pr pc).1 (by rw [hvr]; rfl)
  obtain ⟨hprlt, hpclt, hmaskbg⟩ := hpol
  have hmaskv : (mask.getD pr []).getD pc false = false := by
    cases h : (mask.getD pr []).getD pc false
    · rfl
    · exact absurd h hmaskbg
  -- column at least 1: a column-0 cell is a border cell and resolves to 1
  have hpc1 : 1 ≤ pc := by
    by_contra h0
    push_neg at h0
    interval_cases pc
    have hv1 : v = 1 := hinv.borderOne rfl pr 0 v hvr (Or.inl rfl)
    rw [hv1] at hvid
    rw [resolveValue_one hinv.wf hinv.bnd] at hvid
    omega
  refine ⟨pr, pc, hpos, hpc1, ?_⟩
  -- the left neighbor is a foreground (mask-true) cell: otherwise it would be
  -- a raster-earlier cell of the same background component
  have hmleft : (mask.getD pr []).getD (pc - 1) false = true := by
    by_contra hfalse
    have hfalse' : (mask.getD pr []).getD (pc - 1) false = false := by
      cases h : (mask.getD pr []).getD (pc - 1) false
      · rfl
      · exact absurd h hfalse
    have hlab : (labelOf (scanGrid mask true 8) pr (pc - 1)).isSome = true :=
      (scanGrid_polarity mask true 8 pr (pc - 1)).2
        ⟨hprlt, by omega, by rw [hfalse']; simp⟩
    rw [Option.isSome_iff_exists] at hlab
    obtain ⟨w, hw⟩ := hlab
    have hadj : equivR (scanState mask true 8).eqv w v := by
      have := hinv.adjH pr (pc - 1) w v hw (by
        rw [(show pc - 1 + 1 = pc by omega)]
        exact hvr)
      exact this
    have : resolveValue (scanState mask true 8).eqv w = id := by
      rw [resolveValue_congr hinv.wf hadj, hvid]
    have hwb := hinv.labBnd pr (pc - 1) w hw
    exact hfirst pr (pc - 1) w (Or.inr ⟨rfl, by omega⟩) hw (by omega) this
  -- hence the 4-connected foreground pass labels it
  have hlabfg : (labelOf (scanGrid mask false 4) pr (pc - 1)).isSome = true :=
    (scanGrid_polarity mask false 4 pr (pc - 1)).2 ⟨hprlt, by omega, by rw [hmleft]; simp⟩
  rw [Option.isSome_iff_exists] at hlabfg
  obtain ⟨w, hw⟩ := hlabfg
  exact ⟨resolveValue (scanState mask false 4).eqv w,
    resolved_of_raw mask false 4 hw⟩

/-- Witness for the hole-start theorem on the 3×3 ring mask: the enclosed
background component `2` starts at `(1,1)` and its left neighbor `(1,0)` is
foreground. -/
theorem background_start_left_foreground_sanitized_witness :
    ∃ pr pc : Nat, (⟨1, 1⟩ : Pos) = ⟨(pr : Int), (pc : Int)⟩ ∧ 1 ≤ pc ∧
      ∃ f, labelOf (buildConnectedComponents
        [[true, true, true], [true, false, true], [true, true, true]] false 4).components
          pr (pc - 1) = some f :=
  background_start_left_foreground_sanitized
    [[true, true, true], [true, false, true], [true, true, true]]
    2 ⟨1, 1⟩ (by decide) (by decide)

/-! ## Closure of the contour walk (C3) -/

/-- Fold of the tracer's cell updates over a direction sequence. -/
def applyDirs (p : Pos) (dirs : List Directions) : Pos :=
  dirs.foldl moveDir p

/-- The unit displacement (row, col) of one step. -/
def dispOf : Directions → Int × Int
  | .left => (0, -1)
  | .bottom => (1, 0)
  | .right => (0, 1)
  | .top => (-1, 0)

/-- Net displacement of a direction sequence, in module units. -/
def netDisp (dirs : List Directions) : Int × Int :=
  dirs.foldr (fun d a => ((dispOf d).1 + a.1, (dispOf d).2 + a.2)) (0, 0)

theorem applyDirs_cons (p : Pos) (d : Directions) (ds : List Directions) :
    applyDirs p (d :: ds) = applyDirs (moveDir p d) ds := rfl

theorem applyDirs_netDisp (dirs : List Directions) :
    ∀ p : Pos, applyDirs p dirs =
      ⟨p.row + (netDisp dirs).1, p.col + (netDisp dirs).2⟩ := by
  induction dirs with
  | nil => intro p; cases p; simp [applyDirs, netDisp]
  | cons d ds ih =>
    intro p
    rw [applyDirs_cons, ih (moveDir p d)]
    cases d <;> cases p <;> simp [netDisp, moveDir, dispOf] <;> ring

theorem moveDir_opposite (p : Pos) (d : Directions) :
    moveDir (moveDir p d) (opposite d) = p := by
  cases d <;> cases p <;> simp [moveDir, opposite]

/-- If the arrival direction's neighbor flag is set, `determineNextDirection`
always finds a next direction (the scan window covers all four directions,
ending with the arrival direction itself). -/
theorem determineNextDirection_isSome_of_origin :
    ∀ (o : Directions) (l r t b : Bool), hasDir l r t b o = true →
      (determineNextDirection o l r t b).isSome = true := by
  decide

/-- The direction returned by `determineNextDirection` always has its
neighbor flag set. -/
theorem determineNextDirection_flag :
    ∀ (o : Directions) (l r t b : Bool) (d : Directions),
      determineNextDirection o l r t b = some d → hasDir l r t b d = true := by
  decide

/-- The flag corresponding to direction `d` at cell `p`, as computed by the
loop body of `renderComponentToPath`, tests membership of `moveDir p d`. -/
theorem cellAt_moveDir (cs : LabelGrid) (p : Pos) :
    ∀ d : Directions,
      cellAt cs (moveDir p d).row (moveDir p d).col =
        (match d with
          | .left => cellAt cs p.row (p.col - 1)
          | .right => cellAt cs p.row (p.col + 1)
          | .top => cellAt cs (p.row - 1) p.col
          | .bottom => cellAt cs (p.row + 1) p.col) := by
  intro d; cases d <;> rfl

/-- Invariant of the `do … while` loop: from a state whose cell is in the
component and whose arrival-direction neighbor is in the component, a
successful run returns to `start` with final arrival orientation equal to
`originalOrigin` (the loop's only exit in that situation is its condition). -/
theorem traceLoop_closed (cs : LabelGrid) (cid : Nat) (drawer : PathDrawer)
    (start : Pos) (oo : Directions) :
    ∀ (fuel : Nat) (origin : Directions) (current : Pos) (segs : List Seg)
      (dirs : List Directions),
      cellAt cs current.row current.col = some cid →
      cellAt cs (moveDir current origin).row (moveDir current origin).col = some cid →
      traceLoop cs cid drawer start oo fuel origin current = some (segs, dirs) →
      applyDirs current dirs = start ∧
        ∃ d, dirs.getLast? = some d ∧ opposite d = oo := by
  intro fuel
  induction fuel with
  | zero => intro origin current segs dirs _ _ h; simp [traceLoop] at h
  | succ n ih =>
    intro origin current segs dirs hcur hgood h
    rw [traceLoop] at h
    rw [cellAt_moveDir] at hgood
    cases hd : determineNextDirection origin
        (decide (cellAt cs current.row (current.col - 1) = some cid))
        (decide (cellAt cs current.row (current.col + 1) = some cid))
        (decide (cellAt cs (current.row - 1) current.col = some cid))
        (decide (cellAt cs (current.row + 1) current.col = some cid)) with
    | none =>
      exfalso
      have hflag : hasDir
          (decide (cellAt cs current.row (current.col - 1) = some cid))
          (decide (cellAt cs current.row (current.col + 1) = some cid))
          (decide (cellAt cs (current.row - 1) current.col = some cid))
          (decide (cellAt cs (current.row + 1) current.col = some cid)) origin = true := by
        cases origin <;> simp only [hasDir] <;> exact decide_eq_true hgood
      have := determineNextDirection_isSome_of_origin _ _ _ _ _ hflag
      rw [hd] at this
      exact Bool.noConfusion this
    | some d =>
      rw [hd] at h
      simp only at h
      by_cases hstop : moveDir current d = start ∧ opposite d = oo
      · rw [if_pos hstop] at h
        have hdirs : dirs = [d] := by
          have := congrArg (fun x => x.map Prod.snd) h
          simpa using this.symm
        subst hdirs
        refine ⟨?_, d, rfl, hstop.2⟩
        rw [applyDirs_cons]
        exact hstop.1
      · rw [if_neg hstop] at h
        have hnext : cellAt cs (moveDir current d).row (moveDir current d).col = some cid := by
          have hflag := determineNextDirection_flag _ _ _ _ _ _ hd
          rw [cellAt_moveDir]
          cases d <;> simp only [hasDir] at hflag <;> exact of_decide_eq_true hflag
        cases hrec : traceLoop cs cid drawer start oo n (opposite d) (moveDir current d) with
        | none => rw [hrec] at h; exact Option.noConfusion h
        | some p =>
          obtain ⟨segs', dirs'⟩ := p
          rw [hrec] at h
          simp only [Option.some.injEq, Prod.mk.injEq] at h
          have hgood' : cellAt cs (moveDir (moveDir current d) (opposite d)).row
              (moveDir (moveDir current d) (opposite d)).col = some cid := by
            rw [moveDir_opposite]; exact hcur
          obtain ⟨happ, dl, hlast, hopp⟩ := ih (opposite d) (moveDir current d) segs' dirs' hnext hgood' hrec
          refine ⟨?_, dl, ?_, hopp⟩
          · rw [← h.2, applyDirs_cons]; exact happ
          · rw [← h.2]
            cases dirs' with
            | nil => simp at hlast
            | cons x xs => rw [List.getLast?_cons_cons]; exact hlast

/-- **C3**: assuming the walk terminates, every contour returned by
`renderComponentToPath` (for a start cell belonging to the traced component)
is a closed loop: the direction sequence brings the current cell back to the
start coordinate, its net (row, col) displacement in module units is zero,
and — unless the walk stopped immediately with the single-dot glyph (empty
direction sequence) — the final arrival orientation equals the initial one,
so re-entering the start cell from a different side never terminated it. -/
theorem trace_closure :
    ∀ (cs : LabelGrid) (cid : Nat) (offset : ℚ × ℚ) (start : Pos)
      (drawer : PathDrawer) (moveRight : Bool) (dotSize : ℚ) (fuel : Nat)
      (segs : List Seg) (dirs : List Directions),
      cellAt cs start.row start.col = some cid →
      renderComponentToPath cid cs offset start drawer moveRight dotSize fuel =
        some (segs, dirs) →
      applyDirs start dirs = start ∧ netDisp dirs = (0, 0) ∧
        (dirs ≠ [] → ∃ d, dirs.getLast? = some d ∧
          opposite d = (startOrigin cs cid start moveRight dotSize).1) := by
  intro cs cid offset start drawer moveRight dotSize fuel segs dirs hstart hrender
  suffices h : applyDirs start dirs = start ∧
      (dirs ≠ [] → ∃ d, dirs.getLast? = some d ∧
        opposite d = (startOrigin cs cid start moveRight dotSize).1) by
    refine ⟨h.1, ?_, h.2⟩
    have := applyDirs_netDisp dirs start
    rw [h.1] at this
    have hrow : start.row = start.row + (netDisp dirs).1 := congrArg Pos.row this
    have hcol : start.col = start.col + (netDisp dirs).2 := congrArg Pos.col this
    have h1 : (netDisp dirs).1 = 0 := by omega
    have h2 : (netDisp dirs).2 = 0 := by omega
    exact Prod.ext h1 h2
  simp only [renderComponentToPath] at hrender
  set oo := (startOrigin cs cid start moveRight dotSize).1 with hoo
  cases hloop : traceLoop cs cid drawer start oo fuel oo start with
  | none => rw [hloop] at hrender; exact Option.noConfusion hrender
  | some p =>
    obtain ⟨segs0, dirs0⟩ := p
    rw [hloop] at hrender
    simp only [Option.some.injEq, Prod.mk.injEq] at hrender
    have hdirs : dirs = dirs0 := hrender.2.symm
    subst hdirs
    -- analyse the first iteration of the loop by hand
    cases fuel with
    | zero => simp [traceLoop] at hloop
    | succ n =>
      rw [traceLoop] at hloop
      cases hd : determineNextDirection oo
          (decide (cellAt cs start.row (start.col - 1) = some cid))
          (decide (cellAt cs start.row (start.col + 1) = some cid))
          (decide (cellAt cs (start.row - 1) start.col = some cid))
          (decide (cellAt cs (start.row + 1) start.col = some cid)) with
      | none =>
        rw [hd] at hloop
        simp only [Option.some.injEq, Prod.mk.injEq] at hloop
        have : dirs = [] := hloop.2.symm
        subst this
        exact ⟨rfl, fun hne => absurd rfl hne⟩
      | some d =>
        rw [hd] at hloop
        simp only at hloop
        by_cases hstop : moveDir start d = start ∧ opposite d = oo
        · rw [if_pos hstop] at hloop
          simp only [Option.some.injEq, Prod.mk.injEq] at hloop
          have : dirs = [d] := hloop.2.symm
          subst this
          exact ⟨by rw [applyDirs_cons]; exact hstop.1,
            fun _ => ⟨d, rfl, hstop.2⟩⟩
        · rw [if_neg hstop] at hloop
          have hnext : cellAt cs (moveDir start d).row (moveDir start d).col = some cid := by
            have hflag := determineNextDirection_flag _ _ _ _ _ _ hd
            rw [cellAt_moveDir]
            cases d <;> simp only [hasDir] at hflag <;> exact of_decide_eq_true hflag
          cases hrec : traceLoop cs cid drawer start oo n (opposite d) (moveDir start d) with
          | none => rw [hrec] at hloop; exact Option.noConfusion hloop
          | some q =>
            obtain ⟨segs', dirs'⟩ := q
            rw [hrec] at hloop
            simp only [Option.some.injEq, Prod.mk.injEq] at hloop
            have hgood' : cellAt cs (moveDir (moveDir start d) (opposite d)).row
                (moveDir (moveDir start d) (opposite d)).col = some cid := by
              rw [moveDir_opposite]; exact hstart
            obtain ⟨happ, dl, hlast, hopp⟩ :=
              traceLoop_closed cs cid drawer start oo n (opposite d) (moveDir start d)
                segs' dirs' hnext hgood' hrec
            have : dirs = d :: dirs' := hloop.2.symm
            subst this
            refine ⟨by rw [applyDirs_cons]; exact happ, fun _ => ⟨dl, ?_, hopp⟩⟩
            cases dirs' with
            | nil => simp at hlast
            | cons x xs => rw [List.getLast?_cons_cons]; exact hlast

/-- Witness for the closure theorem: the 1×2 component `[[some 2, some 2]]`
traced from `(0,0)` terminates with a closed two-step loop. -/
theorem trace_closure_witness :
    applyDirs ⟨0, 0⟩ [Directions.right, Directions.left] = (⟨0, 0⟩ : Pos) ∧
      netDisp [Directions.right, Directions.left] = (0, 0) := by
  have h := trace_closure [[some 2, some 2]] 2 (0, 0) ⟨0, 0⟩ (squarePathDrawer 4)
    false 4 100
    ([.moveAbs (((0 : Int) : ℚ) * 4 + 0) (((0 : Int) : ℚ) * 4 + 0), .moveRel 4 0,
      .left 4, .down 4, .right 4, .right 4, .up 4, .left 4])
    [Directions.right, Directions.left] (by decide) (by rfl)
  exact ⟨h.1, h.2.1⟩

/-- Witness for the interior-preservation theorem at `N = 2`, `p = 1`,
interior cell `(1, 0)`. -/
theorem expand_preserves_interior_witness :
    ((expandDotsMaskWithCircle 2 1 2 (fun _ _ => false)
        [[true, false], [false, true]]).getD 2 []).getD 1 false =
      (([[true, false], [false, true]] : List (List Bool)).getD 1 []).getD 0 false :=
  (expand_preserves_interior 2 1 2 (fun _ _ => false)
    [[true, false], [false, true]] 1 0 (by decide) (by decide)).2.2

/-! ## Hole registration and composition (C6) -/

/-- Membership after `pushGroup`: `id` sits in `f`'s group of `pushGroup m k v`
exactly when it already did in `m`, or `f = k` and `id = v`. -/
theorem mem_pushGroup_iff (m : List (Nat × List Nat)) (k v f id : Nat) :
    (∃ l, (f, l) ∈ pushGroup m k v ∧ id ∈ l) ↔
      ((∃ l, (f, l) ∈ m ∧ id ∈ l) ∨ (f = k ∧ id = v)) := by
  induction m with
  | nil =>
    constructor
    · rintro ⟨l, hl, hid⟩
      rw [pushGroup, List.mem_singleton, Prod.mk.injEq] at hl
      obtain ⟨hf, hlv⟩ := hl
      rw [hlv, List.mem_singleton] at hid
      exact Or.inr ⟨hf, hid⟩
    · rintro (⟨l, hl, _⟩ | ⟨hf, hi⟩)
      · exact absurd hl (List.not_mem_nil _)
      · refine ⟨[v], ?_, ?_⟩
        · rw [hf]; exact List.mem_singleton.2 rfl
        · rw [hi]; exact List.mem_singleton.2 rfl
  | cons p rest ih =>
    obtain ⟨a, l0⟩ := p
    by_cases hak : a = k
    · subst hak
      rw [pushGroup, if_pos rfl]
      constructor
      · rintro ⟨l, hl, hid⟩
        rcases List.mem_cons.1 hl with heq | hmem
        · have hf : f = a := congrArg Prod.fst heq
          have hlv : l = l0 ++ [v] := congrArg Prod.snd heq
          rw [hlv, List.mem_append, List.mem_singleton] at hid
          rcases hid with h1 | h2
          · refine Or.inl ⟨l0, ?_, h1⟩
            rw [hf]; exact List.mem_cons_self _ _
          · exact Or.inr ⟨hf, h2⟩
        · exact Or.inl ⟨l, List.mem_cons_of_mem _ hmem, hid⟩
      · rintro (⟨l, hl, hid⟩ | ⟨hf, hi⟩)
        · rcases List.mem_cons.1 hl with heq | hmem
          · have hf : f = a := congrArg Prod.fst heq
            have hlv : l = l0 := congrArg Prod.snd heq
            refine ⟨l0 ++ [v], ?_, ?_⟩
            · rw [hf]; exact List.mem_cons_self _ _
            · exact List.mem_append_left _ (hlv ▸ hid)
          · exact ⟨l, List.mem_cons_of_mem _ hmem, hid⟩
        · refine ⟨l0 ++ [v], ?_, ?_⟩
          · rw [hf]; exact List.mem_cons_self _ _
          · rw [hi]; exact List.mem_append_right _ (List.mem_singleton.2 rfl)
    · rw [pushGroup, if_neg hak]
      constructor
      · rintro ⟨l, hl, hid⟩
        rcases List.mem_cons.1 hl with heq | hmem
        · have hf : f = a := congrArg Prod.fst heq
          have hlv : l = l0 := congrArg Prod.snd heq
          refine Or.inl ⟨l0, ?_, hlv ▸ hid⟩
          rw [hf]; exact List.mem_cons_self _ _
        · rcases ih.1 ⟨l, hmem, hid⟩ with ⟨l', hl', hid'⟩ | h
          · exact Or.inl ⟨l', List.mem_cons_of_mem _ hl', hid'⟩
          · exact Or.inr h
      · rintro (⟨l, hl, hid⟩ | h)
        · rcases List.mem_cons.1 hl with heq | hmem
          · have hf : f = a := congrArg Prod.fst heq
            have hlv : l = l0 := congrArg Prod.snd heq
            refine ⟨l0, ?_, hlv ▸ hid⟩
            rw [hf]; exact List.mem_cons_self _ _
          · obtain ⟨l', hl', hid'⟩ := ih.2 (Or.inl ⟨l, hmem, hid⟩)
            exact ⟨l', List.mem_cons_of_mem _ hl', hid'⟩
        · obtain ⟨l', hl', hid'⟩ := ih.2 (Or.inr h)
          exact ⟨l', List.mem_cons_of_mem _ hl', hid'⟩

/-- Membership in the background-group map after folding `bgGroupStep` over a
registry suffix: `id` lies in `f`'s group exactly when it already did in the
accumulator, or some processed entry `(id, pos)` passes the registration test
(`id > 1`, left-of-start foreground lookup truthy) with surrounding
component `f`. -/
theorem bgGroup_fold_mem (fgC : LabelGrid) :
    ∀ (entries : List (Nat × Pos)) (acc : List (Nat × List Nat)) (f id : Nat),
      (∃ l, (f, l) ∈ entries.foldl (bgGroupStep fgC) acc ∧ id ∈ l) ↔
        ((∃ l, (f, l) ∈ acc ∧ id ∈ l) ∨
          ∃ pos : Pos, (id, pos) ∈ entries ∧ 1 < id ∧ f ≠ 0 ∧
            cellAt fgC pos.row (pos.col - 1) = some f) := by
  intro entries
  induction entries with
  | nil => intro acc f id; simp
  | cons p rest ih =>
    intro acc f id
    obtain ⟨pid, ppos⟩ := p
    rw [List.foldl_cons, ih]
    cases hcell : cellAt fgC ppos.row (ppos.col - 1) with
    | none =>
      simp only [bgGroupStep, hcell]
      constructor
      · rintro (hacc | ⟨pos, hmem, hgt, hf0, hc⟩)
        · exact Or.inl hacc
        · exact Or.inr ⟨pos, List.mem_cons_of_mem _ hmem, hgt, hf0, hc⟩
      · rintro (hacc | ⟨pos, hmem, hgt, hf0, hc⟩)
        · exact Or.inl hacc
        · rcases List.mem_cons.1 hmem with heq | hmem'
          · have hpos : pos = ppos := congrArg Prod.snd heq
            rw [hpos, hcell] at hc
            simp at hc
          · exact Or.inr ⟨pos, hmem', hgt, hf0, hc⟩
    | some s =>
      simp only [bgGroupStep, hcell]
      by_cases hskip : s = 0 ∨ pid ≤ 1
      · rw [if_pos hskip]
        constructor
        · rintro (hacc | ⟨pos, hmem, hgt, hf0, hc⟩)
          · exact Or.inl hacc
          · exact Or.inr ⟨pos, List.mem_cons_of_mem _ hmem, hgt, hf0, hc⟩
        · rintro (hacc | ⟨pos, hmem, hgt, hf0, hc⟩)
          · exact Or.inl hacc
          · rcases List.mem_cons.1 hmem with heq | hmem'
            · have hid : id = pid := congrArg Prod.fst heq
              have hpos : pos = ppos := congrArg Prod.snd heq
              rw [hpos, hcell] at hc
              have hfs : s = f := Option.some.inj hc
              rcases hskip with h0 | h1
              · exact absurd (by rw [← hfs]; exact h0) hf0
              · exact absurd hgt (by rw [hid]; omega)
            · exact Or.inr ⟨pos, hmem', hgt, hf0, hc⟩
      · rw [if_neg hskip]
        push_neg at hskip
        obtain ⟨hs0, hpid⟩ := hskip
        rw [mem_pushGroup_iff]
        constructor
        · rintro ((hacc | ⟨hfs, hidp⟩) | ⟨pos, hmem, hgt, hf0, hc⟩)
          · exact Or.inl hacc
          · refine Or.inr ⟨ppos, ?_, ?_, ?_, ?_⟩
            · rw [hidp]; exact List.mem_cons_self _ _
            · rw [hidp]; omega
            · rw [hfs]; exact hs0
            · rw [hfs]; exact hcell
          · exact Or.inr ⟨pos, List.mem_cons_of_mem _ hmem, hgt, hf0, hc⟩
        · rintro (hacc | ⟨pos, hmem, hgt, hf0, hc⟩)
          · exact Or.inl (Or.inl hacc)
          · rcases List.mem_cons.1 hmem with heq | hmem'
            · have hid : id = pid := congrArg Prod.fst heq
              have hpos : pos = ppos := congrArg Prod.snd heq
              rw [hpos, hcell] at hc
              exact Or.inl (Or.inr ⟨(Option.some.inj hc).symm, hid⟩)
            · exact Or.inr ⟨pos, hmem', hgt, hf0, hc⟩

/-- The contour a registered hole contributes (the segment list of the walk
from the start shifted one cell up and one cell left, `moveRight = true`). -/
def holeContour (fgC : LabelGrid) (bgIds : List (Nat × Pos)) (offset : ℚ × ℚ)
    (drawer : PathDrawer) (dotSize : ℚ) (fuel : Nat) (f hid : Nat) : List Seg :=
  ((findStart bgIds hid).bind (fun start =>
    (renderComponentToPath f fgC offset ⟨start.row - 1, start.col - 1⟩
      drawer true dotSize fuel).map Prod.fst)).getD []

/-- Folding `holeAppendStep` over a hole list whose entries all have a
registered start and a successful contour walk appends exactly the
concatenation of the holes' contours. -/
theorem holeAppend_fold (fgC : LabelGrid) (bgIds : List (Nat × Pos))
    (offset : ℚ × ℚ) (drawer : PathDrawer) (dotSize : ℚ) (fuel : Nat) (f : Nat) :
    ∀ (l : List Nat) (base : List Seg),
      (∀ hid ∈ l, ∃ start sp, findStart bgIds hid = some start ∧
        renderComponentToPath f fgC offset ⟨start.row - 1, start.col - 1⟩
          drawer true dotSize fuel = some sp) →
      l.foldl (holeAppendStep fgC bgIds offset drawer dotSize fuel f) (some base) =
        some (base ++ l.flatMap (holeContour fgC bgIds offset drawer dotSize fuel f)) := by
  intro l
  induction l with
  | nil => intro base _; simp
  | cons hid rest ih =>
    intro base hall
    obtain ⟨start, sp, hfind, hrender⟩ := hall hid (List.mem_cons_self _ _)
    rw [List.foldl_cons]
    have hstep : holeAppendStep fgC bgIds offset drawer dotSize fuel f (some base) hid =
        some (base ++ sp.1) := by
      simp only [holeAppendStep, hfind, hrender]
    rw [hstep, ih (base ++ sp.1) (fun x hx => hall x (List.mem_cons_of_mem _ hx)),
      List.flatMap_cons]
    have hc : holeContour fgC bgIds offset drawer dotSize fuel f hid = sp.1 := by
      simp [holeContour, hfind, hrender]
    rw [hc, List.append_assoc]

/-- Sanitized-model hole registration: in `drawComponents`, a background
component `id` is registered as a
hole of foreground component `f` exactly when some background-registry entry
`(id, pos)` has `id > 1` and the foreground label map holds the truthy value
`f` immediately left of `pos`; the compound path of `f` is its own contour
followed by the concatenated contours of its registered holes, each traced
from the hole's start shifted one cell up and one cell left; background
components failing the test appear in no group, hence contribute no path
output. -/
theorem drawComponents_hole_registration_sanitized
    (dotsMask : List (List Bool)) (offset : ℚ × ℚ) (drawer : PathDrawer)
    (dotSize : ℚ) (fuel : Nat) :
    (∀ f id : Nat,
      (∃ l, (f, l) ∈ backgroundPathsForComponent
          (buildConnectedComponents dotsMask false 4).components
          (buildConnectedComponents dotsMask true 8).ids ∧ id ∈ l) ↔
        ∃ pos : Pos, (id, pos) ∈ (buildConnectedComponents dotsMask true 8).ids ∧
          1 < id ∧ f ≠ 0 ∧
          cellAt (buildConnectedComponents dotsMask false 4).components
            pos.row (pos.col - 1) = some f) ∧
    (∀ (f : Nat) (base : List Seg) (l : List Nat),
      ((backgroundPathsForComponent
          (buildConnectedComponents dotsMask false 4).components
          (buildConnectedComponents dotsMask true 8).ids).find?
            (fun q => q.1 = f)).map Prod.snd = some l →
      (∀ hid ∈ l, ∃ start sp,
        findStart (buildConnectedComponents dotsMask true 8).ids hid = some start ∧
        renderComponentToPath f (buildConnectedComponents dotsMask false 4).components
          offset ⟨start.row - 1, start.col - 1⟩ drawer true dotSize fuel = some sp) →
      componentFullPath (buildConnectedComponents dotsMask false 4).components
          (buildConnectedComponents dotsMask true 8).ids
          (backgroundPathsForComponent
            (buildConnectedComponents dotsMask false 4).components
            (buildConnectedComponents dotsMask true 8).ids)
          offset drawer dotSize fuel f (some base) =
        some (base ++ l.flatMap (holeContour
          (buildConnectedComponents dotsMask false 4).components
          (buildConnectedComponents dotsMask true 8).ids offset drawer dotSize fuel f))) ∧
    drawComponents dotsMask offset drawer dotSize fuel =
      (buildConnectedComponents dotsMask false 4).ids.map (fun p =>
        (p.1, componentFullPath (buildConnectedComponents dotsMask false 4).components
          (buildConnectedComponents dotsMask true 8).ids
          (backgroundPathsForComponent
            (buildConnectedComponents dotsMask false 4).components
            (buildConnectedComponents dotsMask true 8).ids)
          offset drawer dotSize fuel p.1
          ((renderComponentToPath p.1
            (buildConnectedComponents dotsMask false 4).components
            offset p.2 drawer false dotSize fuel).map Prod.fst))) := by
  refine ⟨?_, ?_, ?_⟩
  · intro f id
    rw [backgroundPathsForComponent,
      bgGroup_fold_mem (buildConnectedComponents dotsMask false 4).components
        (buildConnectedComponents dotsMask true 8).ids [] f id]
    simp
  · intro f base l hfind hall
    rw [componentFullPath]
    rw [hfind]
    exact holeAppend_fold _ _ _ _ _ _ _ l base hall
  · rw [drawComponents, List.map_map]
    rfl

/-- Witness for the hole-registration theorem on the 3×3 ring mask: the center
background cell (id 2, start `(1,1)`) is registered as a hole of the
foreground ring component 2 via its left neighbor `(1,0)`. -/
theorem drawComponents_hole_registration_sanitized_witness :
    ∃ l, (2, l) ∈ backgroundPathsForComponent
        (buildConnectedComponents
          [[true, true, true], [true, false, true], [true, true, true]] false 4).components
        (buildConnectedComponents
          [[true, true, true], [true, false, true], [true, true, true]] true 8).ids ∧
      2 ∈ l :=
  ((drawComponents_hole_registration_sanitized
      [[true, true, true], [true, false, true], [true, true, true]]
      (0, 0) (squarePathDrawer 4) 4 100).1 2 2).mpr
    ⟨⟨1, 1⟩, by decide, by decide, by decide, by decide⟩

/-! ## Termination of the contour walk (C4)

The loop state is the pair `(current, origin)`. One iteration either stops
(no flagged neighbor: the single-dot exit), exits (the new state equals the
initial one), or moves to a new state. On "dart" states — the current cell
and the arrival-direction neighbor both carry the traced id, which holds for
every state after the first iteration — the step function is injective, so
over the finite grid the orbit of a dart initial state is purely periodic and
the walk must return to it. -/

/-- The `determineNextDirection` call of one loop iteration, with the four
neighbor flags computed at cell `c` exactly as in the loop body. -/
def nextDir (cs : LabelGrid) (cid : Nat) (c : Pos) (o : Directions) :
    Option Directions :=
  determineNextDirection o
    (decide (cellAt cs c.row (c.col - 1) = some cid))
    (decide (cellAt cs c.row (c.col + 1) = some cid))
    (decide (cellAt cs (c.row - 1) c.col = some cid))
    (decide (cellAt cs (c.row + 1) c.col = some cid))

/-- One iteration of the `do … while` loop as a state transformer on
`(current, origin)`; `none` is the no-flagged-neighbor (single-dot) exit. -/
def traceStep (cs : LabelGrid) (cid : Nat) (s : Pos × Directions) :
    Option (Pos × Directions) :=
  match nextDir cs cid s.1 s.2 with
  | none => none
  | some nd => (moveDir s.1 nd, opposite nd)

/-- A dart state: the current cell and its arrival-direction neighbor both
hold the traced component id. -/
def InD (cs : LabelGrid) (cid : Nat) (s : Pos × Directions) : Prop :=
  cellAt cs s.1.row s.1.col = some cid ∧
    cellAt cs (moveDir s.1 s.2).row (moveDir s.1 s.2).col = some cid

/-- `n`-fold iteration of `traceStep`. -/
def stepN (cs : LabelGrid) (cid : Nat) :
    Nat → Pos × Directions → Option (Pos × Directions)
  | 0, s => some s
  | n + 1, s =>
    match traceStep cs cid s with
    | none => none
    | some s' => stepN cs cid n s'

theorem nextDir_isSome {cs : LabelGrid} {cid : Nat} {c : Pos} {o : Directions}
    (h : cellAt cs (moveDir c o).row (moveDir c o).col = some cid) :
    ∃ nd, nextDir cs cid c o = some nd := by
  rw [cellAt_moveDir] at h
  have hflag : hasDir
      (decide (cellAt cs c.row (c.col - 1) = some cid))
      (decide (cellAt cs c.row (c.col + 1) = some cid))
      (decide (cellAt cs (c.row - 1) c.col = some cid))
      (decide (cellAt cs (c.row + 1) c.col = some cid)) o = true := by
    cases o <;> simp only [hasDir] <;> exact decide_eq_true h
  have := determineNextDirection_isSome_of_origin _ _ _ _ _ hflag
  rw [Option.isSome_iff_exists] at this
  exact this

theorem nextDir_flag {cs : LabelGrid} {cid : Nat} {c : Pos} {o nd : Directions}
    (h : nextDir cs cid c o = some nd) :
    cellAt cs (moveDir c nd).row (moveDir c nd).col = some cid := by
  have hflag := determineNextDirection_flag _ _ _ _ _ _ h
  rw [cellAt_moveDir]
  cases nd <;> simp only [hasDir] at hflag <;> exact of_decide_eq_true hflag

/-- On flagged origins, `determineNextDirection` is injective in the origin:
the next direction is the cyclic successor within the nonempty set of flagged
directions, a permutation of that set. -/
theorem determineNextDirection_origin_inj :
    ∀ (l r t b : Bool) (o₁ o₂ d : Directions),
      hasDir l r t b o₁ = true → hasDir l r t b o₂ = true →
      determineNextDirection o₁ l r t b = some d →
      determineNextDirection o₂ l r t b = some d → o₁ = o₂ := by
  decide

theorem opposite_inj : ∀ d₁ d₂ : Directions, opposite d₁ = opposite d₂ → d₁ = d₂ := by
  decide

theorem moveDir_inj (d : Directions) (p q : Pos) (h : moveDir p d = moveDir q d) :
    p = q := by
  rw [← moveDir_opposite p d, h, moveDir_opposite]

theorem nextDir_origin_inj {cs : LabelGrid} {cid : Nat} {c : Pos}
    {o₁ o₂ nd : Directions}
    (h1o : cellAt cs (moveDir c o₁).row (moveDir c o₁).col = some cid)
    (h2o : cellAt cs (moveDir c o₂).row (moveDir c o₂).col = some cid)
    (h1 : nextDir cs cid c o₁ = some nd) (h2 : nextDir cs cid c o₂ = some nd) :
    o₁ = o₂ := by
  rw [cellAt_moveDir] at h1o h2o
  refine determineNextDirection_origin_inj
    (decide (cellAt cs c.row (c.col - 1) = some cid))
    (decide (cellAt cs c.row (c.col + 1) = some cid))
    (decide (cellAt cs (c.row - 1) c.col = some cid))
    (decide (cellAt cs (c.row + 1) c.col = some cid)) o₁ o₂ nd ?_ ?_ h1 h2
  · cases o₁ <;> simp only [hasDir] <;> exact decide_eq_true h1o
  · cases o₂ <;> simp only [hasDir] <;> exact decide_eq_true h2o

/-- A dart state steps to a dart state (never the single-dot exit). -/
theorem traceStep_of_InD {cs : LabelGrid} {cid : Nat} {s : Pos × Directions}
    (h : InD cs cid s) :
    ∃ s', traceStep cs cid s = some s' ∧ InD cs cid s' := by
  obtain ⟨c, o⟩ := s
  obtain ⟨hcur, hnb⟩ := h
  obtain ⟨nd, hd⟩ := nextDir_isSome hnb
  refine ⟨(moveDir c nd, opposite nd), ?_, ?_, ?_⟩
  · simp only [traceStep, hd]
  · exact nextDir_flag hd
  · show cellAt cs (moveDir (moveDir c nd) (opposite nd)).row
      (moveDir (moveDir c nd) (opposite nd)).col = some cid
    rw [moveDir_opposite]
    exact hcur

/-- `traceStep` is injective on dart states. -/
theorem traceStep_inj {cs : LabelGrid} {cid : Nat} {s t u : Pos × Directions}
    (hs : InD cs cid s) (ht : InD cs cid t)
    (h1 : traceStep cs cid s = some u) (h2 : traceStep cs cid t = some u) :
    s = t := by
  obtain ⟨c₁, o₁⟩ := s
  obtain ⟨c₂, o₂⟩ := t
  cases hd1 : nextDir cs cid c₁ o₁ with
  | none =>
    simp only [traceStep, hd1] at h1
    exact Option.noConfusion h1
  | some nd₁ =>
    cases hd2 : nextDir cs cid c₂ o₂ with
    | none =>
      simp only [traceStep, hd2] at h2
      exact Option.noConfusion h2
    | some nd₂ =>
      simp only [traceStep, hd1] at h1
      simp only [traceStep, hd2] at h2
      rw [← h2] at h1
      have hpair := Option.some.inj h1
      have hopp : opposite nd₁ = opposite nd₂ := congrArg Prod.snd hpair
      have hnd : nd₁ = nd₂ := opposite_inj _ _ hopp
      rw [hnd] at hpair hd1
      have hc : c₁ = c₂ := moveDir_inj nd₂ c₁ c₂ (congrArg Prod.fst hpair)
      subst hc
      have ho : o₁ = o₂ := nextDir_origin_inj hs.2 ht.2 hd1 hd2
      rw [ho]

theorem stepN_InD {cs : LabelGrid} {cid : Nat} :
    ∀ (n : Nat) {s u : Pos × Directions}, InD cs cid s →
      stepN cs cid n s = some u → InD cs cid u := by
  intro n
  induction n with
  | zero =>
    intro s u h hh
    rw [stepN] at hh
    rw [← Option.some.inj hh]
    exact h
  | succ n ih =>
    intro s u h hh
    obtain ⟨s', hstep, hInD⟩ := traceStep_of_InD h
    rw [stepN] at hh
    simp only [hstep] at hh
    exact ih hInD hh

theorem stepN_succ_back {cs : LabelGrid} {cid : Nat} :
    ∀ (n : Nat) (s : Pos × Directions),
      stepN cs cid (n + 1) s =
        match stepN cs cid n s with
        | none => none
        | some u => traceStep cs cid u := by
  intro n
  induction n with
  | zero =>
    intro s
    simp only [stepN]
    cases h : traceStep cs cid s <;> simp [h]
  | succ n ih =>
    intro s
    rw [show stepN cs cid (n + 1 + 1) s = (match traceStep cs cid s with
        | none => none
        | some s' => stepN cs cid (n + 1) s') from rfl]
    rw [show stepN cs cid (n + 1) s = (match traceStep cs cid s with
        | none => none
        | some s' => stepN cs cid n s') from rfl]
    cases hs : traceStep cs cid s with
    | none => rfl
    | some s' => exact ih s'

/-- Backward cancellation: two coinciding iterates of a dart state give a
cycle through the state itself (`traceStep` is injective on darts). -/
theorem stepN_cancel {cs : LabelGrid} {cid : Nat} {s₀ : Pos × Directions}
    (h₀ : InD cs cid s₀) :
    ∀ (i j : Nat) (u : Pos × Directions), i < j →
      stepN cs cid i s₀ = some u → stepN cs cid j s₀ = some u →
      stepN cs cid (j - i) s₀ = some s₀ := by
  intro i
  induction i with
  | zero =>
    intro j u hij h0 hj
    rw [stepN] at h0
    rw [← Option.some.inj h0] at hj
    simp only [Nat.sub_zero]
    exact hj
  | succ i ih =>
    intro j u hij hi hj
    cases j with
    | zero => omega
    | succ j' =>
      rw [stepN_succ_back] at hi hj
      cases hii : stepN cs cid i s₀ with
      | none =>
        simp only [hii] at hi
        exact Option.noConfusion hi
      | some v =>
        simp only [hii] at hi
        cases hjj : stepN cs cid j' s₀ with
        | none =>
          simp only [hjj] at hj
          exact Option.noConfusion hj
        | some w =>
          simp only [hjj] at hj
          have hv : InD cs cid v := stepN_InD i h₀ hii
          have hw : InD cs cid w := stepN_InD j' h₀ hjj
          have hvw : v = w := traceStep_inj hv hw hi hj
          have hres := ih j' v (by omega) hii (by rw [hjj, hvw])
          rw [Nat.succ_sub_succ]
          exact hres

/-- The largest row length of a label grid. -/
def maxRowLen (g : LabelGrid) : Nat :=
  g.foldr (fun row m => max row.length m) 0

theorem rowLen_le_maxRowLen (g : LabelGrid) :
    ∀ r : Nat, (g.getD r []).length ≤ maxRowLen g := by
  induction g with
  | nil => intro r; simp [maxRowLen, List.getD]
  | cons row rest ih =>
    intro r
    cases r with
    | zero =>
      rw [show ((row :: rest).getD 0 []) = row from rfl]
      exact Nat.le_max_left _ _
    | succ r' =>
      rw [show ((row :: rest).getD (r' + 1) []) = rest.getD r' [] from rfl]
      exact (ih r').trans (Nat.le_max_right _ _)

/-- `cellAt` at nonnegative coordinates is `labelOf` at the truncations. -/
theorem cellAt_nonneg_eq {g : LabelGrid} {r c : Int} (hr : 0 ≤ r) (hc : 0 ≤ c) :
    cellAt g r c = labelOf g r.toNat c.toNat := by
  unfold cellAt labelOf
  rw [if_neg (by omega)]

/-- `cellAt` at natural coordinates is `labelOf`. -/
theorem cellAt_natCast (g : LabelGrid) (r c : Nat) :
    cellAt g (r : Int) (c : Int) = labelOf g r c := by
  rw [cellAt_nonneg_eq (by omega) (by omega)]
  simp

/-- A labeled cell lies inside the grid's bounding box. -/
theorem cellAt_bounds {g : LabelGrid} {r c : Int} {v : Nat}
    (h : cellAt g r c = some v) :
    0 ≤ r ∧ 0 ≤ c ∧ r.toNat < g.length ∧ c.toNat < maxRowLen g := by
  by_cases hneg : r < 0 ∨ c < 0
  · unfold cellAt at h
    rw [if_pos hneg] at h
    exact Option.noConfusion h
  · push_neg at hneg
    rw [cellAt_nonneg_eq hneg.1 hneg.2] at h
    obtain ⟨hrow, hcol⟩ := labelOf_some_bounds h
    exact ⟨hneg.1, hneg.2, hrow, hcol.trans_le (rowLen_le_maxRowLen g _)⟩

theorem rotationIndex_lt : ∀ d : Directions, rotationIndex d < 4 := by decide

theorem rotationIndex_inj :
    ∀ d₁ d₂ : Directions, rotationIndex d₁ = rotationIndex d₂ → d₁ = d₂ := by decide

/-- Injection of loop states into `Nat`, bounded by `4 · rows · maxRowLen` on
dart states. -/
def encodeState (g : LabelGrid) (s : Pos × Directions) : Nat :=
  (s.1.row.toNat * maxRowLen g + s.1.col.toNat) * 4 + rotationIndex s.2

theorem encodeState_lt {g : LabelGrid} {cid : Nat} {s : Pos × Directions}
    (h : InD g cid s) : encodeState g s < 4 * (g.length * maxRowLen g) := by
  obtain ⟨hr0, hc0, hrl, hcl⟩ := cellAt_bounds h.1
  have h4 := rotationIndex_lt s.2
  have h1 : s.1.row.toNat * maxRowLen g + s.1.col.toNat + 1 ≤
      (s.1.row.toNat + 1) * maxRowLen g := by
    rw [Nat.succ_mul]
    omega
  have h2 : (s.1.row.toNat + 1) * maxRowLen g ≤ g.length * maxRowLen g :=
    Nat.mul_le_mul_right _ hrl
  calc encodeState g s
      < (s.1.row.toNat * maxRowLen g + s.1.col.toNat + 1) * 4 := by
        unfold encodeState; omega
    _ ≤ (g.length * maxRowLen g) * 4 := Nat.mul_le_mul_right 4 (h1.trans h2)
    _ = 4 * (g.length * maxRowLen g) := Nat.mul_comm _ _

theorem encodeState_inj {g : LabelGrid} {cid : Nat} {s t : Pos × Directions}
    (hs : InD g cid s) (ht : InD g cid t)
    (h : encodeState g s = encodeState g t) : s = t := by
  obtain ⟨⟨sr, sc⟩, sd⟩ := s
  obtain ⟨⟨tr, tc⟩, td⟩ := t
  obtain ⟨hsr0, hsc0, hsrl, hscl⟩ := cellAt_bounds hs.1
  obtain ⟨htr0, htc0, htrl, htcl⟩ := cellAt_bounds ht.1
  simp only at hsr0 hsc0 hsrl hscl htr0 htc0 htrl htcl
  unfold encodeState at h
  simp only at h
  have hk := rotationIndex_lt sd
  have hk' := rotationIndex_lt td
  have hdir : rotationIndex sd = rotationIndex td := by omega
  have hAB : sr.toNat * maxRowLen g + sc.toNat = tr.toNat * maxRowLen g + tc.toNat := by
    omega
  have hL : 0 < maxRowLen g := by omega
  have ediv : ∀ r c : Nat, c < maxRowLen g → (r * maxRowLen g + c) / maxRowLen g = r := by
    intro r c hc
    rw [Nat.mul_comm r, Nat.mul_add_div hL, Nat.div_eq_of_lt hc, Nat.add_zero]
  have hrow : sr.toNat = tr.toNat := by
    have e1 := ediv sr.toNat sc.toNat hscl
    rw [hAB, ediv tr.toNat tc.toNat htcl] at e1
    exact e1.symm
  have hcol : sc.toNat = tc.toNat := by
    rw [hrow] at hAB
    omega
  have hrow' : sr = tr := by
    rw [← Int.toNat_of_nonneg hsr0, ← Int.toNat_of_nonneg htr0, hrow]
  have hcol' : sc = tc := by
    rw [← Int.toNat_of_nonneg hsc0, ← Int.toNat_of_nonneg htc0, hcol]
  rw [hrow', hcol', rotationIndex_inj sd td hdir]

/-- Pigeonhole on the finite dart space: the orbit of a dart state returns to
it within `4 · rows · maxRowLen` steps. -/
theorem exists_cycle {cs : LabelGrid} {cid : Nat} {s₀ : Pos × Directions}
    (h₀ : InD cs cid s₀) :
    ∃ n, 1 ≤ n ∧ n ≤ 4 * (cs.length * maxRowLen cs) ∧
      stepN cs cid n s₀ = some s₀ := by
  have htot : ∀ i : Nat, ∃ u, stepN cs cid i s₀ = some u ∧ InD cs cid u := by
    intro i
    induction i with
    | zero => exact ⟨s₀, by rw [stepN], h₀⟩
    | succ i ih =>
      obtain ⟨u, hu, hInD⟩ := ih
      obtain ⟨u', hu', hInD'⟩ := traceStep_of_InD hInD
      refine ⟨u', ?_, hInD'⟩
      rw [stepN_succ_back]
      simp only [hu]
      exact hu'
  have hmaps : ∀ i : Fin (4 * (cs.length * maxRowLen cs) + 1),
      i ∈ (Finset.univ : Finset (Fin (4 * (cs.length * maxRowLen cs) + 1))) →
      encodeState cs ((stepN cs cid i.val s₀).getD s₀) ∈
        Finset.range (4 * (cs.length * maxRowLen cs)) := by
    intro i _
    obtain ⟨u, hu, hInD⟩ := htot i.val
    rw [hu, Option.getD_some, Finset.mem_range]
    exact encodeState_lt hInD
  obtain ⟨i, -, j, -, hne, heq⟩ :=
    Finset.exists_ne_map_eq_of_card_lt_of_maps_to
      (by simp) hmaps
  obtain ⟨u, hu, hui⟩ := htot i.val
  obtain ⟨w, hw, hwi⟩ := htot j.val
  rw [hu, hw, Option.getD_some, Option.getD_some] at heq
  have huw : u = w := encodeState_inj hui hwi heq
  have hne' : i.val ≠ j.val := fun hvi => hne (Fin.ext hvi)
  rcases Nat.lt_or_ge i.val j.val with hlt | hge
  · have hres := stepN_cancel h₀ i.val j.val u hlt hu (by rw [hw, huw])
    have hjb := j.isLt
    exact ⟨j.val - i.val, by omega, by omega, hres⟩
  · have hlt' : j.val < i.val := by omega
    have hres := stepN_cancel h₀ j.val i.val w hlt' hw (by rw [hu, huw])
    have hib := i.isLt
    exact ⟨i.val - j.val, by omega, by omega, hres⟩

/-- A cycle of the step function through the loop's exit state makes the
`do … while` loop halt within that many iterations: either a single-dot exit,
the loop condition, or the recursion tracking the cycle. -/
theorem traceLoop_some_of_cycle (cs : LabelGrid) (cid : Nat) (drawer : PathDrawer)
    (start : Pos) (oo : Directions) :
    ∀ (fuel n : Nat) (s : Pos × Directions), 1 ≤ n → n ≤ fuel →
      stepN cs cid n s = some (start, oo) →
      (traceLoop cs cid drawer start oo fuel s.2 s.1).isSome = true := by
  intro fuel
  induction fuel with
  | zero => intro n s h1 h2 _; omega
  | succ fuel ih =>
    intro n s h1 h2 hcyc
    obtain ⟨c, o⟩ := s
    rw [traceLoop]
    cases hd : determineNextDirection o
        (decide (cellAt cs c.row (c.col - 1) = some cid))
        (decide (cellAt cs c.row (c.col + 1) = some cid))
        (decide (cellAt cs (c.row - 1) c.col = some cid))
        (decide (cellAt cs (c.row + 1) c.col = some cid)) with
    | none => rfl
    | some nd =>
      have hd' : nextDir cs cid c o = some nd := hd
      have hts : traceStep cs cid (c, o) = some (moveDir c nd, opposite nd) := by
        simp only [traceStep, hd']
      cases n with
      | zero => omega
      | succ m =>
        rw [stepN] at hcyc
        simp only [hts] at hcyc
        simp only []
        by_cases hstop : moveDir c nd = start ∧ opposite nd = oo
        · rw [if_pos hstop]
          rfl
        · rw [if_neg hstop]
          cases m with
          | zero =>
            rw [stepN] at hcyc
            have hpair := Option.some.inj hcyc
            exact absurd ⟨congrArg Prod.fst hpair, congrArg Prod.snd hpair⟩ hstop
          | succ m' =>
            have hrec := ih (m' + 1) (moveDir c nd, opposite nd) (by omega) (by omega) hcyc
            rw [Option.isSome_iff_exists] at hrec
            obtain ⟨p, hp⟩ := hrec
            obtain ⟨segs, dirs⟩ := p
            rw [hp]
            rfl

/-- Facts about a registered start: it carries its component's id, and — being
the component's raster-first cell — neither its left nor its top neighbor
does. -/
theorem registered_start_facts (mask : List (List Bool)) (invert : Bool)
    (conn : Nat) {id : Nat} {pos : Pos}
    (hmem : (id, pos) ∈ (buildConnectedComponents mask invert conn).ids) :
    cellAt (buildConnectedComponents mask invert conn).components
        pos.row pos.col = some id ∧
    cellAt (buildConnectedComponents mask invert conn).components
        pos.row (pos.col - 1) ≠ some id ∧
    cellAt (buildConnectedComponents mask invert conn).components
        (pos.row - 1) pos.col ≠ some id := by
  obtain ⟨hreg, -⟩ := bcc_reg mask invert conn
  obtain ⟨pr, pc, hpos, -, ⟨v, hv, hv0, hres⟩, hmin⟩ := hreg id pos hmem
  subst hpos
  have hcell : cellAt (buildConnectedComponents mask invert conn).components
      (pr : Int) (pc : Int) = some id := by
    rw [cellAt_natCast, resolved_of_raw mask invert conn hv, hres]
  refine ⟨hcell, ?_, ?_⟩
  · show cellAt _ (pr : Int) ((pc : Int) - 1) ≠ some id
    cases pc with
    | zero =>
      intro habs
      unfold cellAt at habs
      rw [if_pos (by omega)] at habs
      exact Option.noConfusion habs
    | succ pc' =>
      rw [show ((pc' + 1 : Nat) : Int) - 1 = ((pc' : Nat) : Int) by push_cast; ring]
      rw [cellAt_natCast]
      intro habs
      obtain ⟨w, hw, hwres⟩ := raw_of_resolved mask invert conn habs
      have hwb := (scanGrid_inv mask invert conn).labBnd pr pc' w hw
      exact hmin pr pc' w (Or.inr ⟨rfl, by omega⟩) hw (by omega) hwres.symm
  · show cellAt _ ((pr : Int) - 1) (pc : Int) ≠ some id
    cases pr with
    | zero =>
      intro habs
      unfold cellAt at habs
      rw [if_pos (by omega)] at habs
      exact Option.noConfusion habs
    | succ pr' =>
      rw [show ((pr' + 1 : Nat) : Int) - 1 = ((pr' : Nat) : Int) by push_cast; ring]
      rw [cellAt_natCast]
      intro habs
      obtain ⟨w, hw, hwres⟩ := raw_of_resolved mask invert conn habs
      have hwb := (scanGrid_inv mask invert conn).labBnd pr' pc w hw
      exact hmin pr' pc w (Or.inl (by omega)) hw (by omega) hwres.symm

/-- Sanitized-model termination: for every registered start coordinate of any
labeling pass of `buildConnectedComponents` (as invoked at registered starts, with
`moveRight = false`), the `do … while` contour walk of
`renderComponentToPath` terminates — some fuel bounded by
`4 · rows · maxRowLen + 1` (proportional to the grid area, an upper bound on
the dart-state space the walk moves through) makes the walk return to its
start cell with its starting orientation, or exit immediately with the
single-dot glyph. -/
theorem trace_terminates_sanitized :
    ∀ (mask : List (List Bool)) (invert : Bool) (conn : Nat) (offset : ℚ × ℚ)
      (drawer : PathDrawer) (dotSize : ℚ) (id : Nat) (pos : Pos),
      (id, pos) ∈ (buildConnectedComponents mask invert conn).ids →
      ∃ fuel, fuel ≤ 4 * ((buildConnectedComponents mask invert conn).components.length *
          maxRowLen (buildConnectedComponents mask invert conn).components) + 1 ∧
        (renderComponentToPath id (buildConnectedComponents mask invert conn).components
          offset pos drawer false dotSize fuel).isSome = true := by
  intro mask invert conn offset drawer dotSize id pos hmem
  obtain ⟨hcell, hleft, htop⟩ := registered_start_facts mask invert conn hmem
  by_cases hR : cellAt (buildConnectedComponents mask invert conn).components
      pos.row (pos.col + 1) = some id
  · -- start from the right: the initial state is a dart
    have hso : startOrigin (buildConnectedComponents mask invert conn).components
        id pos false dotSize = (.right, [.moveRel dotSize 0]) := by
      rw [startOrigin, if_pos ⟨hR, rfl⟩]
    have hInD : InD (buildConnectedComponents mask invert conn).components id
        (pos, .right) := ⟨hcell, hR⟩
    obtain ⟨n, hn1, hnb, hcyc⟩ := exists_cycle hInD
    refine ⟨n, by omega, ?_⟩
    rw [renderComponentToPath]
    simp only [hso]
    have hloop := traceLoop_some_of_cycle
      (buildConnectedComponents mask invert conn).components id drawer pos .right
      n n (pos, .right) hn1 (le_refl n) hcyc
    rw [Option.isSome_iff_exists] at hloop
    obtain ⟨p, hp⟩ := hloop
    obtain ⟨segs, dirs⟩ := p
    rw [hp]
    rfl
  · by_cases hB : cellAt (buildConnectedComponents mask invert conn).components
        (pos.row + 1) pos.col = some id
    · -- start from the bottom
      have hso : startOrigin (buildConnectedComponents mask invert conn).components
          id pos false dotSize = (.bottom, [.moveRel dotSize dotSize]) := by
        rw [startOrigin, if_neg (fun h => hR h.1), if_pos hB]
      have hInD : InD (buildConnectedComponents mask invert conn).components id
          (pos, .bottom) := ⟨hcell, hB⟩
      obtain ⟨n, hn1, hnb, hcyc⟩ := exists_cycle hInD
      refine ⟨n, by omega, ?_⟩
      rw [renderComponentToPath]
      simp only [hso]
      have hloop := traceLoop_some_of_cycle
        (buildConnectedComponents mask invert conn).components id drawer pos .bottom
        n n (pos, .bottom) hn1 (le_refl n) hcyc
      rw [Option.isSome_iff_exists] at hloop
      obtain ⟨p, hp⟩ := hloop
      obtain ⟨segs, dirs⟩ := p
      rw [hp]
      rfl
    · -- no flagged neighbor at all: immediate single-dot exit
      have hso : startOrigin (buildConnectedComponents mask invert conn).components
          id pos false dotSize = (.top, []) := by
        rw [startOrigin, if_neg (fun h => hR h.1), if_neg hB]
      refine ⟨1, by omega, ?_⟩
      rw [renderComponentToPath]
      simp only [hso]
      rw [show (1 : Nat) = 0 + 1 from rfl, traceLoop]
      rw [decide_eq_false hleft, decide_eq_false hR, decide_eq_false htop,
        decide_eq_false hB]
      rfl

/-- Witness for the termination theorem on the mask `[[true, true]]`
(one two-cell component, id 2, start `(0,0)`). -/
theorem trace_terminates_sanitized_witness :
    ∃ fuel, fuel ≤ 4 *
        ((buildConnectedComponents [[true, true]] false 4).components.length *
          maxRowLen (buildConnectedComponents [[true, true]] false 4).components) + 1 ∧
      (renderComponentToPath 2
        (buildConnectedComponents [[true, true]] false 4).components
        (0, 0) ⟨0, 0⟩ (squarePathDrawer 4) false 4 fuel).isSome = true :=
  trace_terminates_sanitized [[true, true]] false 4 (0, 0) (squarePathDrawer 4) 4 2 ⟨0, 0⟩
    (by decide)

/-! ## Region labeler, full JavaScript value semantics

`buildConnectedComponents` manipulates JavaScript numbers: an out-of-range
array access yields `undefined`, which survives the `!== null` filter
(`undefined !== null` is `true`), and `Math.min` over a list containing
`undefined` or `NaN` yields `NaN`. `Map`/`Set` keys compare with
SameValueZero, under which `NaN` equals `NaN` and `undefined` equals
`undefined`, so both are ordinary keys of the equivalence map and of the
registry. A cell of `components` can therefore hold `null`, a number, `NaN`,
or `undefined` (copied from a single out-of-range neighbor). -/

/-- A JavaScript value stored in `components` cells, `validIds`, equivalence
classes and registry keys: a (natural) number, `NaN`, or `undefined`.
`null` is represented by `Option` at the cell level. -/
inductive JSVal where
  | num (n : Nat)
  | nan
  | undef
deriving DecidableEq, Repr

/-- A cell of the JS `components` array (`none` = `null`). -/
abbrev JSCell := Option JSVal

/-- The JS `components` array. -/
abbrev JSGrid := List (List JSCell)

/-- `Math.min` of two JS values: `NaN` (and `undefined`, which coerces to
`NaN`) absorbs everything. -/
def jsMin2 : JSVal → JSVal → JSVal
  | .num a, .num b => .num (min a b)
  | _, _ => .nan

/-- `Math.min(...l)` for the nonempty lists the scan and the resolution pass
produce (`Math.min()` of an empty list is `Infinity`; no call site passes an
empty list, so the `[]` case is arbitrary). -/
def jsListMin : List JSVal → JSVal
  | [] => .nan
  | a :: rest => rest.foldl jsMin2 a

/-- Scan state over JS values: the (always numeric) fresh-id counter and the
equivalence map keyed by JS values. -/
structure JSLabelState where
  currentComponent : Nat
  eqv : List (JSVal × List JSVal)
deriving Repr

/-- `equivalences.get(k)` (SameValueZero key comparison). -/
def findClassJS (eqv : List (JSVal × List JSVal)) (k : JSVal) : Option (List JSVal) :=
  match eqv with
  | [] => none
  | (a, c) :: rest => if a = k then some c else findClassJS rest k

/-- `equivalences.set(k, c)`. -/
def setClassJS (eqv : List (JSVal × List JSVal)) (k : JSVal) (c : List JSVal) :
    List (JSVal × List JSVal) :=
  match eqv with
  | [] => [(k, c)]
  | (a, c') :: rest => if a = k then (k, c) :: rest else (a, c') :: setClassJS rest k c

/-- `Set.prototype.add` over each element of `s` in order. -/
def addAllJS (cls : List JSVal) (s : List JSVal) : List JSVal :=
  s.foldl (fun c e => if e ∈ c then c else c ++ [e]) cls

/-- `equivalences.get(id) ?? [id]` (the `??` fires exactly when the key is
absent). -/
def classOrDefaultJS (eqv : List (JSVal × List JSVal)) (id : JSVal) : List JSVal :=
  (findClassJS eqv id).getD [id]

/-- The class built by the union block's inner loops, over JS values. -/
def mergedClassJS (eqv : List (JSVal × List JSVal)) (minComponent : JSVal)
    (validIds : List JSVal) : List JSVal :=
  validIds.foldl
    (fun c id => if id ∈ c then c else addAllJS c (classOrDefaultJS eqv id))
    (classOrDefaultJS eqv minComponent)

/-- The union block of the scan, over JS values. -/
def unionIntoJS (eqv : List (JSVal × List JSVal)) (minComponent : JSVal)
    (validIds : List JSVal) : List (JSVal × List JSVal) :=
  (mergedClassJS eqv minComponent validIds).foldl
    (fun m k => setClassJS m k (mergedClassJS eqv minComponent validIds)) eqv

/-- The `validIds` list with JS semantics (lines 325–337): a neighbor lookup
whose guard passes but whose index leaves the stored row is the JavaScript
`undefined`, which the `!== null` filter keeps. The top-right guard compares
`col` against `dotsMask.length - 1` — the row count — exactly as the source
does. -/
def validIdsAtJS (cfg : ScanConfig) (r c rowLen : Nat)
    (prevRow curRow : List JSCell) : List JSVal :=
  let isEdge : Bool := c = 0 ∨ r = 0 ∨ c = rowLen - 1 ∨ r = cfg.nRows - 1
  let leftComponent : JSCell := if c > 0 then curRow.getD (c - 1) (some .undef) else none
  let topComponent : JSCell := if r > 0 then prevRow.getD c (some .undef) else none
  let topLeftComponent : JSCell :=
    if c > 0 ∧ r > 0 ∧ cfg.connectedness = 8 then prevRow.getD (c - 1) (some .undef)
    else none
  let topRightComponent : JSCell :=
    if c < cfg.nRows - 1 ∧ r > 0 ∧ cfg.connectedness = 8 then prevRow.getD (c + 1) (some .undef)
    else none
  [leftComponent, topComponent, topLeftComponent, topRightComponent,
    if isEdge ∧ cfg.connectedness = 8 then some (.num 1) else none].filterMap id

/-- Labeling of one cell with JS semantics: a single valid id is copied even
when it is `undefined`; several get `Math.min` (possibly `NaN`) with the
union recorded. -/
def scanCellJS (cfg : ScanConfig) (r c rowLen : Nat) (maskVal : Bool)
    (prevRow curRow : List JSCell) (st : JSLabelState) :
    JSCell × JSLabelState :=
  if maskVal = cfg.invert then (none, st)
  else
    match validIdsAtJS cfg r c rowLen prevRow curRow with
    | [] =>
      let cc := st.currentComponent + 1
      (some (.num cc), { st with currentComponent := cc })
    | [v] => (some v, st)
    | x :: y :: rest =>
      let m := jsListMin (x :: y :: rest)
      (some m, { st with eqv := unionIntoJS st.eqv m (x :: y :: rest) })

/-- The inner column loop over one mask row (JS semantics). -/
def scanRowJS (cfg : ScanConfig) (r rowLen : Nat) (prevRow : List JSCell) :
    Nat → List Bool → List JSCell → JSLabelState →
    List JSCell × JSLabelState
  | _, [], curRow, st => (curRow, st)
  | c, b :: rest, curRow, st =>
    let p := scanCellJS cfg r c rowLen b prevRow curRow st
    scanRowJS cfg r rowLen prevRow (c + 1) rest (curRow ++ [p.1]) p.2

/-- The outer row loop of the raster scan (JS semantics). -/
def scanRowsJS (cfg : ScanConfig) :
    Nat → List (List Bool) → List JSCell → List (List JSCell) →
    JSLabelState → List (List JSCell) × JSLabelState
  | _, [], _, acc, st => (acc, st)
  | r, row :: rest, prevRow, acc, st =>
    let p := scanRowJS cfg r row.length prevRow 0 row [] st
    scanRowsJS cfg (r + 1) rest p.1 (acc ++ [p.1]) p.2

/-- `Math.min(...Array.from(equivalences.get(value) ?? [value]))` over JS
values: `NaN` as soon as the class holds a non-number. -/
def resolveValueJS (eqv : List (JSVal × List JSVal)) (v : JSVal) : JSVal :=
  jsListMin ((findClassJS eqv v).getD [v])

/-- `ids.has(id)` for the JS registry (SameValueZero keys, so `NaN` can be a
key). -/
def hasIdJS (ids : List (JSVal × Pos)) (id : JSVal) : Bool :=
  ids.any (fun p => p.1 = id)

/-- The alias-resolution pass over one row, JS semantics (lines 369–380): the
`if (value)` truthiness guard passes exactly for nonzero numbers; `null`,
`undefined`, `NaN` (and a hypothetical `0`) cells are left unchanged and never
registered. The canonical id written (and registered) can be `NaN` when the
equivalence class contains `undefined` or `NaN`. -/
def resolveRowJS (eqv : List (JSVal × List JSVal)) (r : Nat) :
    Nat → List JSCell → List JSCell → List (JSVal × Pos) →
    List JSCell × List (JSVal × Pos)
  | _, [], acc, ids => (acc, ids)
  | c, none :: rest, acc, ids => resolveRowJS eqv r (c + 1) rest (acc ++ [none]) ids
  | c, some (.num value) :: rest, acc, ids =>
    if value ≠ 0 then
      resolveRowJS eqv r (c + 1) rest
        (acc ++ [some (resolveValueJS eqv (.num value))])
        (if hasIdJS ids (resolveValueJS eqv (.num value)) then ids
         else ids ++ [(resolveValueJS eqv (.num value), ⟨(r : Int), (c : Int)⟩)])
    else
      resolveRowJS eqv r (c + 1) rest (acc ++ [some (.num value)]) ids
  | c, some .nan :: rest, acc, ids =>
    resolveRowJS eqv r (c + 1) rest (acc ++ [some .nan]) ids
  | c, some .undef :: rest, acc, ids =>
    resolveRowJS eqv r (c + 1) rest (acc ++ [some .undef]) ids

/-- The alias-resolution pass over all rows (JS semantics). -/
def resolveRowsJS (eqv : List (JSVal × List JSVal)) :
    Nat → List (List JSCell) → List (List JSCell) → List (JSVal × Pos) →
    List (List JSCell) × List (JSVal × Pos)
  | _, [], acc, ids => (acc, ids)
  | r, row :: rest, acc, ids =>
    let p := resolveRowJS eqv r 0 row [] ids
    resolveRowsJS eqv (r + 1) rest (acc ++ [p.1]) p.2

/-- Result of the JS-semantics labeler. -/
structure CCResultJS where
  components : JSGrid
  ids : List (JSVal × Pos)
deriving Repr

/-- `buildConnectedComponents(dotsMask, invert, connectedness)` with full
JavaScript value semantics. -/
def buildConnectedComponentsJS (dotsMask : List (List Bool)) (invert : Bool := false)
    (connectedness : Nat := 4) : CCResultJS :=
  let cfg : ScanConfig := ⟨invert, connectedness, dotsMask.length⟩
  let p := scanRowsJS cfg 0 dotsMask [] [] ⟨1, []⟩
  let q := resolveRowsJS p.2.eqv 0 p.1 [] []
  ⟨q.1, q.2⟩

/-! ## Contour tracer and hole compositor over JS label maps

The built grid is consumed only through `=== componentId` comparisons
(tracer) and truthiness plus `<= 1` tests (compositor). `NaN === x` is false
for every `x` (including `NaN`), `undefined === undefined` is true, and both
`NaN` and `undefined` are falsy; `NaN <= 1` and `undefined <= 1` are false. -/

/-- JavaScript strict equality `===` on stored values. -/
def jsEq : JSVal → JSVal → Bool
  | .num a, .num b => a = b
  | .undef, .undef => true
  | _, _ => false

/-- `components[r]?.[c] === id`: an out-of-range or `null` cell never equals a
value. -/
def jsEqCell (cell : JSCell) (id : JSVal) : Bool :=
  match cell with
  | some v => jsEq v id
  | none => false

/-- `components[r][c]` on a JS grid, for the tracer and compositor: both
`null` and an out-of-range `undefined` compare false against every component
id and are falsy, so they collapse to `none` here (the distinction only
matters inside the scan, where `validIdsAtJS` keeps them apart; a *stored*
`undefined` is `some .undef` and is preserved). -/
def cellAtJS (g : JSGrid) (r c : Int) : JSCell :=
  if r < 0 ∨ c < 0 then none
  else (g.getD r.toNat []).getD c.toNat none

/-- The `do … while` loop of `renderComponentToPath` over a JS label map; the
neighbor flags are `=== componentId` comparisons. -/
def traceLoopJS (components : JSGrid) (componentId : JSVal) (drawer : PathDrawer)
    (start : Pos) (originalOrigin : Directions) :
    Nat → Directions → Pos → Option (List Seg × List Directions)
  | 0, _, _ => none
  | fuel + 1, origin, current =>
    let hasLeft : Bool := jsEqCell (cellAtJS components current.row (current.col - 1)) componentId
    let hasRight : Bool := jsEqCell (cellAtJS components current.row (current.col + 1)) componentId
    let hasTop : Bool := jsEqCell (cellAtJS components (current.row - 1) current.col) componentId
    let hasBottom : Bool := jsEqCell (cellAtJS components (current.row + 1) current.col) componentId
    match determineNextDirection origin hasLeft hasRight hasTop hasBottom with
    | none => some (drawer.singleDot, [])
    | some nextDirection =>
      let seg := (getDrawDirections drawer origin nextDirection).getD []
      let current' := moveDir current nextDirection
      let origin' := opposite nextDirection
      if current' = start ∧ origin' = originalOrigin then
        some (seg, [nextDirection])
      else
        match traceLoopJS components componentId drawer start originalOrigin fuel origin' current' with
        | none => none
        | some (segs, dirs) => some (seg ++ segs, nextDirection :: dirs)

/-- The starting-orientation choice over a JS label map. -/
def startOriginJS (components : JSGrid) (componentId : JSVal) (start : Pos)
    (moveRight : Bool) (dotSize : ℚ) : Directions × List Seg :=
  if jsEqCell (cellAtJS components start.row (start.col + 1)) componentId = true ∧
      moveRight = false then
    (.right, [.moveRel dotSize 0])
  else if jsEqCell (cellAtJS components (start.row + 1) start.col) componentId = true then
    (.bottom, [.moveRel dotSize dotSize])
  else
    (.top, [])

/-- `renderComponentToPath` over a JS label map. -/
def renderComponentToPathJS (componentId : JSVal) (components : JSGrid)
    (offset : ℚ × ℚ) (start : Pos) (drawer : PathDrawer) (moveRight : Bool)
    (dotSize : ℚ) (fuel : Nat) : Option (List Seg × List Directions) :=
  let pre : List Seg := [.moveAbs (start.col * dotSize + offset.1) (start.row * dotSize + offset.2)]
  let so := startOriginJS components componentId start moveRight dotSize
  let origin := so.1
  match traceLoopJS components componentId drawer start origin fuel origin start with
  | none => none
  | some (segs, dirs) => some (pre ++ so.2 ++ segs, dirs)

/-- JavaScript `id <= 1` for a registry key: false for `NaN` and `undefined`
(every `NaN` comparison is false), so a `NaN` id *passes* the
`id <= 1` skip guard of the compositor. -/
def jsLe1 : JSVal → Bool
  | .num n => n ≤ 1
  | _ => false

/-- `pushGroup` on the JS-keyed `backgroundPathsForComponent` map. -/
def pushGroupJS (m : List (JSVal × List JSVal)) (k v : JSVal) : List (JSVal × List JSVal) :=
  match m with
  | [] => [(k, [v])]
  | (a, l) :: rest => if a = k then (a, l ++ [v]) :: rest else (a, l) :: pushGroupJS rest k v

/-- `backgroundIds.get(id)` on the JS registry. -/
def findStartJS (ids : List (JSVal × Pos)) (id : JSVal) : Option Pos :=
  match ids with
  | [] => none
  | (a, p) :: rest => if a = id then some p else findStartJS rest id

/-- One iteration of the registration loop (lines 172–182) with JS semantics:
skip when the left-of-start foreground lookup is falsy (`null`, out of range,
`0`, `NaN`, `undefined`) or when `id <= 1` — which a `NaN` id never is. -/
def bgGroupStepJS (fgComponents : JSGrid) (acc : List (JSVal × List JSVal))
    (p : JSVal × Pos) : List (JSVal × List JSVal) :=
  match cellAtJS fgComponents p.2.row (p.2.col - 1) with
  | some (.num s) => if s = 0 ∨ jsLe1 p.1 then acc else pushGroupJS acc (.num s) p.1
  | _ => acc

/-- The `backgroundPathsForComponent` map with JS semantics. -/
def backgroundPathsForComponentJS (fgComponents : JSGrid)
    (backgroundIds : List (JSVal × Pos)) : List (JSVal × List JSVal) :=
  backgroundIds.foldl (bgGroupStepJS fgComponents) []

/-- One appended hole (lines 188–199) with JS semantics. -/
def holeAppendStepJS (fgComponents : JSGrid) (backgroundIds : List (JSVal × Pos))
    (offset : ℚ × ℚ) (drawer : PathDrawer) (dotSize : ℚ) (fuel : Nat) (id : JSVal)
    (fullPath : Option (List Seg)) (backgroundPathId : JSVal) : Option (List Seg) :=
  match fullPath, findStartJS backgroundIds backgroundPathId with
  | some fp, some start =>
    match renderComponentToPathJS id fgComponents offset
        ⟨start.row - 1, start.col - 1⟩ drawer true dotSize fuel with
    | some sp => some (fp ++ sp.1)
    | none => none
  | _, _ => none

/-- The per-foreground-component compound path with JS semantics. -/
def componentFullPathJS (fgComponents : JSGrid) (backgroundIds : List (JSVal × Pos))
    (bgFor : List (JSVal × List JSVal)) (offset : ℚ × ℚ) (drawer : PathDrawer)
    (dotSize : ℚ) (fuel : Nat) (id : JSVal) (path : Option (List Seg)) :
    Option (List Seg) :=
  let backgroundPaths := ((bgFor.find? (fun q => q.1 = id)).map Prod.snd).getD []
  backgroundPaths.foldl (holeAppendStepJS fgComponents backgroundIds offset drawer dotSize fuel id) path

/-- `drawComponents(dotsMask, offset, fillColor, drawer)` with JS semantics. -/
def drawComponentsJS (dotsMask : List (List Bool)) (offset : ℚ × ℚ)
    (drawer : PathDrawer) (dotSize : ℚ) (fuel : Nat) :
    List (JSVal × Option (List Seg)) :=
  let fg := buildConnectedComponentsJS dotsMask false 4
  let bg := buildConnectedComponentsJS dotsMask true 8
  let paths : List (JSVal × Option (List Seg)) := fg.ids.map (fun p =>
    (p.1, (renderComponentToPathJS p.1 fg.components offset p.2 drawer false dotSize fuel).map Prod.fst))
  let bgFor := backgroundPathsForComponentJS fg.components bg.ids
  paths.map (fun q =>
    (q.1, componentFullPathJS fg.components bg.ids bgFor offset drawer dotSize fuel q.1 q.2))

/-! ## Bridge: the JS semantics restricted to numbers is the sanitized model

On inputs where every neighbor lookup stays inside the grid — rectangular
masks with at least as many columns as rows for an 8-connected pass,
rectangular masks of any shape for a 4-connected pass — no `undefined` ever
enters `validIds`, every value in play is a number, and the JS model computes
exactly the sanitized model under the evident embedding `n ↦ num n`. -/

/-- Cell embedding of the sanitized model into the JS model. -/
def embedCell (o : Option Nat) : JSCell := o.map JSVal.num

/-- Row embedding. -/
def embedRow (l : List (Option Nat)) : List JSCell := l.map embedCell

/-- Grid embedding. -/
def embedGrid (g : LabelGrid) : JSGrid := g.map embedRow

/-- Equivalence-map embedding. -/
def embedEqv (e : List (Nat × List Nat)) : List (JSVal × List JSVal) :=
  e.map (fun p => (JSVal.num p.1, p.2.map JSVal.num))

/-- Registry embedding. -/
def embedIds (ids : List (Nat × Pos)) : List (JSVal × Pos) :=
  ids.map (fun p => (JSVal.num p.1, p.2))

/-- Scan-state embedding. -/
def embedState (st : LabelState) : JSLabelState :=
  ⟨st.currentComponent, embedEqv st.eqv⟩

/-- Group-map embedding (for the hole compositor). -/
def embedGroups (m : List (Nat × List Nat)) : List (JSVal × List JSVal) :=
  m.map (fun p => (JSVal.num p.1, p.2.map JSVal.num))

theorem mem_map_num {x : Nat} {l : List Nat} :
    JSVal.num x ∈ l.map JSVal.num ↔ x ∈ l := by
  rw [List.mem_map]
  constructor
  · rintro ⟨a, ha, he⟩
    cases he
    exact ha
  · intro hx
    exact ⟨x, hx, rfl⟩

theorem findClassJS_embed (e : List (Nat × List Nat)) (k : Nat) :
    findClassJS (embedEqv e) (.num k) = (findClass e k).map (fun c => c.map JSVal.num) := by
  induction e with
  | nil => rfl
  | cons p rest ih =>
    obtain ⟨a, c⟩ := p
    by_cases hak : a = k
    · subst hak
      rw [show embedEqv ((a, c) :: rest) = (JSVal.num a, c.map JSVal.num) :: embedEqv rest
          from rfl]
      rw [findClassJS, findClass, if_pos rfl, if_pos rfl]
      rfl
    · rw [show embedEqv ((a, c) :: rest) = (JSVal.num a, c.map JSVal.num) :: embedEqv rest
          from rfl]
      rw [findClassJS, findClass, if_neg (by simp [hak]), if_neg hak]
      exact ih

theorem setClassJS_embed (e : List (Nat × List Nat)) (k : Nat) (c : List Nat) :
    setClassJS (embedEqv e) (.num k) (c.map JSVal.num) = embedEqv (setClass e k c) := by
  induction e with
  | nil => rfl
  | cons p rest ih =>
    obtain ⟨a, c'⟩ := p
    by_cases hak : a = k
    · subst hak
      rw [show embedEqv ((a, c') :: rest) = (JSVal.num a, c'.map JSVal.num) :: embedEqv rest
          from rfl]
      rw [setClassJS, setClass, if_pos rfl, if_pos rfl]
      rfl
    · rw [show embedEqv ((a, c') :: rest) = (JSVal.num a, c'.map JSVal.num) :: embedEqv rest
          from rfl]
      rw [setClassJS, setClass, if_neg (by simp [hak]), if_neg hak]
      rw [show embedEqv ((a, c') :: setClass rest k c) =
          (JSVal.num a, c'.map JSVal.num) :: embedEqv (setClass rest k c) from rfl, ih]

theorem addAllJS_embed (s : List Nat) :
    ∀ c : List Nat, addAllJS (c.map JSVal.num) (s.map JSVal.num) = (addAll c s).map JSVal.num := by
  induction s with
  | nil => intro c; rfl
  | cons x rest ih =>
    intro c
    rw [show (x :: rest).map JSVal.num = JSVal.num x :: rest.map JSVal.num from rfl]
    rw [addAllJS, addAll, List.foldl_cons, List.foldl_cons]
    by_cases hx : x ∈ c
    · rw [if_pos (mem_map_num.2 hx), if_pos hx]
      exact ih c
    · rw [if_neg (fun h => hx (mem_map_num.1 h)), if_neg hx]
      rw [show c.map JSVal.num ++ [JSVal.num x] = (c ++ [x]).map JSVal.num by
        rw [List.map_append]; rfl]
      exact ih (c ++ [x])

theorem classOrDefaultJS_embed (e : List (Nat × List Nat)) (k : Nat) :
    classOrDefaultJS (embedEqv e) (.num k) = (classOrDefault e k).map JSVal.num := by
  unfold classOrDefaultJS classOrDefault
  rw [findClassJS_embed]
  cases findClass e k <;> rfl

theorem jsListMin_embed (a : Nat) (l : List Nat) :
    jsListMin ((a :: l).map JSVal.num) = .num (listMin (a :: l)) := by
  rw [show (a :: l).map JSVal.num = JSVal.num a :: l.map JSVal.num from rfl,
    jsListMin, listMin]
  induction l generalizing a with
  | nil => rfl
  | cons x rest ih =>
    rw [show (x :: rest).map JSVal.num = JSVal.num x :: rest.map JSVal.num from rfl,
      List.foldl_cons, List.foldl_cons]
    exact ih (min a x)

theorem jsListMin_embed_ne {l : List Nat} (h : l ≠ []) :
    jsListMin (l.map JSVal.num) = .num (listMin l) := by
  cases l with
  | nil => exact absurd rfl h
  | cons a rest => exact jsListMin_embed a rest

theorem mergedClassJS_embed (e : List (Nat × List Nat)) (m : Nat) (l : List Nat) :
    mergedClassJS (embedEqv e) (.num m) (l.map JSVal.num) =
      (mergedClass e m l).map JSVal.num := by
  unfold mergedClassJS mergedClass
  rw [classOrDefaultJS_embed]
  generalize classOrDefault e m = acc
  induction l generalizing acc with
  | nil => rfl
  | cons x rest ih =>
    rw [show (x :: rest).map JSVal.num = JSVal.num x :: rest.map JSVal.num from rfl,
      List.foldl_cons, List.foldl_cons]
    by_cases hx : x ∈ acc
    · rw [if_pos (mem_map_num.2 hx), if_pos hx]
      exact ih acc
    · rw [if_neg (fun h => hx (mem_map_num.1 h)), if_neg hx]
      rw [classOrDefaultJS_embed, addAllJS_embed]
      exact ih (addAll acc (classOrDefault e x))

theorem setClassFold_embed (L C : List Nat) :
    ∀ e : List (Nat × List Nat),
      (L.map JSVal.num).foldl (fun m k => setClassJS m k (C.map JSVal.num)) (embedEqv e) =
        embedEqv (L.foldl (fun m k => setClass m k C) e) := by
  induction L with
  | nil => intro e; rfl
  | cons x rest ih =>
    intro e
    rw [show (x :: rest).map JSVal.num = JSVal.num x :: rest.map JSVal.num from rfl,
      List.foldl_cons, List.foldl_cons, setClassJS_embed]
    exact ih (setClass e x C)

theorem unionIntoJS_embed (e : List (Nat × List Nat)) (m : Nat) (l : List Nat) :
    unionIntoJS (embedEqv e) (.num m) (l.map JSVal.num) = embedEqv (unionInto e m l) := by
  unfold unionIntoJS unionInto
  rw [mergedClassJS_embed]
  exact setClassFold_embed (mergedClass e m l) (mergedClass e m l) e

theorem resolveValueJS_embed {e : List (Nat × List Nat)} (v : Nat)
    (hne : (findClass e v).getD [v] ≠ []) :
    resolveValueJS (embedEqv e) (.num v) = .num (resolveValue e v) := by
  unfold resolveValueJS resolveValue
  rw [findClassJS_embed]
  cases hf : findClass e v with
  | none => exact jsListMin_embed v []
  | some C =>
    rw [hf, Option.getD_some] at hne
    exact jsListMin_embed_ne hne

theorem hasIdJS_embed : ∀ (ids : List (Nat × Pos)) (k : Nat),
    hasIdJS (embedIds ids) (.num k) = hasId ids k := by
  intro ids k
  induction ids with
  | nil => rfl
  | cons p rest ih =>
    obtain ⟨a, pos⟩ := p
    show (decide (JSVal.num a = JSVal.num k) || hasIdJS (embedIds rest) (.num k)) =
      (decide (a = k) || hasId rest k)
    rw [ih]
    congr 1
    by_cases h : a = k
    · rw [h]; simp
    · simp [h]

theorem getD_embedRow (l : List (Option Nat)) :
    ∀ (i : Nat) (d : JSCell), i < l.length →
      (embedRow l).getD i d = embedCell (l.getD i none) := by
  induction l with
  | nil => intro i d h; simp at h
  | cons x rest ih =>
    intro i d h
    cases i with
    | zero => rfl
    | succ i' => exact ih i' d (by simpa using h)

theorem filterMapId_embed : ∀ l : List (Option Nat),
    (l.map embedCell).filterMap id = (l.filterMap id).map JSVal.num := by
  intro l
  induction l with
  | nil => rfl
  | cons x rest ih =>
    cases x with
    | none =>
      show (none :: rest.map embedCell).filterMap id = _
      rw [List.filterMap_cons, List.filterMap_cons]
      exact ih
    | some n =>
      show (some (JSVal.num n) :: rest.map embedCell).filterMap id = _
      rw [List.filterMap_cons, List.filterMap_cons]
      simp only [id]
      rw [ih]
      rfl

theorem if_num_one_embed (P : Prop) [Decidable P] :
    (if P then some (JSVal.num 1) else none) = embedCell (if P then some 1 else none) := by
  split <;> rfl

theorem filterMapId_embed5 (a b c d e : Option Nat) :
    [embedCell a, embedCell b, embedCell c, embedCell d, embedCell e].filterMap id =
      ([a, b, c, d, e].filterMap id).map JSVal.num :=
  filterMapId_embed [a, b, c, d, e]

/-- On in-range lookups, the JS `validIds` is the sanitized one (no
`undefined` can appear). -/
theorem validIdsAtJS_embed (cfg : ScanConfig) (r c rowLen : Nat)
    (prevRow curRow : List (Option Nat))
    (hcur : curRow.length = c)
    (htop : r > 0 → c < prevRow.length)
    (htr : r > 0 → cfg.connectedness = 8 → c < cfg.nRows - 1 → c + 1 < prevRow.length) :
    validIdsAtJS cfg r c rowLen (embedRow prevRow) (embedRow curRow) =
      (validIdsAt cfg r c rowLen prevRow curRow).map JSVal.num := by
  have hleft : (if c > 0 then (embedRow curRow).getD (c - 1) (some .undef) else none) =
      embedCell (if c > 0 then curRow.getD (c - 1) none else none) := by
    by_cases h : c > 0
    · rw [if_pos h, if_pos h, getD_embedRow _ _ _ (by omega)]
    · rw [if_neg h, if_neg h]; rfl
  have htopc : (if r > 0 then (embedRow prevRow).getD c (some .undef) else none) =
      embedCell (if r > 0 then prevRow.getD c none else none) := by
    by_cases h : r > 0
    · rw [if_pos h, if_pos h, getD_embedRow _ _ _ (htop h)]
    · rw [if_neg h, if_neg h]; rfl
  have htl : (if c > 0 ∧ r > 0 ∧ cfg.connectedness = 8 then
        (embedRow prevRow).getD (c - 1) (some .undef) else none) =
      embedCell (if c > 0 ∧ r > 0 ∧ cfg.connectedness = 8 then prevRow.getD (c - 1) none
        else none) := by
    by_cases h : c > 0 ∧ r > 0 ∧ cfg.connectedness = 8
    · rw [if_pos h, if_pos h, getD_embedRow _ _ _ (by have := htop h.2.1; omega)]
    · rw [if_neg h, if_neg h]; rfl
  have htrc : (if c < cfg.nRows - 1 ∧ r > 0 ∧ cfg.connectedness = 8 then
        (embedRow prevRow).getD (c + 1) (some .undef) else none) =
      embedCell (if c < cfg.nRows - 1 ∧ r > 0 ∧ cfg.connectedness = 8 then
        prevRow.getD (c + 1) none else none) := by
    by_cases h : c < cfg.nRows - 1 ∧ r > 0 ∧ cfg.connectedness = 8
    · rw [if_pos h, if_pos h, getD_embedRow _ _ _ (htr h.2.1 h.2.2 h.1)]
    · rw [if_neg h, if_neg h]; rfl
  simp only [validIdsAtJS, validIdsAt]
  rw [hleft, htopc, htl, htrc, if_num_one_embed]
  exact filterMapId_embed5 _ _ _ _ _

theorem scanCellJS_embed (cfg : ScanConfig) (r c rowLen : Nat) (b : Bool)
    (prevRow curRow : List (Option Nat)) (st : LabelState)
    (hcur : curRow.length = c)
    (htop : r > 0 → c < prevRow.length)
    (htr : r > 0 → cfg.connectedness = 8 → c < cfg.nRows - 1 → c + 1 < prevRow.length) :
    scanCellJS cfg r c rowLen b (embedRow prevRow) (embedRow curRow) (embedState st) =
      (embedCell (scanCell cfg r c rowLen b prevRow curRow st).1,
       embedState (scanCell cfg r c rowLen b prevRow curRow st).2) := by
  unfold scanCellJS scanCell
  by_cases hpol : b = cfg.invert
  · rw [if_pos hpol, if_pos hpol]
    rfl
  · rw [if_neg hpol, if_neg hpol]
    rw [validIdsAtJS_embed cfg r c rowLen prevRow curRow hcur htop htr]
    cases hv : validIdsAt cfg r c rowLen prevRow curRow with
    | nil => rfl
    | cons x rest =>
      cases rest with
      | nil => rfl
      | cons y rest' =>
        simp only [List.map_cons, embedState]
        rw [show JSVal.num x :: JSVal.num y :: List.map JSVal.num rest' =
            (x :: y :: rest').map JSVal.num from rfl]
        rw [jsListMin_embed x (y :: rest'), unionIntoJS_embed]
        rfl

theorem scanRow_len (cfg : ScanConfig) (r rowLen : Nat) (prevRow : List (Option Nat)) :
    ∀ (bs : List Bool) (c : Nat) (curRow : List (Option Nat)) (st : LabelState),
      (scanRow cfg r rowLen prevRow c bs curRow st).1.length = curRow.length + bs.length := by
  intro bs
  induction bs with
  | nil => intro c curRow st; simp [scanRow]
  | cons b rest ih =>
    intro c curRow st
    rw [scanRow]
    rw [ih]
    simp
    omega

theorem scanRowJS_embed (cfg : ScanConfig) (r rowLen : Nat)
    (prevRow : List (Option Nat))
    (h8 : cfg.connectedness = 8 → cfg.nRows ≤ rowLen)
    (hprev : r > 0 → prevRow.length = rowLen) :
    ∀ (bs : List Bool) (c : Nat) (curRow : List (Option Nat)) (st : LabelState),
      curRow.length = c → c + bs.length = rowLen →
      scanRowJS cfg r rowLen (embedRow prevRow) c bs (embedRow curRow) (embedState st) =
        (embedRow (scanRow cfg r rowLen prevRow c bs curRow st).1,
         embedState (scanRow cfg r rowLen prevRow c bs curRow st).2) := by
  intro bs
  induction bs with
  | nil => intro c curRow st _ _; rfl
  | cons b rest ih =>
    intro c curRow st hcur hlen
    rw [scanRowJS, scanRow]
    have hcell := scanCellJS_embed cfg r c rowLen b prevRow curRow st hcur
      (fun hr => by rw [hprev hr]; simp at hlen; omega)
      (fun hr h8' hc => by rw [hprev hr]; have := h8 h8'; omega)
    rw [hcell]
    have happ : embedRow curRow ++ [embedCell (scanCell cfg r c rowLen b prevRow curRow st).1] =
        embedRow (curRow ++ [(scanCell cfg r c rowLen b prevRow curRow st).1]) := by
      rw [embedRow, embedRow, List.map_append]
      rfl
    rw [happ]
    exact ih (c + 1) _ _ (by simp [hcur]) (by simp at hlen ⊢; omega)

theorem scanRowsJS_embed (cfg : ScanConfig) (W : Nat)
    (h8 : cfg.connectedness = 8 → cfg.nRows ≤ W) :
    ∀ (rows : List (List Bool)) (r : Nat) (prevRow : List (Option Nat))
      (acc : List (List (Option Nat))) (st : LabelState),
      (∀ row ∈ rows, row.length = W) →
      (r > 0 → prevRow.length = W) →
      scanRowsJS cfg r rows (embedRow prevRow) (embedGrid acc) (embedState st) =
        (embedGrid (scanRows cfg r rows prevRow acc st).1,
         embedState (scanRows cfg r rows prevRow acc st).2) := by
  intro rows
  induction rows with
  | nil => intro r prevRow acc st _ _; rfl
  | cons row rest ih =>
    intro r prevRow acc st hrows hprev
    have hW : row.length = W := hrows row (List.mem_cons_self _ _)
    rw [scanRowsJS, scanRows]
    have hrow : scanRowJS cfg r row.length (embedRow prevRow) 0 row
        (embedRow []) (embedState st) =
        (embedRow (scanRow cfg r row.length prevRow 0 row [] st).1,
         embedState (scanRow cfg r row.length prevRow 0 row [] st).2) :=
      scanRowJS_embed cfg r row.length prevRow
        (fun h => by rw [hW]; exact h8 h)
        (fun hr => by rw [hW]; exact hprev hr)
        row 0 [] st rfl (by simp)
    rw [show (embedRow [] : List JSCell) = [] from rfl] at hrow
    rw [hrow]
    have happ : embedGrid acc ++ [embedRow (scanRow cfg r row.length prevRow 0 row [] st).1] =
        embedGrid (acc ++ [(scanRow cfg r row.length prevRow 0 row [] st).1]) := by
      rw [embedGrid, embedGrid, List.map_append]
      rfl
    rw [happ]
    exact ih (r + 1) _ _ _ (fun row' h => hrows row' (List.mem_cons_of_mem _ h))
      (fun _ => by rw [scanRow_len]; simpa using hW)

theorem resolveRowJS_embed (eqv : List (Nat × List Nat))
    (hne : ∀ v : Nat, (findClass eqv v).getD [v] ≠ []) (r : Nat) :
    ∀ (cells : List (Option Nat)) (c : Nat) (acc : List (Option Nat))
      (ids : List (Nat × Pos)),
      resolveRowJS (embedEqv eqv) r c (embedRow cells) (embedRow acc) (embedIds ids) =
        (embedRow (resolveRow eqv r c cells acc ids).1,
         embedIds (resolveRow eqv r c cells acc ids).2) := by
  intro cells
  induction cells with
  | nil => intro c acc ids; rfl
  | cons cell rest ih =>
    intro c acc ids
    cases cell with
    | none =>
      show resolveRowJS (embedEqv eqv) r c (none :: embedRow rest)
        (embedRow acc) (embedIds ids) = _
      rw [resolveRowJS, resolveRow]
      have happ : embedRow acc ++ [none] = embedRow (acc ++ [none]) := by
        rw [embedRow, embedRow, List.map_append]; rfl
      rw [happ]
      exact ih (c + 1) _ _
    | some value =>
      show resolveRowJS (embedEqv eqv) r c (some (JSVal.num value) :: embedRow rest)
        (embedRow acc) (embedIds ids) = _
      rw [resolveRowJS, resolveRow]
      by_cases h0 : value ≠ 0
      · rw [if_pos h0, if_pos h0]
        rw [resolveValueJS_embed value (hne value), hasIdJS_embed]
        have happ : embedRow acc ++ [some (JSVal.num (resolveValue eqv value))] =
            embedRow (acc ++ [some (resolveValue eqv value)]) := by
          rw [embedRow, embedRow, List.map_append]; rfl
        rw [happ]
        by_cases hhas : hasId ids (resolveValue eqv value) = true
        · rw [if_pos hhas, if_pos hhas]
          exact ih (c + 1) _ _
        · rw [if_neg hhas, if_neg hhas]
          have hids : embedIds ids ++ [(JSVal.num (resolveValue eqv value), (⟨(r : Int), (c : Int)⟩ : Pos))] =
              embedIds (ids ++ [(resolveValue eqv value, (⟨(r : Int), (c : Int)⟩ : Pos))]) := by
            rw [embedIds, embedIds, List.map_append]; rfl
          rw [hids]
          exact ih (c + 1) _ _
      · rw [if_neg h0, if_neg h0]
        have happ : embedRow acc ++ [some (JSVal.num value)] =
            embedRow (acc ++ [some value]) := by
          rw [embedRow, embedRow, List.map_append]; rfl
        rw [happ]
        exact ih (c + 1) _ _

theorem resolveRowsJS_embed (eqv : List (Nat × List Nat))
    (hne : ∀ v : Nat, (findClass eqv v).getD [v] ≠ []) :
    ∀ (rows : List (List (Option Nat))) (r : Nat)
      (acc : List (List (Option Nat))) (ids : List (Nat × Pos)),
      resolveRowsJS (embedEqv eqv) r (embedGrid rows) (embedGrid acc) (embedIds ids) =
        (embedGrid (resolveRows eqv r rows acc ids).1,
         embedIds (resolveRows eqv r rows acc ids).2) := by
  intro rows
  induction rows with
  | nil => intro r acc ids; rfl
  | cons row rest ih =>
    intro r acc ids
    show resolveRowsJS (embedEqv eqv) r (embedRow row :: embedGrid rest)
      (embedGrid acc) (embedIds ids) = _
    rw [resolveRowsJS, resolveRows]
    have hrow : resolveRowJS (embedEqv eqv) r 0 (embedRow row) (embedRow [])
        (embedIds ids) =
        (embedRow (resolveRow eqv r 0 row [] ids).1,
         embedIds (resolveRow eqv r 0 row [] ids).2) :=
      resolveRowJS_embed eqv hne r row 0 [] ids
    rw [show (embedRow [] : List JSCell) = [] from rfl] at hrow
    rw [hrow]
    have happ : embedGrid acc ++ [embedRow (resolveRow eqv r 0 row [] ids).1] =
        embedGrid (acc ++ [(resolveRow eqv r 0 row [] ids).1]) := by
      rw [embedGrid, embedGrid, List.map_append]; rfl
    rw [happ]
    exact ih (r + 1) _ _

/-- **The bridge**: on a rectangular mask whose rows are at least as long as
the mask is tall whenever the pass is 8-connected, the JS-semantics labeler
computes exactly the sanitized labeler (no lookup can leave the grid, so no
`undefined` ever enters `validIds`). -/
theorem bccJS_embed (mask : List (List Bool)) (invert : Bool) (conn : Nat) (W : Nat)
    (hrect : ∀ row ∈ mask, row.length = W)
    (h8 : conn = 8 → mask.length ≤ W) :
    buildConnectedComponentsJS mask invert conn =
      ⟨embedGrid (buildConnectedComponents mask invert conn).components,
       embedIds (buildConnectedComponents mask invert conn).ids⟩ := by
  have hwf : EqvWf (scanState mask invert conn).eqv := (scanGrid_inv mask invert conn).wf
  have hne : ∀ v : Nat, (findClass (scanState mask invert conn).eqv v).getD [v] ≠ [] := by
    intro v
    cases hf : findClass (scanState mask invert conn).eqv v with
    | none => simp
    | some C =>
      rw [Option.getD_some]
      exact List.ne_nil_of_mem (hwf v C hf).1
  have hscan : scanRowsJS ⟨invert, conn, mask.length⟩ 0 mask [] [] ⟨1, []⟩ =
      (embedGrid (scanRows ⟨invert, conn, mask.length⟩ 0 mask [] [] ⟨1, []⟩).1,
       embedState (scanRows ⟨invert, conn, mask.length⟩ 0 mask [] [] ⟨1, []⟩).2) :=
    scanRowsJS_embed ⟨invert, conn, mask.length⟩ W h8 mask 0 [] [] ⟨1, []⟩ hrect
      (by omega)
  have hres : resolveRowsJS
      (embedState (scanRows ⟨invert, conn, mask.length⟩ 0 mask [] [] ⟨1, []⟩).2).eqv 0
      (embedGrid (scanRows ⟨invert, conn, mask.length⟩ 0 mask [] [] ⟨1, []⟩).1) [] [] =
      (embedGrid (resolveRows (scanRows ⟨invert, conn, mask.length⟩ 0 mask [] [] ⟨1, []⟩).2.eqv
        0 (scanRows ⟨invert, conn, mask.length⟩ 0 mask [] [] ⟨1, []⟩).1 [] []).1,
       embedIds (resolveRows (scanRows ⟨invert, conn, mask.length⟩ 0 mask [] [] ⟨1, []⟩).2.eqv
        0 (scanRows ⟨invert, conn, mask.length⟩ 0 mask [] [] ⟨1, []⟩).1 [] []).2) :=
    resolveRowsJS_embed (scanRows ⟨invert, conn, mask.length⟩ 0 mask [] [] ⟨1, []⟩).2.eqv
      hne (scanRows ⟨invert, conn, mask.length⟩ 0 mask [] [] ⟨1, []⟩).1 0 [] []
  unfold buildConnectedComponentsJS buildConnectedComponents
  simp only []
  rw [hscan]
  simp only []
  rw [hres]

/-! ## Bridge: tracer and compositor over a JS label map with a numeric id

The tracer compares cells with `=== componentId`; for a numeric id every
non-number cell compares false, so the walk over a JS grid with id `num k`
equals the walk over the grid's numeric restriction. -/

/-- The numeric restriction of a JS cell (`null`, `NaN`, `undefined` ↦
`none`). -/
def stripCell : JSCell → Option Nat
  | some (.num n) => some n
  | _ => none

/-- The numeric restriction of a JS grid. -/
def stripGrid (g : JSGrid) : LabelGrid := g.map (List.map stripCell)

theorem stripCell_embedCell (o : Option Nat) : stripCell (embedCell o) = o := by
  cases o <;> rfl

theorem stripRow_embedRow (row : List (Option Nat)) :
    List.map stripCell (embedRow row) = row := by
  induction row with
  | nil => rfl
  | cons c rest ih =>
    show stripCell (embedCell c) :: List.map stripCell (embedRow rest) = c :: rest
    rw [stripCell_embedCell, ih]

theorem stripGrid_embedGrid (g : LabelGrid) : stripGrid (embedGrid g) = g := by
  induction g with
  | nil => rfl
  | cons row rest ih =>
    show List.map stripCell (embedRow row) :: stripGrid (embedGrid rest) = row :: rest
    rw [stripRow_embedRow, ih]

theorem jsEqCell_num (cell : JSCell) (k : Nat) :
    jsEqCell cell (.num k) = decide (stripCell cell = some k) := by
  cases cell with
  | none => rfl
  | some v => cases v <;> simp [jsEqCell, jsEq, stripCell]

theorem getD_map_strip (l : List JSCell) : ∀ i : Nat,
    (l.map stripCell).getD i none = stripCell (l.getD i none) := by
  induction l with
  | nil => intro i; cases i <;> rfl
  | cons x rest ih => intro i; cases i with | zero => rfl | succ i' => exact ih i'

theorem getD_map_stripRow (g : JSGrid) : ∀ i : Nat,
    (g.map (List.map stripCell)).getD i [] = List.map stripCell (g.getD i []) := by
  induction g with
  | nil => intro i; cases i <;> rfl
  | cons x rest ih => intro i; cases i with | zero => rfl | succ i' => exact ih i'

theorem cellAt_stripGrid (g : JSGrid) (r c : Int) :
    cellAt (stripGrid g) r c = stripCell (cellAtJS g r c) := by
  unfold cellAt cellAtJS
  by_cases hneg : r < 0 ∨ c < 0
  · rw [if_pos hneg, if_pos hneg]; rfl
  · rw [if_neg hneg, if_neg hneg]
    unfold stripGrid
    rw [getD_map_stripRow, getD_map_strip]

theorem traceLoopJS_strip (g : JSGrid) (k : Nat) (drawer : PathDrawer)
    (start : Pos) (oo : Directions) :
    ∀ (fuel : Nat) (origin : Directions) (current : Pos),
      traceLoopJS g (.num k) drawer start oo fuel origin current =
        traceLoop (stripGrid g) k drawer start oo fuel origin current := by
  intro fuel
  induction fuel with
  | zero => intro origin current; rfl
  | succ n ih =>
    intro origin current
    rw [traceLoopJS, traceLoop]
    rw [jsEqCell_num, jsEqCell_num, jsEqCell_num, jsEqCell_num,
      ← cellAt_stripGrid, ← cellAt_stripGrid, ← cellAt_stripGrid, ← cellAt_stripGrid]
    cases hd : determineNextDirection origin
        (decide (cellAt (stripGrid g) current.row (current.col - 1) = some k))
        (decide (cellAt (stripGrid g) current.row (current.col + 1) = some k))
        (decide (cellAt (stripGrid g) (current.row - 1) current.col = some k))
        (decide (cellAt (stripGrid g) (current.row + 1) current.col = some k)) with
    | none => rfl
    | some nd =>
      simp only []
      by_cases hstop : moveDir current nd = start ∧ opposite nd = oo
      · rw [if_pos hstop, if_pos hstop]
      · rw [if_neg hstop, if_neg hstop, ih]

theorem startOriginJS_strip (g : JSGrid) (k : Nat) (start : Pos)
    (moveRight : Bool) (dotSize : ℚ) :
    startOriginJS g (.num k) start moveRight dotSize =
      startOrigin (stripGrid g) k start moveRight dotSize := by
  unfold startOriginJS startOrigin
  have h1 : (jsEqCell (cellAtJS g start.row (start.col + 1)) (.num k) = true ∧
      moveRight = false) ↔
      (cellAt (stripGrid g) start.row (start.col + 1) = some k ∧ moveRight = false) := by
    rw [jsEqCell_num, ← cellAt_stripGrid]
    simp
  have h2 : (jsEqCell (cellAtJS g (start.row + 1) start.col) (.num k) = true) ↔
      (cellAt (stripGrid g) (start.row + 1) start.col = some k) := by
    rw [jsEqCell_num, ← cellAt_stripGrid]
    simp
  by_cases hc1 : cellAt (stripGrid g) start.row (start.col + 1) = some k ∧ moveRight = false
  · rw [if_pos (h1.2 hc1), if_pos hc1]
  · rw [if_neg (fun h => hc1 (h1.1 h)), if_neg hc1]
    by_cases hc2 : cellAt (stripGrid g) (start.row + 1) start.col = some k
    · rw [if_pos (h2.2 hc2), if_pos hc2]
    · rw [if_neg (fun h => hc2 (h2.1 h)), if_neg hc2]

theorem renderComponentToPathJS_strip (k : Nat) (g : JSGrid) (offset : ℚ × ℚ)
    (start : Pos) (drawer : PathDrawer) (moveRight : Bool) (dotSize : ℚ) (fuel : Nat) :
    renderComponentToPathJS (.num k) g offset start drawer moveRight dotSize fuel =
      renderComponentToPath k (stripGrid g) offset start drawer moveRight dotSize fuel := by
  unfold renderComponentToPathJS renderComponentToPath
  simp only []
  rw [startOriginJS_strip, traceLoopJS_strip]

/-! Compositor bridge: on embedded grids and registries with numeric keys the
JS compositor computes the sanitized one. -/

theorem getD_embedRow_cell (l : List (Option Nat)) : ∀ i : Nat,
    (l.map embedCell).getD i none = embedCell (l.getD i none) := by
  induction l with
  | nil => intro i; cases i <;> rfl
  | cons x rest ih => intro i; cases i with | zero => rfl | succ i' => exact ih i'

theorem getD_embedGrid_row (g : LabelGrid) : ∀ i : Nat,
    (g.map embedRow).getD i [] = embedRow (g.getD i []) := by
  induction g with
  | nil => intro i; cases i <;> rfl
  | cons x rest ih => intro i; cases i with | zero => rfl | succ i' => exact ih i'

theorem cellAtJS_embedGrid (g : LabelGrid) (r c : Int) :
    cellAtJS (embedGrid g) r c = embedCell (cellAt g r c) := by
  unfold cellAt cellAtJS
  by_cases hneg : r < 0 ∨ c < 0
  · rw [if_pos hneg, if_pos hneg]; rfl
  · rw [if_neg hneg, if_neg hneg]
    unfold embedGrid
    rw [getD_embedGrid_row]
    unfold embedRow
    rw [getD_embedRow_cell]

theorem pushGroupJS_embed (m : List (Nat × List Nat)) (k v : Nat) :
    pushGroupJS (embedGroups m) (.num k) (.num v) = embedGroups (pushGroup m k v) := by
  induction m with
  | nil => rfl
  | cons p rest ih =>
    obtain ⟨a, l⟩ := p
    show pushGroupJS ((JSVal.num a, l.map JSVal.num) :: embedGroups rest) (.num k) (.num v) = _
    rw [pushGroupJS, pushGroup]
    by_cases hak : a = k
    · rw [if_pos (by rw [hak]), if_pos hak]
      show (JSVal.num a, l.map JSVal.num ++ [JSVal.num v]) :: embedGroups rest = _
      rw [show l.map JSVal.num ++ [JSVal.num v] = (l ++ [v]).map JSVal.num by
        rw [List.map_append]; rfl]
      rfl
    · rw [if_neg (by simp [hak]), if_neg hak]
      show (JSVal.num a, l.map JSVal.num) :: pushGroupJS (embedGroups rest) (.num k) (.num v) = _
      rw [ih]
      rfl

theorem findStartJS_embed (ids : List (Nat × Pos)) (k : Nat) :
    findStartJS (embedIds ids) (.num k) = findStart ids k := by
  induction ids with
  | nil => rfl
  | cons p rest ih =>
    obtain ⟨a, pos⟩ := p
    show findStartJS ((JSVal.num a, pos) :: embedIds rest) (.num k) = _
    rw [findStartJS, findStart]
    by_cases hak : a = k
    · rw [if_pos (by rw [hak]), if_pos hak]
    · rw [if_neg (by simp [hak]), if_neg hak]
      exact ih

theorem bgGroupStepJS_embed (fg : LabelGrid) (acc : List (Nat × List Nat))
    (id : Nat) (pos : Pos) :
    bgGroupStepJS (embedGrid fg) (embedGroups acc) (.num id, pos) =
      embedGroups (bgGroupStep fg acc (id, pos)) := by
  unfold bgGroupStepJS bgGroupStep
  simp only []
  rw [cellAtJS_embedGrid]
  cases hc : cellAt fg pos.row (pos.col - 1) with
  | none => rfl
  | some s =>
    show (if s = 0 ∨ jsLe1 (JSVal.num id) = true then embedGroups acc
        else pushGroupJS (embedGroups acc) (.num s) (.num id)) =
      embedGroups (if s = 0 ∨ id ≤ 1 then acc else pushGroup acc s id)
    by_cases hcond : s = 0 ∨ id ≤ 1
    · rw [if_pos ?_, if_pos hcond]
      rcases hcond with h | h
      · exact Or.inl h
      · exact Or.inr (by simp [jsLe1]; omega)
    · rw [if_neg ?_, if_neg hcond]
      · exact pushGroupJS_embed acc s id
      · intro h
        rcases h with h | h
        · exact hcond (Or.inl h)
        · exact hcond (Or.inr (by simp [jsLe1] at h; omega))

theorem backgroundPathsForComponentJS_embed (fg : LabelGrid) (bgids : List (Nat × Pos)) :
    backgroundPathsForComponentJS (embedGrid fg) (embedIds bgids) =
      embedGroups (backgroundPathsForComponent fg bgids) := by
  unfold backgroundPathsForComponentJS backgroundPathsForComponent
  suffices h : ∀ (l : List (Nat × Pos)) (acc : List (Nat × List Nat)),
      (embedIds l).foldl (bgGroupStepJS (embedGrid fg)) (embedGroups acc) =
        embedGroups (l.foldl (bgGroupStep fg) acc) from h bgids []
  intro l
  induction l with
  | nil => intro acc; rfl
  | cons p rest ih =>
    intro acc
    obtain ⟨a, pos⟩ := p
    show ((JSVal.num a, pos) :: embedIds rest).foldl _ _ = _
    rw [List.foldl_cons, List.foldl_cons, bgGroupStepJS_embed fg acc a pos]
    exact ih (bgGroupStep fg acc (a, pos))

theorem findGroups_embed (m : List (Nat × List Nat)) (k : Nat) :
    ((embedGroups m).find? (fun q => q.1 = JSVal.num k)).map Prod.snd =
      ((m.find? (fun q => q.1 = k)).map Prod.snd).map (List.map JSVal.num) := by
  induction m with
  | nil => rfl
  | cons p rest ih =>
    obtain ⟨a, l⟩ := p
    show (((JSVal.num a, l.map JSVal.num) :: embedGroups rest).find? _).map Prod.snd = _
    by_cases hak : a = k
    · rw [List.find?_cons_of_pos _ (by simp [hak]), List.find?_cons_of_pos _ (by simp [hak])]
      rfl
    · rw [List.find?_cons_of_neg _ (by simp [hak]), List.find?_cons_of_neg _ (by simp [hak])]
      exact ih

theorem holeAppendStepJS_embed (fg : LabelGrid) (bgIds : List (Nat × Pos))
    (offset : ℚ × ℚ) (drawer : PathDrawer) (dotSize : ℚ) (fuel : Nat) (f : Nat)
    (fullPath : Option (List Seg)) (hid : Nat) :
    holeAppendStepJS (embedGrid fg) (embedIds bgIds) offset drawer dotSize fuel
        (.num f) fullPath (.num hid) =
      holeAppendStep fg bgIds offset drawer dotSize fuel f fullPath hid := by
  unfold holeAppendStepJS holeAppendStep
  rw [findStartJS_embed]
  cases fullPath with
  | none => cases findStart bgIds hid <;> rfl
  | some fp =>
    cases hf : findStart bgIds hid with
    | none => rfl
    | some start =>
      simp only []
      rw [renderComponentToPathJS_strip, stripGrid_embedGrid]

theorem componentFullPathJS_embed (fg : LabelGrid) (bgIds : List (Nat × Pos))
    (bgFor : List (Nat × List Nat)) (offset : ℚ × ℚ) (drawer : PathDrawer)
    (dotSize : ℚ) (fuel : Nat) (f : Nat) (path : Option (List Seg)) :
    componentFullPathJS (embedGrid fg) (embedIds bgIds) (embedGroups bgFor) offset
        drawer dotSize fuel (.num f) path =
      componentFullPath fg bgIds bgFor offset drawer dotSize fuel f path := by
  unfold componentFullPathJS componentFullPath
  simp only []
  rw [findGroups_embed]
  cases hf : (bgFor.find? (fun q => q.1 = f)).map Prod.snd with
  | none => rfl
  | some l =>
    show (l.map JSVal.num).foldl _ path = l.foldl _ path
    clear hf
    induction l generalizing path with
    | nil => rfl
    | cons x rest ih =>
      show (JSVal.num x :: rest.map JSVal.num).foldl _ path = _
      rw [List.foldl_cons, List.foldl_cons, holeAppendStepJS_embed]
      exact ih _

theorem drawPathsJS_embed (comps : LabelGrid) (bgids : List (Nat × Pos))
    (bgFor : List (Nat × List Nat)) (offset : ℚ × ℚ) (drawer : PathDrawer)
    (dotSize : ℚ) (fuel : Nat) :
    ∀ ids : List (Nat × Pos),
      ((embedIds ids).map (fun p =>
          (p.1, (renderComponentToPathJS p.1 (embedGrid comps) offset p.2 drawer
            false dotSize fuel).map Prod.fst))).map
        (fun q => (q.1, componentFullPathJS (embedGrid comps) (embedIds bgids)
          (embedGroups bgFor) offset drawer dotSize fuel q.1 q.2)) =
      ((ids.map (fun p =>
          (p.1, (renderComponentToPath p.1 comps offset p.2 drawer
            false dotSize fuel).map Prod.fst))).map
        (fun q => (q.1, componentFullPath comps bgids bgFor offset drawer dotSize
          fuel q.1 q.2))).map (fun q => (JSVal.num q.1, q.2)) := by
  intro ids
  induction ids with
  | nil => rfl
  | cons p rest ih =>
    obtain ⟨a, pos⟩ := p
    show (((JSVal.num a, pos) :: embedIds rest).map _).map _ = _
    simp only [List.map_cons]
    rw [ih, renderComponentToPathJS_strip, stripGrid_embedGrid, componentFullPathJS_embed]

/-- The compositor bridge: on a rectangular mask with at least as many
columns as rows, `drawComponents` with JS semantics is the sanitized
compositor with numeric keys. -/
theorem drawComponentsJS_embed (mask : List (List Bool)) (offset : ℚ × ℚ)
    (drawer : PathDrawer) (dotSize : ℚ) (fuel : Nat) (W : Nat)
    (hrect : ∀ row ∈ mask, row.length = W) (h8 : mask.length ≤ W) :
    drawComponentsJS mask offset drawer dotSize fuel =
      (drawComponents mask offset drawer dotSize fuel).map
        (fun q => (JSVal.num q.1, q.2)) := by
  unfold drawComponentsJS drawComponents
  simp only []
  rw [bccJS_embed mask false 4 W hrect (fun _ => h8),
    bccJS_embed mask true 8 W hrect (fun _ => h8)]
  simp only []
  rw [backgroundPathsForComponentJS_embed]
  exact drawPathsJS_embed _ _ _ _ _ _ _ _

/-- Membership in an embedded registry. -/
theorem mem_embedIds {k : Nat} {pos : Pos} {ids : List (Nat × Pos)} :
    (JSVal.num k, pos) ∈ embedIds ids ↔ (k, pos) ∈ ids := by
  unfold embedIds
  rw [List.mem_map]
  constructor
  · rintro ⟨⟨a, p⟩, hmem, heq⟩
    have h1 : JSVal.num a = JSVal.num k := congrArg Prod.fst heq
    have h2 : p = pos := congrArg Prod.snd heq
    obtain rfl : a = k := JSVal.num.inj h1
    rw [h2] at hmem
    exact hmem
  · intro h
    exact ⟨(k, pos), h, rfl⟩

/-- Sanitized-model termination with the exit mode: the walk either stops at
once through the single-dot break (empty direction sequence) or returns to
its start cell with its starting orientation. -/
theorem trace_terminates_full :
    ∀ (mask : List (List Bool)) (invert : Bool) (conn : Nat) (offset : ℚ × ℚ)
      (drawer : PathDrawer) (dotSize : ℚ) (id : Nat) (pos : Pos),
      (id, pos) ∈ (buildConnectedComponents mask invert conn).ids →
      ∃ fuel, fuel ≤ 4 * ((buildConnectedComponents mask invert conn).components.length *
          maxRowLen (buildConnectedComponents mask invert conn).components) + 1 ∧
        ∃ segs dirs,
          renderComponentToPath id (buildConnectedComponents mask invert conn).components
            offset pos drawer false dotSize fuel = some (segs, dirs) ∧
          applyDirs pos dirs = pos ∧
          (dirs = [] ∨ ∃ d, dirs.getLast? = some d ∧
            opposite d = (startOrigin (buildConnectedComponents mask invert conn).components
              id pos false dotSize).1) := by
  intro mask invert conn offset drawer dotSize id pos hmem
  obtain ⟨hcell, hleft, htop⟩ := registered_start_facts mask invert conn hmem
  by_cases hR : cellAt (buildConnectedComponents mask invert conn).components
      pos.row (pos.col + 1) = some id
  · have hso : startOrigin (buildConnectedComponents mask invert conn).components
        id pos false dotSize = (.right, [.moveRel dotSize 0]) := by
      rw [startOrigin, if_pos ⟨hR, rfl⟩]
    have hInD : InD (buildConnectedComponents mask invert conn).components id
        (pos, .right) := ⟨hcell, hR⟩
    obtain ⟨n, hn1, hnb, hcyc⟩ := exists_cycle hInD
    have hloop := traceLoop_some_of_cycle
      (buildConnectedComponents mask invert conn).components id drawer pos .right
      n n (pos, .right) hn1 (le_refl n) hcyc
    rw [Option.isSome_iff_exists] at hloop
    obtain ⟨p, hp⟩ := hloop
    obtain ⟨segs', dirs⟩ := p
    have hclosed := traceLoop_closed
      (buildConnectedComponents mask invert conn).components id drawer pos .right
      n .right pos segs' dirs hcell hR hp
    refine ⟨n, by omega,
      [Seg.moveAbs (pos.col * dotSize + offset.1) (pos.row * dotSize + offset.2)] ++
        [Seg.moveRel dotSize 0] ++ segs', dirs, ?_, hclosed.1, ?_⟩
    · rw [renderComponentToPath]
      simp only [hso]
      rw [hp]
    · obtain ⟨-, d, hlast, hopp⟩ := hclosed
      refine Or.inr ⟨d, hlast, ?_⟩
      rw [hso]
      exact hopp
  · by_cases hB : cellAt (buildConnectedComponents mask invert conn).components
        (pos.row + 1) pos.col = some id
    · have hso : startOrigin (buildConnectedComponents mask invert conn).components
          id pos false dotSize = (.bottom, [.moveRel dotSize dotSize]) := by
        rw [startOrigin, if_neg (fun h => hR h.1), if_pos hB]
      have hInD : InD (buildConnectedComponents mask invert conn).components id
          (pos, .bottom) := ⟨hcell, hB⟩
      obtain ⟨n, hn1, hnb, hcyc⟩ := exists_cycle hInD
      have hloop := traceLoop_some_of_cycle
        (buildConnectedComponents mask invert conn).components id drawer pos .bottom
        n n (pos, .bottom) hn1 (le_refl n) hcyc
      rw [Option.isSome_iff_exists] at hloop
      obtain ⟨p, hp⟩ := hloop
      obtain ⟨segs', dirs⟩ := p
      have hclosed := traceLoop_closed
        (buildConnectedComponents mask invert conn).components id drawer pos .bottom
        n .bottom pos segs' dirs hcell hB hp
      refine ⟨n, by omega,
        [Seg.moveAbs (pos.col * dotSize + offset.1) (pos.row * dotSize + offset.2)] ++
          [Seg.moveRel dotSize dotSize] ++ segs', dirs, ?_, hclosed.1, ?_⟩
      · rw [renderComponentToPath]
        simp only [hso]
        rw [hp]
      · obtain ⟨-, d, hlast, hopp⟩ := hclosed
        refine Or.inr ⟨d, hlast, ?_⟩
        rw [hso]
        exact hopp
    · have hso : startOrigin (buildConnectedComponents mask invert conn).components
          id pos false dotSize = (.top, []) := by
        rw [startOrigin, if_neg (fun h => hR h.1), if_neg hB]
      refine ⟨1, by omega,
        [Seg.moveAbs (pos.col * dotSize + offset.1) (pos.row * dotSize + offset.2)] ++
          [] ++ drawer.singleDot, [], ?_, rfl, Or.inl rfl⟩
      rw [renderComponentToPath]
      simp only [hso]
      rw [show (1 : Nat) = 0 + 1 from rfl, traceLoop]
      rw [decide_eq_false hleft, decide_eq_false hR, decide_eq_false htop,
        decide_eq_false hB]
      rfl

/-! ## Corrected claims about the labeler and its consumers -/

/-- **C1** counterexample: on the 3×1 all-background mask (rectangular, fewer
columns than rows), the 8-connected inverted pass of the program keeps the
out-of-range top-right `undefined` through the `!== null` filter, `Math.min`
turns it into `NaN`, and — the class of raw id `1` containing `undefined` —
every labeled cell resolves to `NaN` instead of the minimum id of its
equivalence class, and the registry's sole key is `NaN`; the sanitized model
labels every cell `1`. `NaN` is not a number, so no labeled cell holds the
minimum id of its class. -/
theorem bcc_nonsquare_nan_counterexample :
    (buildConnectedComponentsJS [[false], [false], [false]] true 8).components =
      [[some JSVal.nan], [some JSVal.nan], [some JSVal.nan]] ∧
    (buildConnectedComponentsJS [[false], [false], [false]] true 8).ids =
      [(JSVal.nan, ⟨0, 0⟩)] ∧
    (buildConnectedComponents [[false], [false], [false]] true 8).components =
      [[some 1], [some 1], [some 1]] ∧
    (∀ n : Nat, JSVal.nan ≠ JSVal.num n) :=
  ⟨by decide, by decide, by decide, fun n h => JSVal.noConfusion h⟩

/-- **C1** (corrected): the claimed fresh/copy/min-and-union labeling with
min-of-class resolution and raster-first registry holds for the program on
every mask whose neighbor lookups stay inside the grid — rectangular with at
least as many columns as rows: there the JS-value semantics coincides with
the numeric model (first conjunct), and the numeric model satisfies every
clause of the claim (remaining conjuncts). -/
theorem buildConnectedComponents_correct_faithful :
    ∀ (mask : List (List Bool)) (invert : Bool) (conn : Nat) (W : Nat),
      (∀ row ∈ mask, row.length = W) → mask.length ≤ W →
      (buildConnectedComponentsJS mask invert conn =
        ⟨embedGrid (buildConnectedComponents mask invert conn).components,
         embedIds (buildConnectedComponents mask invert conn).ids⟩) ∧
      ((∀ r c v, labelOf (scanGrid mask invert conn) r c = some v →
        labelOf (buildConnectedComponents mask invert conn).components r c =
          some (listMin ((findClass (scanState mask invert conn).eqv v).getD [v])) ∧
        listMin ((findClass (scanState mask invert conn).eqv v).getD [v]) ∈
          (findClass (scanState mask invert conn).eqv v).getD [v] ∧
        (∀ x ∈ (findClass (scanState mask invert conn).eqv v).getD [v],
          listMin ((findClass (scanState mask invert conn).eqv v).getD [v]) ≤ x)) ∧
      (∀ r c u v,
        labelOf (buildConnectedComponents mask invert conn).components r c = some u →
        labelOf (buildConnectedComponents mask invert conn).components r (c + 1) = some v →
        u = v) ∧
      (∀ r c u v,
        labelOf (buildConnectedComponents mask invert conn).components r c = some u →
        labelOf (buildConnectedComponents mask invert conn).components (r + 1) c = some v →
        u = v) ∧
      (∀ id pos, (id, pos) ∈ (buildConnectedComponents mask invert conn).ids →
        ∃ pr pc : Nat, pos = ⟨(pr : Int), (pc : Int)⟩ ∧
          labelOf (buildConnectedComponents mask invert conn).components pr pc = some id ∧
          ∀ r' c', rasterBefore r' c' pr pc →
            labelOf (buildConnectedComponents mask invert conn).components r' c' ≠ some id) ∧
      (∀ r c u,
        labelOf (buildConnectedComponents mask invert conn).components r c = some u →
        hasId (buildConnectedComponents mask invert conn).ids u = true)) :=
  fun mask invert conn W hrect hW =>
    ⟨bccJS_embed mask invert conn W hrect (fun _ => hW),
     bcc_correct_sanitized mask invert conn⟩

/-- Witness for the corrected labeling claim on the rectangular mask
`[[true, true]]`. -/
theorem buildConnectedComponents_correct_faithful_witness :
    buildConnectedComponentsJS [[true, true]] false 4 =
      ⟨embedGrid (buildConnectedComponents [[true, true]] false 4).components,
       embedIds (buildConnectedComponents [[true, true]] false 4).ids⟩ :=
  (buildConnectedComponents_correct_faithful [[true, true]] false 4 2
    (by decide) (by decide)).1

/-- **C5** counterexample: on the 3×1 all-background mask, the border
background cell `(0,0)` — whose component consists of border cells only —
resolves to `NaN`, not to the synthetic border id `1`, and the program's
registry has no key `1` at all: the border-iff fails for the program on
non-square masks. -/
theorem background_border_nan_counterexample :
    cellAtJS (buildConnectedComponentsJS [[false], [false], [false]] true 8).components
        0 0 = some JSVal.nan ∧
    cellAtJS (buildConnectedComponentsJS [[false], [false], [false]] true 8).components
        0 0 ≠ some (JSVal.num 1) ∧
    hasIdJS (buildConnectedComponentsJS [[false], [false], [false]] true 8).ids
        (JSVal.num 1) = false :=
  ⟨by decide, by decide, by decide⟩

/-- **C5** (corrected): on rectangular masks with at least as many columns as
rows the program's 8-connected inverted pass equals the numeric model (first
conjunct), whose cells resolve to canonical id `1` exactly when their
component touches the grid border (second conjunct). -/
theorem background_border_iff_faithful :
    ∀ (mask : List (List Bool)) (W : Nat),
      (∀ row ∈ mask, row.length = W) → mask.length ≤ W →
      (buildConnectedComponentsJS mask true 8 =
        ⟨embedGrid (buildConnectedComponents mask true 8).components,
         embedIds (buildConnectedComponents mask true 8).ids⟩) ∧
      (∀ r c v : Nat,
        labelOf (buildConnectedComponents mask true 8).components r c = some v →
        (v = 1 ↔ ∃ r0 c0,
          labelOf (buildConnectedComponents mask true 8).components r0 c0 = some v ∧
          (c0 = 0 ∨ r0 = 0 ∨ c0 = (mask.getD r0 []).length - 1 ∨
            r0 = mask.length - 1))) :=
  fun mask W hrect hW =>
    ⟨bccJS_embed mask true 8 W hrect (fun _ => hW),
     fun r c v hv => background_border_iff_sanitized mask r c v hv⟩

/-- Witness for the corrected border-iff claim on the square 3×3 ring mask. -/
theorem background_border_iff_faithful_witness :
    buildConnectedComponentsJS [[true, true, true], [true, false, true],
        [true, true, true]] true 8 =
      ⟨embedGrid (buildConnectedComponents [[true, true, true], [true, false, true],
          [true, true, true]] true 8).components,
       embedIds (buildConnectedComponents [[true, true, true], [true, false, true],
          [true, true, true]] true 8).ids⟩ :=
  (background_border_iff_faithful [[true, true, true], [true, false, true],
    [true, true, true]] 3 (by decide) (by decide)).1

/-- **C6** counterexample: on the rectangular 3×2 mask with a foreground
column and a background column, the background pass resolves its component to
`NaN` (the out-of-range top-right `undefined` poisons the class), the
registry key is `NaN`, and — `NaN <= 1` being false — the compositor
registers that `NaN` id as a hole of foreground component `2`, although `NaN`
is not an id greater than `1`. -/
theorem hole_registration_nan_counterexample :
    backgroundPathsForComponentJS
        (buildConnectedComponentsJS [[true, false], [true, false], [true, false]]
          false 4).components
        (buildConnectedComponentsJS [[true, false], [true, false], [true, false]]
          true 8).ids =
      [(JSVal.num 2, [JSVal.nan])] ∧
    (∀ n : Nat, 1 < n → JSVal.nan ≠ JSVal.num n) :=
  ⟨by decide, fun n _ h => JSVal.noConfusion h⟩

/-- **C6** (corrected): on rectangular masks with at least as many columns as
rows — where no `NaN` id can arise — the program's compositor equals the
numeric one (first two conjuncts), and the numeric compositor registers a
background component as a hole exactly when its canonical id exceeds 1 and
the foreground label left of its start is truthy, appends each registered
hole's contour from the start shifted one cell up and one cell left, and
drops every other background component (remaining conjuncts). -/
theorem drawComponents_hole_registration_faithful
    (dotsMask : List (List Bool)) (offset : ℚ × ℚ) (drawer : PathDrawer)
    (dotSize : ℚ) (fuel : Nat) (W : Nat)
    (hrect : ∀ row ∈ dotsMask, row.length = W) (hW : dotsMask.length ≤ W) :
    (drawComponentsJS dotsMask offset drawer dotSize fuel =
      (drawComponents dotsMask offset drawer dotSize fuel).map
        (fun q => (JSVal.num q.1, q.2))) ∧
    (backgroundPathsForComponentJS
        (buildConnectedComponentsJS dotsMask false 4).components
        (buildConnectedComponentsJS dotsMask true 8).ids =
      embedGroups (backgroundPathsForComponent
        (buildConnectedComponents dotsMask false 4).components
        (buildConnectedComponents dotsMask true 8).ids)) ∧
    (∀ f id : Nat,
      (∃ l, (f, l) ∈ backgroundPathsForComponent
          (buildConnectedComponents dotsMask false 4).components
          (buildConnectedComponents dotsMask true 8).ids ∧ id ∈ l) ↔
        ∃ pos : Pos, (id, pos) ∈ (buildConnectedComponents dotsMask true 8).ids ∧
          1 < id ∧ f ≠ 0 ∧
          cellAt (buildConnectedComponents dotsMask false 4).components
            pos.row (pos.col - 1) = some f) ∧
    (∀ (f : Nat) (base : List Seg) (l : List Nat),
      ((backgroundPathsForComponent
          (buildConnectedComponents dotsMask false 4).components
          (buildConnectedComponents dotsMask true 8).ids).find?
            (fun q => q.1 = f)).map Prod.snd = some l →
      (∀ hid ∈ l, ∃ start sp,
        findStart (buildConnectedComponents dotsMask true 8).ids hid = some start ∧
        renderComponentToPath f (buildConnectedComponents dotsMask false 4).components
          offset ⟨start.row - 1, start.col - 1⟩ drawer true dotSize fuel = some sp) →
      componentFullPath (buildConnectedComponents dotsMask false 4).components
          (buildConnectedComponents dotsMask true 8).ids
          (backgroundPathsForComponent
            (buildConnectedComponents dotsMask false 4).components
            (buildConnectedComponents dotsMask true 8).ids)
          offset drawer dotSize fuel f (some base) =
        some (base ++ l.flatMap (holeContour
          (buildConnectedComponents dotsMask false 4).components
          (buildConnectedComponents dotsMask true 8).ids offset drawer dotSize fuel f))) ∧
    drawComponents dotsMask offset drawer dotSize fuel =
      (buildConnectedComponents dotsMask false 4).ids.map (fun p =>
        (p.1, componentFullPath (buildConnectedComponents dotsMask false 4).components
          (buildConnectedComponents dotsMask true 8).ids
          (backgroundPathsForComponent
            (buildConnectedComponents dotsMask false 4).components
            (buildConnectedComponents dotsMask true 8).ids)
          offset drawer dotSize fuel p.1
          ((renderComponentToPath p.1
            (buildConnectedComponents dotsMask false 4).components
            offset p.2 drawer false dotSize fuel).map Prod.fst))) := by
  refine ⟨drawComponentsJS_embed dotsMask offset drawer dotSize fuel W hrect hW, ?_,
    drawComponents_hole_registration_sanitized dotsMask offset drawer dotSize fuel⟩
  rw [bccJS_embed dotsMask false 4 W hrect (fun _ => hW),
    bccJS_embed dotsMask true 8 W hrect (fun _ => hW)]
  exact backgroundPathsForComponentJS_embed _ _

/-- Witness for the corrected hole-registration claim on the square 3×3 ring
mask. -/
theorem drawComponents_hole_registration_faithful_witness :
    drawComponentsJS [[true, true, true], [true, false, true], [true, true, true]]
        (0, 0) (squarePathDrawer 4) 4 100 =
      (drawComponents [[true, true, true], [true, false, true], [true, true, true]]
        (0, 0) (squarePathDrawer 4) 4 100).map (fun q => (JSVal.num q.1, q.2)) :=
  (drawComponents_hole_registration_faithful
    [[true, true, true], [true, false, true], [true, true, true]]
    (0, 0) (squarePathDrawer 4) 4 100 3 (by decide) (by decide)).1

/-- **C4** counterexample: the single-cell component of the mask `[[true]]`
has a registered start, and its walk terminates through the single-dot break
with an empty transition sequence — the loop's exit condition (return to the
start cell with the starting orientation) is never what stops it, so the
claim's "the walk returns to its start cell with its starting orientation"
does not describe this registered start. -/
theorem trace_single_dot_counterexample :
    (2, (⟨0, 0⟩ : Pos)) ∈ (buildConnectedComponents [[true]] false 4).ids ∧
    renderComponentToPath 2 (buildConnectedComponents [[true]] false 4).components
        (0, 0) ⟨0, 0⟩ (squarePathDrawer 4) false 4 1 =
      some ([.moveAbs (((0 : Int) : ℚ) * 4 + 0) (((0 : Int) : ℚ) * 4 + 0)] ++ [] ++
        (squarePathDrawer 4).singleDot, []) :=
  ⟨by decide, by rfl⟩

/-- **C4** (corrected): on rectangular masks with at least as many columns as
rows (correctly resolved label maps), the program's walk from every
registered start (JS registry = numeric registry, first conjunct) terminates
within fuel `4·rows·maxRowLen + 1` — proportional to the grid area, the
spec's own failure-mode bound — and either stops at once through the
single-dot break (empty direction sequence) or returns to its start cell
with its starting orientation. -/
theorem trace_terminates_faithful :
    ∀ (mask : List (List Bool)) (invert : Bool) (conn : Nat) (offset : ℚ × ℚ)
      (drawer : PathDrawer) (dotSize : ℚ) (id : Nat) (pos : Pos) (W : Nat),
      (∀ row ∈ mask, row.length = W) → mask.length ≤ W →
      (((JSVal.num id, pos) ∈ (buildConnectedComponentsJS mask invert conn).ids ↔
        (id, pos) ∈ (buildConnectedComponents mask invert conn).ids) ∧
      ((id, pos) ∈ (buildConnectedComponents mask invert conn).ids →
        ∃ fuel, fuel ≤ 4 * ((buildConnectedComponents mask invert conn).components.length *
            maxRowLen (buildConnectedComponents mask invert conn).components) + 1 ∧
          ∃ segs dirs,
            renderComponentToPathJS (JSVal.num id)
                (buildConnectedComponentsJS mask invert conn).components offset pos
                drawer false dotSize fuel = some (segs, dirs) ∧
            applyDirs pos dirs = pos ∧
            (dirs = [] ∨ ∃ d, dirs.getLast? = some d ∧
              opposite d = (startOrigin
                (buildConnectedComponents mask invert conn).components
                id pos false dotSize).1))) := by
  intro mask invert conn offset drawer dotSize id pos W hrect hW
  have hbridge := bccJS_embed mask invert conn W hrect (fun _ => hW)
  constructor
  · rw [hbridge]
    exact mem_embedIds
  · intro hmem
    obtain ⟨fuel, hfb, segs, dirs, hrender, happ, hdisj⟩ :=
      trace_terminates_full mask invert conn offset drawer dotSize id pos hmem
    refine ⟨fuel, hfb, segs, dirs, ?_, happ, hdisj⟩
    rw [hbridge]
    show renderComponentToPathJS (JSVal.num id)
      (embedGrid (buildConnectedComponents mask invert conn).components) offset pos
      drawer false dotSize fuel = some (segs, dirs)
    rw [renderComponentToPathJS_strip, stripGrid_embedGrid]
    exact hrender

/-- Witness for the corrected termination claim on the rectangular mask
`[[true, true]]`, registered start `(2, (0,0))`. -/
theorem trace_terminates_faithful_witness :
    ∃ fuel, fuel ≤ 4 * ((buildConnectedComponents [[true, true]] false 4).components.length *
        maxRowLen (buildConnectedComponents [[true, true]] false 4).components) + 1 ∧
      ∃ segs dirs,
        renderComponentToPathJS (JSVal.num 2)
            (buildConnectedComponentsJS [[true, true]] false 4).components (0, 0) ⟨0, 0⟩
            (squarePathDrawer 4) false 4 fuel = some (segs, dirs) ∧
        applyDirs ⟨0, 0⟩ dirs = (⟨0, 0⟩ : Pos) ∧
        (dirs = [] ∨ ∃ d, dirs.getLast? = some d ∧
          opposite d = (startOrigin
            (buildConnectedComponents [[true, true]] false 4).components
            2 ⟨0, 0⟩ false 4).1) :=
  (trace_terminates_faithful [[true, true]] false 4 (0, 0) (squarePathDrawer 4) 4 2
    ⟨0, 0⟩ 2 (by decide) (by decide)).2 (by decide)

end QRStyling
